import Mathlib

/-!
# Verification of the vector_db ANN engine against its specification

Shallow embedding of the core of the `vector_db` C++ repository
(`src/native/core/VectorStore.*`, `src/native/index/{PQIndex,IVFIndex,
HNSWIndex,HNSWPQIndex}.*`, `src/native/compute/*`) in Lean 4, together
with theorems settling the frozen claims about it.

Modelling conventions, used throughout:

* `float` values are embedded as exact rationals (`ℚ`).  All distance
  computations in the source are sums, differences and products of
  floats; the embedding performs them exactly.  Float literals are taken
  at their decimal face value.  The sentinel
  `std::numeric_limits<float>::max()` is embedded as the rational value
  of `FLT_MAX`, namely `2^128 - 2^104` (`floatMax` below): it is an
  ordinary float value that the source stores and compares like any
  other distance.
* C++ `int` indices and labels are embedded as `ℤ`; sizes and loop
  counters that are provably non-negative are embedded as `ℕ`.
* The mutable state of each index is a Lean structure; every mutating
  member function becomes a function from the state (and its explicit
  randomness, see next point) to the new state, paired with an
  `Except String` result where the C++ can throw.  A thrown exception
  leaves our modelled state components unchanged exactly where the
  source does (e.g. `VectorStore::add` rolls its `fetch_add` back).
* Randomness (`std::mt19937` driven level draws, k-means seeding draws)
  is passed in explicitly as oracle arguments; each claim quantifies
  over, or instantiates, those draws.
* `std::priority_queue` heaps are modelled as lists kept sorted by
  distance; `std::sort`/`std::partial_sort` on `std::pair<float,int>`
  are modelled by `List.insertionSort` under the lexicographic order on
  pairs.  Among elements that compare equal the C++ order is
  unspecified; the model fixes one arbitrary arrangement, which is
  observationally irrelevant because equal pairs are identical values.
* Loops whose C++ termination argument is extrinsic (beam search, greedy
  descent) are given an explicit fuel that dominates the C++ iteration
  count (each iteration pops one element of a queue whose total number
  of pushes is bounded by the visited-set discipline).
-/

namespace VectorDB

/-- A vector of single-precision floats, embedded as exact rationals. -/
abbrev Vec := List ℚ

/-- The rational value of `std::numeric_limits<float>::max()`
(`FLT_MAX = (2 - 2^-23) * 2^127`). -/
def floatMax : ℚ := 2 ^ 128 - 2 ^ 104

/-- `euclideanDistanceScalar` from `DistanceScalar.cpp`: the sum of
squared coordinate differences (no square root; the library works with
squared L2 throughout). -/
def sqDist (a b : Vec) : ℚ :=
  ((a.zip b).map (fun p => (p.1 - p.2) * (p.1 - p.2))).sum

/-- Dot product of two vectors. -/
def dotProd (a b : Vec) : ℚ :=
  ((a.zip b).map (fun p => p.1 * p.2)).sum

/-- `computeNorm` (`VectorStore.cpp` / `DistanceUtils.h`): the squared
L2 norm. -/
def normSq (a : Vec) : ℚ := (a.map (fun x => x * x)).sum

/-- The `m`-th subvector of width `subDim`:
`v + m*subDim .. v + (m+1)*subDim` in the source's pointer arithmetic. -/
def subVec (subDim m : ℕ) (v : Vec) : Vec :=
  (v.drop (m * subDim)).take subDim

/-- The lexicographic order of C++ `std::pair<float, int>::operator<`,
as a non-strict relation (`a ≤ b`). -/
def pairLe (a b : ℚ × ℤ) : Prop :=
  a.1 < b.1 ∨ (a.1 = b.1 ∧ a.2 ≤ b.2)

instance : DecidableRel pairLe := fun a b => by
  unfold pairLe; infer_instance

instance : IsTotal (ℚ × ℤ) pairLe where
  total a b := by
    rcases lt_trichotomy a.1 b.1 with h | h | h
    · exact Or.inl (Or.inl h)
    · rcases le_total a.2 b.2 with h2 | h2
      · exact Or.inl (Or.inr ⟨h, h2⟩)
      · exact Or.inr (Or.inr ⟨h.symm, h2⟩)
    · exact Or.inr (Or.inl h)

instance : IsTrans (ℚ × ℤ) pairLe where
  trans a b c hab hbc := by
    rcases hab with h1 | ⟨e1, l1⟩
    · rcases hbc with h2 | ⟨e2, _⟩
      · exact Or.inl (h1.trans h2)
      · exact Or.inl (e2 ▸ h1)
    · rcases hbc with h2 | ⟨e2, l2⟩
      · exact Or.inl (e1 ▸ h2)
      · exact Or.inr ⟨e1.trans e2, l1.trans l2⟩

/-- `std::sort` / `std::partial_sort` on `std::pair<float,int>`:
a permutation of the input, sorted under the lexicographic pair order. -/
def sortPairs (l : List (ℚ × ℤ)) : List (ℚ × ℤ) :=
  List.insertionSort pairLe l

/-! ## Vector store (`src/native/core/VectorStore.{h,cpp}`)

The source keeps three parallel arrays of length `maxElements_` and an
atomic `size_` counting the valid prefix.  The model keeps just the
valid prefix of each array; `size` is its length.  The claims are
settled for the sequential semantics of the operations (the
linearization the source's acquire/release discipline provides). -/

structure VectorStore where
  dim : ℕ
  maxElements : ℕ
  rows : List Vec
  ids : List ℤ
  norms : List ℚ

namespace VectorStore

/-- `size()`: the atomic counter, i.e. the number of valid rows. -/
def size (s : VectorStore) : ℕ := s.rows.length

/-- `getVector(index)`: `nullptr` (here `none`) for any index outside
`[0, size)`, otherwise the row. -/
def getVector (s : VectorStore) (index : ℤ) : Option Vec :=
  if index < 0 ∨ (s.size : ℤ) ≤ index then none
  else some (s.rows.getD index.toNat [])

/-- `getId(index)`: `-1` for any index outside `[0, size)`. -/
def getId (s : VectorStore) (index : ℤ) : ℤ :=
  if index < 0 ∨ (s.size : ℤ) ≤ index then -1
  else s.ids.getD index.toNat (-1)

/-- `getNorm(index)`: `0.0f` for any index outside `[0, size)`. -/
def getNorm (s : VectorStore) (index : ℤ) : ℚ :=
  if index < 0 ∨ (s.size : ℤ) ≤ index then 0
  else s.norms.getD index.toNat 0

/-- `VectorStore::add`.  The source reserves an index with
`size_.fetch_add`; if the reserved index is not below `maxElements_` it
rolls the reservation back (`fetch_sub`) and throws, leaving the store
as it was.  Otherwise the row, its norm and the id are written.
The model returns the post-state together with the result. -/
def add (s : VectorStore) (id : ℤ) (v : Vec) : VectorStore × Except String ℕ :=
  let index := s.size
  if s.maxElements ≤ index then
    (s, Except.error "VectorStore is full")
  else
    ({ s with rows := s.rows ++ [v]
              ids := s.ids ++ [id]
              norms := s.norms ++ [normSq v] },
     Except.ok index)

/-- `VectorStore::addBatch`: reserves `count` indices at once; if the
block does not fit it rolls back and throws, else writes all rows.
`count ≤ 0` returns the current size without reserving. -/
def addBatch (s : VectorStore) (ids : List ℤ) (vecs : List Vec) :
    VectorStore × Except String ℕ :=
  if vecs.length = 0 then (s, Except.ok s.size)
  else if s.maxElements < s.size + vecs.length then
    (s, Except.error "VectorStore capacity exceeded")
  else
    ({ s with rows := s.rows ++ vecs
              ids := s.ids ++ ids.take vecs.length
              norms := s.norms ++ vecs.map normSq },
     Except.ok s.size)

/-- A fresh store (`VectorStore(dimension, maxElements)` constructor,
after which no row is valid). -/
def empty (dim maxElements : ℕ) : VectorStore :=
  ⟨dim, maxElements, [], [], []⟩

/-- Folding a sequence of `add` calls, keeping the state across both
successful and failed calls (the failure rollback leaves the state
unchanged, so simply threading the post-state is faithful). -/
def addMany (s : VectorStore) (items : List (ℤ × Vec)) : VectorStore :=
  items.foldl (fun st it => (st.add it.1 it.2).1) s

end VectorStore


/-! ## `HNSWIndex::computeDistance` (`HNSWIndex.cpp:487-496`)

Maps any node index outside `[0, vectorStore_.size())` to `FLT_MAX`
before any row is dereferenced, and also maps a `nullptr` row to
`FLT_MAX`; only in-range indices reach the distance kernel. -/

def hnswComputeDistance (s : VectorStore) (a : Vec) (bIndex : ℤ) : ℚ :=
  if bIndex < 0 ∨ (s.size : ℤ) ≤ bIndex then floatMax
  else
    match s.getVector bIndex with
    | none => floatMax
    | some b => sqDist a b

/-! ## Shared k-means machinery

`PQIndex::trainSubspace` (`PQIndex.cpp:41-104`),
`IVFIndex::train` (`IVFIndex.cpp:21-80`) and
`HNSWPQIndex::trainSubspace` (`HNSWPQIndex.cpp:139-243`) contain three
line-for-line copies of the same Lloyd loop (over sub-vectors of width
`subDim` for the PQ codecs and full vectors of width `dim` for IVF);
they are embedded once, parameterised by the vector width. -/

/-- The nearest-centroid linear scan shared by
`PQIndex::findNearestCentroid`, `IVFIndex::findNearestCentroid` and
`HNSWPQIndex::findNearestCentroid`: `nearest = 0`,
`minDist = FLT_MAX`, strict improvement. -/
def findNearestIn (nCentroids : ℕ) (centroidAt : ℕ → Vec) (v : Vec) : ℕ :=
  ((List.range nCentroids).foldl
    (fun acc i =>
      let dist := sqDist v (centroidAt i)
      if dist < acc.1 then (dist, i) else acc)
    (floatMax, 0)).2

/-- Coordinate-wise vector addition (the centroid accumulation loop). -/
def vecAdd (a b : Vec) : Vec := (a.zip b).map (fun p => p.1 + p.2)

/-- The M-step of the shared Lloyd loop: all centroids and all cluster
sizes are first zeroed (`std::fill`), every sample is then accumulated
into its assigned centroid, and finally every cluster with
`clusterSizes[i] > 0` is divided by its size.  A cluster with no
assigned sample is therefore left at the zero vector.  Returns the new
centroids together with the cluster sizes. -/
def kmeansUpdate (width nCentroids : ℕ) (samples : List Vec)
    (assignments : List ℕ) : List Vec × List ℕ :=
  let zeroC := List.replicate nCentroids (List.replicate width (0 : ℚ))
  let zeroS := List.replicate nCentroids (0 : ℕ)
  let acc := (samples.zip assignments).foldl
      (fun st p => (List.modify (fun c => vecAdd c p.1) p.2 st.1,
                    List.modify (· + 1) p.2 st.2))
      (zeroC, zeroS)
  ((List.range nCentroids).map (fun i =>
      let sz := acc.2.getD i 0
      if 0 < sz then (acc.1.getD i []).map (fun x => x * (1 / (sz : ℚ)))
      else acc.1.getD i []),
   acc.2)

/-- The shared Lloyd iteration loop: recompute assignments
(`findNearestCentroid` per sample, `changed` tracking), stop when no
assignment changed, otherwise run the M-step, up to `maxIterations`
rounds.  Returns final assignments and centroids. -/
def kmeansIterate (width nCentroids : ℕ) (samples : List Vec) :
    ℕ → List ℕ → List Vec → List ℕ × List Vec
  | 0, assignments, centroids => (assignments, centroids)
  | iter + 1, assignments, centroids =>
    let a := samples.map (fun s =>
      findNearestIn nCentroids (fun i => centroids.getD i []) s)
    if a = assignments then (a, centroids)
    else
      kmeansIterate width nCentroids samples iter a
        (kmeansUpdate width nCentroids samples a).1

/-! ## Codebook seeding

`PQIndex::trainSubspace` seeds every one of its `nCentroids` centroids
by an independent uniform draw `dist(rng)` over the sample indices
(`PQIndex.cpp:52-58`); the draws are passed in as the oracle `draws`.
`HNSWPQIndex::trainSubspace` seeds the first centroid by a uniform draw
and each subsequent one by the k-means++ rule
(`HNSWPQIndex.cpp:153-195`): it maintains per-sample minimum squared
distances to the already chosen centroids, draws a `target` from
`uniform_real_distribution(0, totalDist)` and walks the cumulative sum
until it reaches the target. -/

/-- `PQIndex` seeding: centroid `i` is a verbatim copy of the sample at
the `i`-th uniform draw — independent of any distance. -/
def pqSeedCentroids (draws : ℕ → ℕ) (subData : List Vec) (nCentroids : ℕ) :
    List Vec :=
  (List.range nCentroids).map (fun i => subData.getD (draws i) [])

/-- The cumulative-sum selection loop of `HNSWPQIndex::trainSubspace`:
`cumsum += minDistances[i]; if (cumsum >= target) { selectedIdx = i;
break; }` with `selectedIdx = 0` when the loop never fires. -/
def kmppSelectGo (target : ℚ) : List ℚ → ℚ → ℕ → ℕ
  | [], _, _ => 0
  | w :: ws, cumsum, i =>
    if target ≤ cumsum + w then i else kmppSelectGo target ws (cumsum + w) (i + 1)

/-- k-means++ index selection given the weight list (per-sample minimum
squared distances) and the drawn target. -/
def kmppSelectIndex (weights : List ℚ) (target : ℚ) : ℕ :=
  kmppSelectGo target weights 0 0

/-- One round of the k-means++ minimum-distance update: each sample's
stored minimum is lowered by its distance to the most recently chosen
centroid (`if (d < minDistances[i]) minDistances[i] = d`). -/
def kmppUpdateMinDists (subData : List Vec) (prevCentroid : Vec)
    (minDists : List ℚ) : List ℚ :=
  (subData.zip minDists).map (fun p => min p.2 (sqDist p.1 prevCentroid))

/-- The k-means++ seeding loop of `HNSWPQIndex::trainSubspace`:
starting from the uniformly drawn first centroid and per-sample minimum
distances initialised to `FLT_MAX`, round `c` updates the minima
against centroid `c-1`, then appends the sample selected by the
cumulative-sum walk at the drawn target `targets c` (a draw from
`[0, totalDist]`). -/
def hnswpqSeedGo (targets : ℕ → ℚ) (subData : List Vec) :
    ℕ → ℕ → List Vec → List ℚ → List Vec
  | 0, _, cents, _ => cents
  | r + 1, c, cents, minDists =>
    let md := kmppUpdateMinDists subData (cents.getD (c - 1) []) minDists
    let idx := kmppSelectIndex md (targets c)
    hnswpqSeedGo targets subData r (c + 1) (cents ++ [subData.getD idx []]) md

/-- `HNSWPQIndex` seeding: first centroid uniform (`firstIdx` draw),
remaining `nCentroids - 1` by k-means++. -/
def hnswpqSeedCentroids (firstIdx : ℕ) (targets : ℕ → ℚ)
    (subData : List Vec) (nCentroids : ℕ) : List Vec :=
  hnswpqSeedGo targets subData (nCentroids - 1) 1
    [subData.getD firstIdx []]
    (List.replicate subData.length floatMax)

/-! ## PQ index (`src/native/index/PQIndex.{h,cpp}`)

State fields mirror the members of `PQIndex`; the flat
`codebooks_` buffer (layout `[M][nCentroids][subDim]`) is kept as a
nested list with the same contents, and the flat `codes_` buffer
(layout `[size][M]`) likewise. -/

/-- `batchEuclideanDistance` (`BatchDistance.cpp`): the norm-expansion
identity `‖q‖² + ‖v‖² − 2·q·v` with the small-negative clamp
`(d < 0 && d > -1e-6) → 0` absorbing float rounding (the clamp is
provably inert in exact arithmetic). -/
def batchEuclideanDistance (q : Vec) (vecs : List Vec) : List ℚ :=
  vecs.map (fun v =>
    if normSq q + normSq v - 2 * dotProd q v < 0
        ∧ -(1 / 1000000) < normSq q + normSq v - 2 * dotProd q v then 0
    else normSq q + normSq v - 2 * dotProd q v)

/-- `adcDistanceScalar` (`ADCUtils.cpp:11-17`): ADC accumulation over
the flat distance table (`distanceTable[m * nCentroids + codes[m]]`). -/
def adcDistanceScalar (distTable : List ℚ) (codes : List ℕ)
    (pqM nCentroids : ℕ) : ℚ :=
  (List.range pqM).foldl
    (fun acc m => acc + distTable.getD (m * nCentroids + codes.getD m 0) 0) 0

structure PQState where
  store : VectorStore
  size : ℕ
  trained : Bool
  M : ℕ
  maxIterations : ℕ
  subDim : ℕ
  nCentroids : ℕ
  codebooks : List (List Vec)
  codes : List (List ℕ)

namespace PQIndex

/-- `getCodebookCentroid(subspaceIdx, centroidIdx)`. -/
def getCodebookCentroid (st : PQState) (m c : ℕ) : Vec :=
  (st.codebooks.getD m []).getD c []

/-- `PQIndex::findNearestCentroid` over subspace `m`. -/
def findNearestCentroid (st : PQState) (m : ℕ) (sub : Vec) : ℕ :=
  findNearestIn st.nCentroids (getCodebookCentroid st m) sub

/-- `PQIndex::encode`: one nearest-centroid code per subspace.  (The
`uint8_t` cast is lossless because the scan returns an index below
`nCentroids = 2^nBits ≤ 256`.) -/
def encode (st : PQState) (v : Vec) : List ℕ :=
  (List.range st.M).map (fun m =>
    findNearestCentroid st m (subVec st.subDim m v))

/-- `PQIndex::add`: untrained indexes throw before touching anything;
then the vector is encoded, appended to the store (a full store throws,
leaving `codes_` and `size_` untouched), and the code row and size
counter are updated. -/
def add (st : PQState) (id : ℤ) (v : Vec) : PQState × Except String ℕ :=
  if st.trained = false then
    (st, Except.error "PQ index must be trained before adding vectors")
  else
    let codes := encode st v
    match st.store.add id v with
    | (store1, Except.ok index) =>
      ({ st with store := store1
                 codes := st.codes ++ [codes]
                 size := st.size + 1 }, Except.ok index)
    | (_, Except.error e) => (st, Except.error e)

/-- The loop body of `PQIndex::addBatch` after the upfront parallel
encode: each item is encoded (the codebooks are never mutated by `add`,
so encoding with the running state equals the upfront encode) and
appended; an exception from `VectorStore::add` propagates, aborting the
remaining items. -/
def addBatchGo (st : PQState) : List (ℤ × Vec) → PQState × Except String Unit
  | [] => (st, Except.ok ())
  | (id, v) :: rest =>
    let codes := encode st v
    match st.store.add id v with
    | (store1, Except.ok _) =>
      addBatchGo { st with store := store1
                           codes := st.codes ++ [codes]
                           size := st.size + 1 } rest
    | (_, Except.error e) => (st, Except.error e)

/-- `PQIndex::addBatch`: throws upfront when untrained, otherwise adds
sequentially with no per-item failure handling. -/
def addBatch (st : PQState) (items : List (ℤ × Vec)) :
    PQState × Except String Unit :=
  if st.trained = false then
    (st, Except.error "PQ index must be trained before adding vectors")
  else addBatchGo st items

/-- The query→centroid distance table of `PQIndex::search`
(`PQIndex.cpp:153-160`): row `m` is the batch distance from the `m`-th
query subvector to the `m`-th codebook. -/
def distanceTable (st : PQState) (q : Vec) : List (List ℚ) :=
  (List.range st.M).map (fun m =>
    batchEuclideanDistance (subVec st.subDim m q) (st.codebooks.getD m []))

/-- The per-vector ADC accumulation of `PQIndex::search`
(`PQIndex.cpp:175-191`): the 8-way unrolled loop adds
`distTableRows[m][codePtr[m]]` for `m = 0 .. M-1` in increasing order;
the unrolling does not change the terms or their order. -/
def adcSumTable (table : List (List ℚ)) (codes : List ℕ) (M : ℕ) : ℚ :=
  (List.range M).foldl
    (fun acc m => acc + (table.getD m []).getD (codes.getD m 0) 0) 0

/-- `PQIndex::search` (`PQIndex.cpp:146-213`): untrained returns zero
results; otherwise build the distance table, score every stored vector
by table-ADC paired with its external label, `partial_sort`/`sort` to
the top-`k`, and emit `count = min(k, #candidates)` pairs. -/
def search (st : PQState) (q : Vec) (k : ℕ) : List (ℚ × ℤ) :=
  if st.trained = false then []
  else
    let table := distanceTable st q
    let dists := (List.range st.size).map (fun i =>
      (adcSumTable table (st.codes.getD i []) st.M, st.store.getId i))
    let sorted := if k < dists.length then (sortPairs dists).take k
                  else sortPairs dists
    sorted.take (min k sorted.length)

/-- `PQIndex::trainSubspace` (`PQIndex.cpp:41-104`): extract the
subspace samples, seed all centroids by uniform draws, then run the
shared Lloyd loop.  `draws` is the oracle for the
`std::mt19937(42 + subspaceIdx)`-driven uniform index draws. -/
def trainSubspace (st : PQState) (m : ℕ) (draws : ℕ → ℕ)
    (samples : List Vec) : List Vec :=
  let subData := samples.map (subVec st.subDim m)
  let seeded := pqSeedCentroids draws subData st.nCentroids
  (kmeansIterate st.subDim st.nCentroids subData st.maxIterations
    (List.replicate subData.length 0) seeded).2

end PQIndex

/-- Well-formedness of a `PQState`: the relations between the members
that `PQIndex` maintains (established by the constructor, `train` and
`add`): `D = M * subDim`, codebook of `M` tables of `nCentroids`
centroids of width `subDim`, one code row of width `M` per stored
vector, `size_` in step with the store, rows of width `D`. -/
def PQState.wf (st : PQState) : Prop :=
  st.store.dim = st.M * st.subDim
  ∧ st.codebooks.length = st.M
  ∧ (∀ cb ∈ st.codebooks, cb.length = st.nCentroids ∧ ∀ c ∈ cb, c.length = st.subDim)
  ∧ st.size = st.store.size
  ∧ st.codes.length = st.size
  ∧ (∀ row ∈ st.codes, row.length = st.M)
  ∧ (∀ r ∈ st.store.rows, r.length = st.store.dim)

instance (st : PQState) : Decidable st.wf := by
  unfold PQState.wf; infer_instance

/-- A concrete two-subspace PQ index used by witnesses: `D = 2`,
`M = 2`, `subDim = 1`, `nCentroids = 2`, codebook centroids `0` and `4`
in each subspace, one stored vector `[1, 3]` with codes `[0, 1]`. -/
def pqExample : PQState :=
  { store := ⟨2, 4, [[1, 3]], [7], [10]⟩
    size := 1
    trained := true
    M := 2
    maxIterations := 25
    subDim := 1
    nCentroids := 2
    codebooks := [[[0], [4]], [[0], [4]]]
    codes := [[0, 1]] }

/-! ## IVF index (`src/native/index/IVFIndex.{h,cpp}`)

State fields mirror the members of `IVFIndex` (the reverse map
`idToList_` is write-only in the source's claim-relevant paths and is
not modelled). -/

structure IVFState where
  store : VectorStore
  nLists : ℕ
  nProbes : ℕ
  maxIterations : ℕ
  size : ℕ
  trained : Bool
  centroids : List Vec
  invertedLists : List (List ℤ)

namespace IVFIndex

/-- `IVFIndex::findNearestCentroid`: linear scan over `nLists`
centroids, strict improvement from `FLT_MAX`. -/
def findNearestCentroid (st : IVFState) (v : Vec) : ℕ :=
  findNearestIn st.nLists (fun i => st.centroids.getD i []) v

/-- `IVFIndex::train` (`IVFIndex.cpp:21-82`): seeds the `nLists`
centroids by uniform draws over the samples (the same uniform-copy loop
as `PQIndex`'s seeding, `IVFIndex.cpp:29-36`, with `rng(42)`), then
runs the shared Lloyd loop over full-width vectors. -/
def train (st : IVFState) (draws : ℕ → ℕ) (samples : List Vec) :
    IVFState × Except String Unit :=
  if samples.length = 0 then (st, Except.error "Invalid training samples")
  else
    let seeded := pqSeedCentroids draws samples st.nLists
    ({ st with
        centroids := (kmeansIterate st.store.dim st.nLists samples
          st.maxIterations (List.replicate samples.length 0) seeded).2
        trained := true }, Except.ok ())

/-- `IVFIndex::add`: untrained throws; otherwise the nearest coarse
cell is computed, the vector appended to the store (a full store throws
before any posting-list mutation), and the internal index is appended
to that cell's posting list. -/
def add (st : IVFState) (id : ℤ) (v : Vec) : IVFState × Except String Unit :=
  if st.trained = false then
    (st, Except.error "IVF index must be trained before adding vectors")
  else
    let index := st.store.size
    let listId := findNearestCentroid st v
    match st.store.add id v with
    | (store1, Except.ok _) =>
      ({ st with store := store1
                 invertedLists :=
                   List.modify (fun l => l ++ [(index : ℤ)]) listId st.invertedLists
                 size := st.size + 1 }, Except.ok ())
    | (_, Except.error e) => (st, Except.error e)

/-- The loop of `IVFIndex::addBatch`: plain sequential `add` calls with
no per-item failure handling — the first exception propagates and the
remaining items are never attempted. -/
def addBatchGo (st : IVFState) : List (ℤ × Vec) → IVFState × Except String Unit
  | [] => (st, Except.ok ())
  | (id, v) :: rest =>
    match add st id v with
    | (st1, Except.ok _) => addBatchGo st1 rest
    | (st1, Except.error e) => (st1, Except.error e)

/-- `IVFIndex::addBatch` (`IVFIndex.cpp:97-108`). -/
def addBatch (st : IVFState) (items : List (ℤ × Vec)) :
    IVFState × Except String Unit :=
  if st.trained = false then
    (st, Except.error "IVF index must be trained before adding vectors")
  else addBatchGo st items

/-- `IVFIndex::search` (`IVFIndex.cpp:110-159`): untrained returns zero
results; otherwise all `nLists` centroids are scored against the query,
`partial_sort` ranks the `nProbes` closest (the loop guard is
`p < nProbes && p < nLists`; `partial_sort` itself requires
`nProbes ≤ nLists`, which the model renders as `take (min nProbes
nLists)` of the full ranking), exact distances are computed over the
union of the probed posting lists — each candidate paired with its
**external label** via `getId` — and the top-`k` of the candidate pairs
is emitted.  (The source dereferences `getVector(idx)` without a null
check; the model reads the row directly, which coincides on the
well-formed states where the C++ behaviour is defined.) -/
def search (st : IVFState) (q : Vec) (k : ℕ) : List (ℚ × ℤ) :=
  if st.trained = false then []
  else
    let centroidDists := (List.range st.nLists).map (fun i =>
      (sqDist q (st.centroids.getD i []), (i : ℤ)))
    let probed := (sortPairs centroidDists).take (min st.nProbes st.nLists)
    let candidates := probed.flatMap (fun pr =>
      (st.invertedLists.getD pr.2.toNat []).map (fun idx =>
        (sqDist q (st.store.rows.getD idx.toNat []), st.store.getId idx)))
    let sorted := if k < candidates.length then (sortPairs candidates).take k
                  else sortPairs candidates
    sorted.take (min k sorted.length)

/-- The search pipeline as claim C5 words it, differing from the code
only in the stated tie-break: candidates are keyed by **internal
index**, the top-`k` is taken under that order (ties among equal
distances broken by internal index), and only then are internal indices
mapped to labels. -/
def searchSpecTieByIndex (st : IVFState) (q : Vec) (k : ℕ) : List (ℚ × ℤ) :=
  if st.trained = false then []
  else
    let centroidDists := (List.range st.nLists).map (fun i =>
      (sqDist q (st.centroids.getD i []), (i : ℤ)))
    let probed := (sortPairs centroidDists).take (min st.nProbes st.nLists)
    let candidates := probed.flatMap (fun pr =>
      (st.invertedLists.getD pr.2.toNat []).map (fun idx =>
        (sqDist q (st.store.rows.getD idx.toNat []), idx)))
    ((sortPairs candidates).take k).map (fun p => (p.1, st.store.getId p.2))

/-- The search pipeline as the amended claim words it: identical to the
spec pipeline except that the top-`k` is taken over `(distance, label)`
pairs — ties among equal distances broken by external label, which is
what the code's `std::pair` comparisons do. -/
def searchSpecTieByLabel (st : IVFState) (q : Vec) (k : ℕ) : List (ℚ × ℤ) :=
  if st.trained = false then []
  else
    let centroidDists := (List.range st.nLists).map (fun i =>
      (sqDist q (st.centroids.getD i []), (i : ℤ)))
    let probed := (sortPairs centroidDists).take (min st.nProbes st.nLists)
    let candidates := probed.flatMap (fun pr =>
      (st.invertedLists.getD pr.2.toNat []).map (fun idx =>
        (sqDist q (st.store.rows.getD idx.toNat []), st.store.getId idx)))
    (sortPairs candidates).take k

end IVFIndex

/-- Well-formedness of an `IVFState`: sizes in step, one centroid and
one posting list per coarse cell, `nProbes` within range (the source's
`partial_sort` has undefined behaviour otherwise), every internal index
in exactly one posting list and in range. -/
def IVFState.wf (st : IVFState) : Prop :=
  st.size = st.store.size
  ∧ st.centroids.length = st.nLists
  ∧ st.invertedLists.length = st.nLists
  ∧ st.nProbes ≤ st.nLists
  ∧ st.invertedLists.flatten.Nodup
  ∧ (∀ l ∈ st.invertedLists, ∀ idx ∈ l, 0 ≤ idx ∧ idx < (st.store.size : ℤ))

instance (st : IVFState) : Decidable st.wf := by
  unfold IVFState.wf; infer_instance

/-- A concrete one-cell IVF index used by C5's counterexample: two
stored vectors `[-1]` (internal 0, label 5) and `[1]` (internal 1,
label 3), both at distance 1 from the query `[0]`. -/
def ivfExample : IVFState :=
  { store := ⟨1, 4, [[-1], [1]], [5, 3], [1, 1]⟩
    nLists := 1
    nProbes := 1
    maxIterations := 25
    size := 2
    trained := true
    centroids := [[0]]
    invertedLists := [[0, 1]] }

/-! ## HNSW index (`src/native/index/HNSWIndex.{h,cpp}`)

The thread-local visited-set machinery is a per-call set in this
sequential model (the source clears the set at every `searchLevel`
entry, so its recycling is unobservable).  Two config members are
taken as opaque parameters:

* `efSearchFn` models `HNSWConfig::getEfSearch(k, dataSize)`, whose
  definition uses `std::log10` over floats; no claim depends on its
  value.
* `cosineSim` models the `computeCosineSimilarity` lambda of the
  high-dimension heuristic path, whose `std::sqrt` is irrational; the
  claims hold for every such function.

Random level draws (`getRandomLevel`, which maps `-log(u) *
levelMultiplier` through the clock-seeded `std::mt19937`) enter `add`
as the explicit `rawLevel` argument; the source's cap
`min(level, maxLevel)` is applied inside the model. -/

structure HNSWConfig where
  M : ℕ
  efConstruction : ℕ
  maxLevel : ℕ
  distanceThreshold : ℚ
  useEarlyTermination : Bool
  maxExpansionsMultiplier : ℕ
  useHeuristicSelection : Bool
  pruneOverflowFactor : ℕ
  cosineSim : Vec → Vec → ℚ
  efSearchFn : ℕ → ℕ → ℕ

structure HNSWNode where
  level : ℕ
  neighbors : List (List ℤ)

structure HNSWState where
  store : VectorStore
  nodes : List HNSWNode
  entryPoint : ℤ
  size : ℕ

/-- Direct row read (`vectorStore_.getVector` result handed straight to
`distanceFunc_` with no null check in the prune/heuristic paths); an
out-of-range read is undefined behaviour in C++ and junk (`[]`) here —
unreachable from well-formed states. -/
def rowOf (s : VectorStore) (i : ℤ) : Vec := s.rows.getD i.toNat []

namespace HNSWIndex

/-- `nodes_[i]` (no bounds check in C++; junk default here, unreachable
from well-formed states on the claim paths). -/
def nodeAt (st : HNSWState) (i : ℤ) : HNSWNode := st.nodes.getD i.toNat ⟨0, []⟩

/-- `nodes_[i].neighbors[level]`. -/
def neighborsAt (st : HNSWState) (i : ℤ) (level : ℕ) : List ℤ :=
  (nodeAt st i).neighbors.getD level []

/-- One pass of the greedy-descent inner loop: scan the (pre-loaded)
neighbor list of the current node, moving to any strictly closer
neighbor, tracking `changed`. -/
def greedyPass (st : HNSWState) (q : Vec) (nbs : List ℤ) (start : ℚ × ℤ) :
    (ℚ × ℤ) × Bool :=
  nbs.foldl (fun acc nb =>
    let d := hnswComputeDistance st.store q nb
    if d < acc.1.1 then ((d, nb), true) else acc) (start, false)

/-- The `while (changed)` loop at one level of greedy descent, with its
bounds checks (`currObj` in range, `currLevel ≤ node.level`) at the top
of each pass.  The C++ loop terminates because an improving pass
strictly lowers the tracked distance over a finite node set, so the
number of passes is at most the node count; the fuel passed by callers
(`nodes.length + 1`) dominates that bound. -/
def greedyInner (st : HNSWState) (q : Vec) (level : ℕ) :
    ℕ → (ℚ × ℤ) → (ℚ × ℤ)
  | 0, c => c
  | fuel + 1, c =>
    if c.2 < 0 ∨ (st.nodes.length : ℤ) ≤ c.2 then c
    else if (nodeAt st c.2).level < level then c
    else
      let r := greedyPass st q (neighborsAt st c.2 level) c
      if r.2 then greedyInner st q level fuel r.1 else r.1

/-- Greedy descent from `currLevel` while `currLevel > stop`,
decrementing and re-clamping the level to the current node's level
after each inner loop (`HNSWIndex.cpp:72-98` and `171-196`). -/
def greedyDescend (st : HNSWState) (q : Vec) (stop : ℕ) :
    ℕ → ℕ → (ℚ × ℤ) → (ℚ × ℤ)
  | 0, _, c => c
  | fuel + 1, currLevel, c =>
    if currLevel ≤ stop then c
    else
      let c1 := greedyInner st q currLevel (st.nodes.length + 1) c
      let lvl1 := currLevel - 1
      let lvl2 := if 0 ≤ c1.2 ∧ c1.2 < (st.nodes.length : ℤ) then
                    min lvl1 (nodeAt st c1.2).level
                  else lvl1
      greedyDescend st q stop fuel lvl2 c1

/-- State of `searchLevel`'s beam search: the candidate min-heap and
result max-heap (both as distance-sorted lists — a heap is semantically
a sorted container up to the order of equal keys, which C++ leaves
unspecified and the model fixes), the per-call visited set, the worst
distance in the result heap, and the expansion counter. -/
structure SLState where
  candidates : List (ℚ × ℤ)
  best : List (ℚ × ℤ)
  visited : List ℤ
  lowerBound : ℚ
  expansionCount : ℕ

/-- Insertion into a distance-sorted list (heap push). -/
def insByDist (p : ℚ × ℤ) : List (ℚ × ℤ) → List (ℚ × ℤ)
  | [] => [p]
  | q :: qs => if p.1 < q.1 then p :: q :: qs else q :: insByDist p qs

/-- The neighbor-processing body of the beam search
(`HNSWIndex.cpp:252-284`): skip visited, mark visited, compute the
distance, apply the optional distance threshold, and insert into both
heaps when the result heap is not full or the distance beats the
current worst, popping the worst result past `ef` and refreshing the
lower bound. -/
def processNeighbor (cfg : HNSWConfig) (st : HNSWState) (q : Vec) (ef : ℕ)
    (sl : SLState) (nb : ℤ) : SLState :=
  if nb ∈ sl.visited then sl
  else
    let visited1 := nb :: sl.visited
    let d := hnswComputeDistance st.store q nb
    if 0 < cfg.distanceThreshold ∧ cfg.distanceThreshold < d then
      { sl with visited := visited1 }
    else if sl.best.length < ef ∨ d < sl.lowerBound then
      let best1 := insByDist (d, nb) sl.best
      let best2 := if ef < best1.length then best1.dropLast else best1
      { candidates := insByDist (d, nb) sl.candidates
        best := best2
        visited := visited1
        lowerBound := match best2.getLast? with
                      | some t => t.1
                      | none => sl.lowerBound
        expansionCount := sl.expansionCount }
    else { sl with visited := visited1 }

/-- The main beam-search loop (`HNSWIndex.cpp:222-287`): pop the
nearest candidate, count the expansion, skip out-of-range nodes,
terminate when the popped distance exceeds the lower bound with a full
result heap, on expansion overrun (when `useEarlyTermination`), or past
the distance threshold; skip nodes with no list at this level; else
process the neighbor list.  Each iteration pops one candidate and every
push is guarded by first-visit, so the iteration count is bounded by
one plus the total number of neighbor entries; callers pass a
dominating fuel. -/
def searchLevelLoop (cfg : HNSWConfig) (st : HNSWState) (q : Vec)
    (ef level : ℕ) : ℕ → SLState → SLState
  | 0, sl => sl
  | fuel + 1, sl =>
    match sl.candidates with
    | [] => sl
    | curr :: rest =>
      let sl1 : SLState := { sl with candidates := rest
                                     expansionCount := sl.expansionCount + 1 }
      if curr.2 < 0 ∨ (st.store.size : ℤ) ≤ curr.2 then
        searchLevelLoop cfg st q ef level fuel sl1
      else if sl1.lowerBound < curr.1 ∧ ef ≤ sl1.best.length then sl1
      else if cfg.useEarlyTermination = true
          ∧ ef * cfg.maxExpansionsMultiplier < sl1.expansionCount then sl1
      else if 0 < cfg.distanceThreshold ∧ cfg.distanceThreshold < curr.1 then sl1
      else if (nodeAt st curr.2).neighbors.length ≤ level then
        searchLevelLoop cfg st q ef level fuel sl1
      else
        searchLevelLoop cfg st q ef level fuel
          ((neighborsAt st curr.2 level).foldl (processNeighbor cfg st q ef) sl1)

/-- Total number of neighbor entries over all nodes and levels: the
beam search's push budget. -/
def totalNeighborEntries (st : HNSWState) : ℕ :=
  (st.nodes.map (fun n => (n.neighbors.map List.length).sum)).sum

/-- `HNSWIndex::searchLevel` (`HNSWIndex.cpp:188-295`): bail out with
empty results when the entry's distance is the `FLT_MAX` sentinel, else
seed both heaps and the visited set with the entry and run the loop;
the results are the final result heap flushed in ascending distance
order (the source pops the max-heap and reverses). -/
def searchLevel (cfg : HNSWConfig) (st : HNSWState) (q : Vec)
    (entry : ℤ) (ef level : ℕ) : List (ℚ × ℤ) :=
  let d := hnswComputeDistance st.store q entry
  if d = floatMax then []
  else
    (searchLevelLoop cfg st q ef level (totalNeighborEntries st + 2)
      { candidates := [(d, entry)]
        best := [(d, entry)]
        visited := [entry]
        lowerBound := d
        expansionCount := 0 }).best

/-- `HNSWIndex::selectNeighbors`: plain top-`min(M, #candidates)` in
candidate order. -/
def selectNeighbors (candidates : List (ℚ × ℤ)) (M : ℕ) : List ℤ :=
  (candidates.take M).map (fun p => p.2)

/-- The argmax scan shared by both heuristic paths: `bestIdx = -1`,
`bestScore = -1.0f`, strict improvement over unselected candidates. -/
def heuristicBestIdx (maxC : ℕ) (scoreAt : ℕ → ℚ) (selected : List Bool) : ℤ :=
  ((List.range maxC).foldl (fun acc j =>
    if selected.getD j false then acc
    else if acc.1 < scoreAt j then (scoreAt j, (j : ℤ)) else acc)
    ((-1 : ℚ), (-1 : ℤ))).2

/-- The selection loop of the low-dimension heuristic path
(`HNSWIndex.cpp:330-377`): score `1/(1+dist)` plus, after the first
pick, the diversity bonus `0.3 * min(minDist, 10) / 10`; mark the best
candidate selected and lower the unselected candidates' minimum
distances against the picked vector. -/
def heuristicLoopSimple (store : VectorStore) (cands : List (ℚ × ℤ))
    (maxC : ℕ) : ℕ → ℕ → List ℚ → List Bool → List Bool
  | _, 0, _, selected => selected
  | i, steps + 1, minDists, selected =>
    let scoreAt := fun j =>
      1 / (1 + (cands.getD j (0, 0)).1)
      + (if 0 < i then 3 / 10 * min (minDists.getD j floatMax) 10 / 10 else 0)
    let bestIdx := heuristicBestIdx maxC scoreAt selected
    if bestIdx < 0 then selected
    else
      let selected1 := selected.set bestIdx.toNat true
      let selectedVec := rowOf store (cands.getD bestIdx.toNat (0, 0)).2
      let minDists1 := (List.range maxC).map (fun j =>
        if selected1.getD j false then minDists.getD j floatMax
        else min (minDists.getD j floatMax)
          (sqDist selectedVec (rowOf store (cands.getD j (0, 0)).2)))
      heuristicLoopSimple store cands maxC (i + 1) steps minDists1 selected1

/-- The result collection of the low-dimension path
(`HNSWIndex.cpp:380-388`): first `M` selected candidates in candidate
order. -/
def heuristicCollect (cands : List (ℚ × ℤ)) (selected : List Bool)
    (M maxC : ℕ) : List ℤ :=
  (List.range maxC).foldl (fun acc j =>
    if selected.getD j false ∧ acc.length < M then acc ++ [(cands.getD j (0, 0)).2]
    else acc) []

/-- The selection loop of the high-dimension heuristic path
(`HNSWIndex.cpp:391-446`): score `1/(1+dist)` plus an angular diversity
bonus `(1 - maxSimilarity) * 0.5` against the already-selected vectors;
a round with no eligible candidate leaves the state unchanged. -/
def heuristicLoopFull (cfg : HNSWConfig) (store : VectorStore)
    (cands : List (ℚ × ℤ)) (maxC : ℕ) :
    ℕ → List Bool → List ℤ → List ℤ
  | 0, _, result => result
  | steps + 1, selected, result =>
    let scoreAt := fun j =>
      let maxSim := result.foldl (fun m r =>
        max m |cfg.cosineSim (rowOf store (cands.getD j (0, 0)).2) (rowOf store r)|) 0
      1 / (1 + (cands.getD j (0, 0)).1) + (1 - maxSim) * (1 / 2)
    let bestIdx := heuristicBestIdx maxC scoreAt selected
    if bestIdx < 0 then
      heuristicLoopFull cfg store cands maxC steps selected result
    else
      heuristicLoopFull cfg store cands maxC steps
        (selected.set bestIdx.toNat true)
        (result ++ [(cands.getD bestIdx.toNat (0, 0)).2])

/-- `HNSWIndex::selectNeighborsHeuristic` (`HNSWIndex.cpp:302-449`):
passthrough below `M` candidates; otherwise cap the pool at
`min(M*6, #candidates)` and run the simple path when
`dim ≤ 128 || M ≤ 16`, else the angular path.  (The `query` parameter
of the C++ function is not read.) -/
def selectNeighborsHeuristic (cfg : HNSWConfig) (store : VectorStore)
    (candidates : List (ℚ × ℤ)) (M : ℕ) : List ℤ :=
  if candidates.length ≤ M then candidates.map (fun p => p.2)
  else
    let maxC := min (M * 6) candidates.length
    let cands := candidates.take maxC
    if store.dim ≤ 128 ∨ M ≤ 16 then
      heuristicCollect cands
        (heuristicLoopSimple store cands maxC 0 (min M maxC)
          (List.replicate maxC floatMax) (List.replicate maxC false))
        M maxC
    else
      heuristicLoopFull cfg store cands maxC (min M maxC)
        (List.replicate maxC false) []

/-- `HNSWIndex::pruneNeighbors` (`HNSWIndex.cpp:458-486`): **early
return when the list holds at most `M * pruneOverflowFactor` entries**;
only past that bound is the list re-sorted by exact distance to the
node and truncated to the closest `M`. -/
def pruneNeighbors (cfg : HNSWConfig) (store : VectorStore)
    (nodes : List HNSWNode) (nodeId : ℤ) (level : ℕ) : List HNSWNode :=
  let links := ((nodes.getD nodeId.toNat ⟨0, []⟩).neighbors.getD level [])
  if links.length ≤ cfg.M * cfg.pruneOverflowFactor then nodes
  else
    let nodeVec := rowOf store nodeId
    let sorted := sortPairs (links.map (fun nb =>
      (sqDist nodeVec (rowOf store nb), nb)))
    List.modify (fun n =>
      { n with neighbors :=
          (List.modify (fun _ => (sorted.take cfg.M).map (fun p => p.2))
            level n.neighbors) })
      nodeId.toNat nodes

/-- `HNSWIndex::connectNeighbors` (`HNSWIndex.cpp:448-456`): append the
new id to each selected neighbor's list at this level and call
`pruneNeighbors` whenever the list now exceeds `M`. -/
def connectNeighbors (cfg : HNSWConfig) (store : VectorStore)
    (nodes : List HNSWNode) (newId : ℤ) (neighbors : List ℤ) (level : ℕ) :
    List HNSWNode :=
  neighbors.foldl (fun ns nb =>
    let ns1 := List.modify (fun n =>
      { n with neighbors := List.modify (fun l => l ++ [newId]) level n.neighbors })
      nb.toNat ns
    if cfg.M < ((ns1.getD nb.toNat ⟨0, []⟩).neighbors.getD level []).length then
      pruneNeighbors cfg store ns1 nb level
    else ns1) nodes

/-- The per-level body of the insert loop (`HNSWIndex.cpp:100-124`),
processed from `maxLevelToProcess` down to level 0, threading the
mutated node array and the moving entry `currObj`, and collecting the
new node's per-level neighbor lists (index = level). -/
def addLevelLoop (cfg : HNSWConfig) (store : VectorStore) (q : Vec)
    (newIndex : ℤ) (sizeCounter : ℕ) :
    ℕ → ℕ → List HNSWNode → ℤ → List (List ℤ) →
    List HNSWNode × ℤ × List (List ℤ)
  | 0, _, nodes, currObj, acc => (nodes, currObj, acc)
  | fuel + 1, level, nodes, currObj, acc =>
    let st : HNSWState := ⟨store, nodes, 0, sizeCounter⟩
    let efBuild := if 0 < level ∧ 1000 < sizeCounter then
        max (cfg.M * 2) (cfg.efConstruction * 4 / 5)
      else cfg.efConstruction
    let results := searchLevel cfg st q currObj efBuild level
    let selected := if cfg.useHeuristicSelection = true ∧ cfg.M < results.length
      then selectNeighborsHeuristic cfg store results cfg.M
      else selectNeighbors results cfg.M
    let nodes1 := connectNeighbors cfg store nodes newIndex selected level
    let currObj1 := match results with
      | [] => currObj
      | r :: _ => r.2
    if level = 0 then (nodes1, currObj1, selected :: acc)
    else addLevelLoop cfg store q newIndex sizeCounter fuel (level - 1)
      nodes1 currObj1 (selected :: acc)

/-- `HNSWIndex::add` (`HNSWIndex.cpp:40-146`).  `rawLevel` is the
random level draw (capped at `maxLevel` as in `getRandomLevel`).  The
vector is appended to the store first (a full store throws, leaving the
graph untouched); the first insert just publishes entry point 0; later
inserts greedy-descend from the entry point to the new node's level,
run the per-level insert loop, publish the new node (upper levels above
the processed range keep empty lists) and raise the entry point when
the new level is strictly higher. -/
def add (cfg : HNSWConfig) (st : HNSWState) (rawLevel : ℕ) (id : ℤ)
    (v : Vec) : HNSWState × Except String ℕ :=
  let newIndex := st.store.size
  match st.store.add id v with
  | (_, Except.error e) => (st, Except.error e)
  | (store1, Except.ok _) =>
    let level := min rawLevel cfg.maxLevel
    if newIndex = 0 then
      ({ store := store1
         nodes := st.nodes ++ [⟨level, List.replicate (level + 1) []⟩]
         entryPoint := 0
         size := 1 }, Except.ok 0)
    else
      let st1 : HNSWState := { st with store := store1 }
      let currObj0 := st.entryPoint
      let currDist0 := hnswComputeDistance store1 v currObj0
      let entryLevel := (nodeAt st1 currObj0).level
      let c1 := greedyDescend st1 v level (entryLevel + 1) entryLevel
        (currDist0, currObj0)
      let maxLevelToProcess := min level (nodeAt st1 c1.2).level
      let r := addLevelLoop cfg store1 v (newIndex : ℤ) st.size
        (maxLevelToProcess + 1) maxLevelToProcess st.nodes c1.2 []
      let newNeighbors := r.2.2 ++ List.replicate (level - maxLevelToProcess) []
      let entry1 := if (nodeAt st1 st.entryPoint).level < level then
          (newIndex : ℤ)
        else st.entryPoint
      ({ store := store1
         nodes := r.1 ++ [⟨level, newNeighbors⟩]
         entryPoint := entry1
         size := st.size + 1 }, Except.ok newIndex)

/-- `HNSWIndex::search` (`HNSWIndex.cpp:148-186`): empty on an empty
index; greedy-descend every level above 0 from the entry point, then
beam-search level 0 with `ef = getEfSearch(k, size)` and emit the first
`min(k, #results)` pairs mapped through `getId`. -/
def search (cfg : HNSWConfig) (st : HNSWState) (q : Vec) (k : ℕ) :
    List (ℚ × ℤ) :=
  if st.size = 0 then []
  else
    let currObj := st.entryPoint
    let currDist := hnswComputeDistance st.store q currObj
    let entryLevel := (nodeAt st currObj).level
    let c := greedyDescend st q 0 (entryLevel + 1) entryLevel
      (currDist, currObj)
    let results := searchLevel cfg st q c.2 (cfg.efSearchFn k st.size) 0
    (results.take (min k results.length)).map (fun p => (p.1, st.store.getId p.2))

/-- The loop of `HNSWIndex::addBatch` (`HNSWIndex.cpp:536-552`) with
the failed-indices buffer provided: each item is attempted in turn, a
throwing `add` records the item's zero-based position and the loop
continues with the remaining items.  `items` carry their level draws. -/
def addBatchGo (cfg : HNSWConfig) :
    HNSWState → ℕ → List (ℕ × ℤ × Vec) → HNSWState × List ℕ
  | st, _, [] => (st, [])
  | st, pos, (lvl, id, v) :: rest =>
    match add cfg st lvl id v with
    | (st1, Except.ok _) => addBatchGo cfg st1 (pos + 1) rest
    | (st1, Except.error _) =>
      let r := addBatchGo cfg st1 (pos + 1) rest
      (r.1, pos :: r.2)

/-- `HNSWIndex::addBatch`. -/
def addBatch (cfg : HNSWConfig) (st : HNSWState)
    (items : List (ℕ × ℤ × Vec)) : HNSWState × List ℕ :=
  addBatchGo cfg st 0 items

end HNSWIndex

/-- Well-formedness of an `HNSWState`: the counters in step with the
node array, a valid entry point once non-empty, and every neighbor id
in range. -/
def HNSWState.wf (st : HNSWState) : Prop :=
  st.size = st.nodes.length
  ∧ st.store.size = st.nodes.length
  ∧ (0 < st.size → 0 ≤ st.entryPoint ∧ st.entryPoint < (st.size : ℤ))
  ∧ (∀ n ∈ st.nodes, ∀ l ∈ n.neighbors, ∀ nb ∈ l, 0 ≤ nb ∧ nb < (st.size : ℤ))

instance (st : HNSWState) : Decidable st.wf := by
  unfold HNSWState.wf; infer_instance

/-! ## HNSW+PQ hybrid index (`src/native/index/HNSWPQIndex.{h,cpp}`)

The pooled `NeighborLevel` arrays (size/capacity/data) hold per-node
per-level neighbor id lists; the model reuses `HNSWNode` for them, the
externally visible content being the same.  The per-bucket locks and
the dead code of `search` (the unused query encoding, the unused
distance table and `adcFunc`, and the discarded
`computeExactDistance(-1, currObj)` value) have no observable effect
and are not modelled. -/

structure HNSWPQConfig where
  M : ℕ
  efConstruction : ℕ
  maxLevel : ℕ
  useHeuristicSelection : Bool
  pqIterations : ℕ

structure HNSWPQState where
  store : VectorStore
  nodes : List HNSWNode
  entryPoint : ℤ
  size : ℕ
  trained : Bool
  pqM : ℕ
  subDim : ℕ
  nCentroids : ℕ
  codebooks : List (List Vec)
  codes : List (List ℕ)

namespace HNSWPQIndex

/-- `HNSWPQIndex::getCodebookCentroid`. -/
def getCodebookCentroid (st : HNSWPQState) (m c : ℕ) : Vec :=
  (st.codebooks.getD m []).getD c []

/-- `HNSWPQIndex::findNearestCentroid`. -/
def findNearestCentroid (st : HNSWPQState) (m : ℕ) (sub : Vec) : ℕ :=
  findNearestIn st.nCentroids (getCodebookCentroid st m) sub

/-- `HNSWPQIndex::encode`. -/
def encode (st : HNSWPQState) (v : Vec) : List ℕ :=
  (List.range st.pqM).map (fun m =>
    findNearestCentroid st m (subVec st.subDim m v))

/-- `HNSWPQIndex::trainSubspace` (`HNSWPQIndex.cpp:139-243`): subspace
extraction, k-means++ seeding (`firstIdx` and `targets` are the
oracles for the `rng(42 + subspaceIdx)` draws), then the shared Lloyd
loop. -/
def trainSubspace (cfg : HNSWPQConfig) (st : HNSWPQState) (m : ℕ)
    (firstIdx : ℕ) (targets : ℕ → ℚ) (samples : List Vec) : List Vec :=
  let subData := samples.map (subVec st.subDim m)
  let seeded := hnswpqSeedCentroids firstIdx targets subData st.nCentroids
  (kmeansIterate st.subDim st.nCentroids subData cfg.pqIterations
    (List.replicate subData.length 0) seeded).2

/-- `HNSWPQIndex::computeDistancePQ` (`HNSWPQIndex.cpp:269-289`): ADC
against the stored codes — the sum over subspaces of the squared
distance between the query subvector and the coded centroid.  (The
source accumulates coordinate squares in the same order.) -/
def computeDistancePQ (st : HNSWPQState) (q : Vec) (nodeId : ℤ) : ℚ :=
  ((List.range st.pqM).map (fun m =>
    sqDist (subVec st.subDim m q)
      (getCodebookCentroid st m ((st.codes.getD nodeId.toNat []).getD m 0)))).sum

/-- `HNSWPQIndex::computeExactDistance`: `FLT_MAX` when either row is
null. -/
def computeExactDistance (st : HNSWPQState) (idA idB : ℤ) : ℚ :=
  match st.store.getVector idA, st.store.getVector idB with
  | some a, some b => sqDist a b
  | _, _ => floatMax

/-- `HNSWPQIndex::computeExactDistanceToQuery`: `FLT_MAX` on a null
row. -/
def computeExactDistanceToQuery (st : HNSWPQState) (q : Vec) (nodeId : ℤ) : ℚ :=
  match st.store.getVector nodeId with
  | some b => sqDist q b
  | none => floatMax

/-- `nodes_[i]` on the hybrid's node array. -/
def nodeAt (st : HNSWPQState) (i : ℤ) : HNSWNode := st.nodes.getD i.toNat ⟨0, []⟩

/-- `nodes_[i].levels[level]` as an id list. -/
def neighborsAt (st : HNSWPQState) (i : ℤ) (level : ℕ) : List ℤ :=
  (nodeAt st i).neighbors.getD level []

/-- One pass over a neighbor list with an arbitrary distance functional
(exact during insert, ADC during the search descent). -/
def descendPass (distTo : ℤ → ℚ) (nbs : List ℤ) (start : ℚ × ℤ) :
    (ℚ × ℤ) × Bool :=
  nbs.foldl (fun acc nb =>
    let d := distTo nb
    if d < acc.1.1 then ((d, nb), true) else acc) (start, false)

/-- The bounds-checked `while (changed)` loop of the hybrid's
entry-point descent (`HNSWPQIndex.cpp:341-358` and `485-502`). -/
def descendInner (st : HNSWPQState) (distTo : ℤ → ℚ) (level : ℕ) :
    ℕ → (ℚ × ℤ) → (ℚ × ℤ)
  | 0, c => c
  | fuel + 1, c =>
    if c.2 < 0 ∨ (st.nodes.length : ℤ) ≤ c.2 then c
    else if (nodeAt st c.2).level < level then c
    else
      let r := descendPass distTo (neighborsAt st c.2 level) c
      if r.2 then descendInner st distTo level fuel r.1 else r.1

/-- The level-descent loop shared by the hybrid's insert and search
(`while (currLevel > stop)` with decrement and re-clamp). -/
def descendLevels (st : HNSWPQState) (distTo : ℤ → ℚ) (stop : ℕ) :
    ℕ → ℕ → (ℚ × ℤ) → (ℚ × ℤ)
  | 0, _, c => c
  | fuel + 1, currLevel, c =>
    if currLevel ≤ stop then c
    else
      let c1 := descendInner st distTo currLevel (st.nodes.length + 1) c
      let lvl1 := currLevel - 1
      let lvl2 := if 0 ≤ c1.2 ∧ c1.2 < (st.nodes.length : ℤ) then
                    min lvl1 (nodeAt st c1.2).level
                  else lvl1
      descendLevels st distTo stop fuel lvl2 c1

/-- The per-level greedy entry refinement inside the insert loop
(`HNSWPQIndex.cpp:370-387`) — no bounds checks in the source. -/
def levelGreedy (st : HNSWPQState) (distTo : ℤ → ℚ) (level : ℕ) :
    ℕ → (ℚ × ℤ) → (ℚ × ℤ)
  | 0, c => c
  | fuel + 1, c =>
    let r := descendPass distTo (neighborsAt st c.2 level) c
    if r.2 then levelGreedy st distTo level fuel r.1 else r.1

/-- The BFS candidate collection of the insert loop
(`HNSWPQIndex.cpp:389-411`): FIFO queue, visited-set-guarded pushes,
stop when the queue empties or `efBuild * 2` candidates are scored. -/
def bfsCollect (st : HNSWPQState) (distTo : ℤ → ℚ) (level cap : ℕ) :
    ℕ → List ℤ → List ℤ → List (ℚ × ℤ) → List (ℚ × ℤ)
  | 0, _, _, cands => cands
  | fuel + 1, queue, visited, cands =>
    match queue with
    | [] => cands
    | node :: rest =>
      if cap ≤ cands.length then cands
      else
        let cands1 := cands ++ [(distTo node, node)]
        let qv := (neighborsAt st node level).foldl
          (fun (qv : List ℤ × List ℤ) nb =>
            if nb ∈ qv.2 then qv else (qv.1 ++ [nb], nb :: qv.2))
          (rest, visited)
        bfsCollect st distTo level cap fuel qv.1 qv.2 cands1

/-- `HNSWPQIndex::selectNeighbors`: top-`min(M, #candidates)` in
candidate order. -/
def selectNeighbors (candidates : List (ℚ × ℤ)) (M : ℕ) : List ℤ :=
  (candidates.take M).map (fun p => p.2)

/-- The selection loop of `HNSWPQIndex::selectNeighborsHeuristic`
(`HNSWPQIndex.cpp:685-728`): proximity score plus, after the first
pick, a diversity bonus from the minimum exact distance to the
already-selected neighbors; a round with no eligible candidate leaves
the state unchanged. -/
def heuristicLoop (st : HNSWPQState) (cands : List (ℚ × ℤ)) (maxC : ℕ) :
    ℕ → ℕ → List Bool → List ℤ → List ℤ
  | _, 0, _, result => result
  | i, steps + 1, selected, result =>
    let scoreAt := fun j =>
      let candId := (cands.getD j (0, 0)).2
      let minD := result.foldl
        (fun m r => min m (computeExactDistance st candId r)) floatMax
      1 / (1 + (cands.getD j (0, 0)).1)
      + (if 0 < i then 3 / 10 * min minD 10 / 10 else 0)
    let bestIdx := HNSWIndex.heuristicBestIdx maxC scoreAt selected
    if bestIdx < 0 then
      heuristicLoop st cands maxC (i + 1) steps selected result
    else
      heuristicLoop st cands maxC (i + 1) steps
        (selected.set bestIdx.toNat true)
        (result ++ [(cands.getD bestIdx.toNat (0, 0)).2])

/-- `HNSWPQIndex::selectNeighborsHeuristic` (`HNSWPQIndex.cpp:667-731`). -/
def selectNeighborsHeuristic (st : HNSWPQState)
    (candidates : List (ℚ × ℤ)) (M : ℕ) : List ℤ :=
  if candidates.length ≤ M then candidates.map (fun p => p.2)
  else
    let maxC := min (M * 6) candidates.length
    let cands := candidates.take maxC
    heuristicLoop st cands maxC 0 (min M maxC)
      (List.replicate maxC false) []

/-- `HNSWPQIndex::addNeighborToLevel` (`HNSWPQIndex.cpp:97-114`):
bounds-checked append — a `nodeId` outside the current node array (in
particular the not-yet-pushed new node itself during the write phase)
is silently ignored. -/
def addNeighborToLevel (nodes : List HNSWNode) (nodeId : ℤ) (level : ℕ)
    (neighborId : ℤ) : List HNSWNode :=
  if nodeId < 0 ∨ (nodes.length : ℤ) ≤ nodeId then nodes
  else if (nodes.getD nodeId.toNat ⟨0, []⟩).level < level then nodes
  else
    List.modify (fun n =>
      { n with neighbors := (List.modify (fun l => l ++ [neighborId]) level n.neighbors) })
      nodeId.toNat nodes

/-- `HNSWPQIndex::pruneNeighbors` (`HNSWPQIndex.cpp:745-772`): prunes
**whenever the list exceeds `M`** (no overflow factor in the hybrid),
keeping the `min(M, #links)` closest by exact distance. -/
def pruneNeighbors (cfg : HNSWPQConfig) (st : HNSWPQState)
    (nodes : List HNSWNode) (nodeId : ℤ) (level : ℕ) : List HNSWNode :=
  if nodeId < 0 ∨ (nodes.length : ℤ) ≤ nodeId then nodes
  else if (nodes.getD nodeId.toNat ⟨0, []⟩).level < level then nodes
  else if st.store.getVector nodeId = none then nodes
  else
    let links := (nodes.getD nodeId.toNat ⟨0, []⟩).neighbors.getD level []
    if links.length ≤ cfg.M then nodes
    else
      let sorted := sortPairs (links.map (fun nb =>
        (computeExactDistance st nodeId nb, nb)))
      List.modify (fun n =>
        { n with neighbors := (List.modify
            (fun _ => (sorted.take cfg.M).map (fun p => p.2)) level n.neighbors) })
        nodeId.toNat nodes

/-- `HNSWPQIndex::connectNeighbors` (`HNSWPQIndex.cpp:733-743`):
append the new id to each neighbor's list at this level and prune
whenever the list now exceeds `M`. -/
def connectNeighbors (cfg : HNSWPQConfig) (st : HNSWPQState)
    (nodes : List HNSWNode) (newId : ℤ) (neighbors : List ℤ) (level : ℕ) :
    List HNSWNode :=
  neighbors.foldl (fun ns nb =>
    let ns1 := addNeighborToLevel ns nb level newId
    if cfg.M < ((ns1.getD nb.toNat ⟨0, []⟩).neighbors.getD level []).length then
      pruneNeighbors cfg st ns1 nb level
    else ns1) nodes

/-- Push budget of the hybrid's traversals. -/
def totalNeighborEntries (st : HNSWPQState) : ℕ :=
  (st.nodes.map (fun n => (n.neighbors.map List.length).sum)).sum

/-- The search phase of the insert loop (`HNSWPQIndex.cpp:366-428`),
from `maxLevelToProcess` down to level 0: per-level greedy entry
refinement, BFS collection capped at `efBuild * 2`, `partial_sort` of
the first `min(efBuild, #candidates)` (the model sorts the whole list;
the tail's order is unspecified in C++ and fixed here), neighbor
selection, and the move of `currObj` to the best candidate.  No graph
mutation happens in this phase; the collected per-level lists are
returned (index = level). -/
def addSearchLoop (cfg : HNSWPQConfig) (st : HNSWPQState)
    (distTo : ℤ → ℚ) :
    ℕ → ℕ → ℤ → List (List ℤ) → ℤ × List (List ℤ)
  | 0, _, currObj, acc => (currObj, acc)
  | fuel + 1, level, currObj, acc =>
    let entry0 := (distTo currObj, currObj)
    let e := levelGreedy st distTo level (st.nodes.length + 1) entry0
    let cands := bfsCollect st distTo level (cfg.efConstruction * 2)
      (totalNeighborEntries st + 2) [e.2] [e.2] []
    let sorted := sortPairs cands
    let selected := if cfg.useHeuristicSelection = true ∧ cfg.M < sorted.length
      then selectNeighborsHeuristic st sorted cfg.M
      else selectNeighbors sorted cfg.M
    let currObj1 := match sorted with
      | [] => currObj
      | c :: _ => c.2
    if level = 0 then (currObj1, selected :: acc)
    else addSearchLoop cfg st distTo fuel (level - 1) currObj1 (selected :: acc)

/-- `HNSWPQIndex::add` (`HNSWPQIndex.cpp:304-459`).  Untrained throws
first; the vector is stored and encoded (phase 1; a full store throws
before any other mutation); the first insert publishes entry 0
(phase 2); the search phase collects neighbors per level with exact
distances (phase 3); the write phase sets the new node's lists via the
bounds-checked `addNeighborToLevel` — which ignores the not-yet-pushed
`newIndex`, leaving the new node's own lists empty — then connects the
selected neighbors back to `newIndex`, updates the entry point, and
publishes the node (phase 4). -/
def add (cfg : HNSWPQConfig) (st : HNSWPQState) (rawLevel : ℕ) (id : ℤ)
    (v : Vec) : HNSWPQState × Except String Unit :=
  if st.trained = false then
    (st, Except.error "HNSWPQ index must be trained before adding vectors")
  else
    let newIndex := st.size
    match st.store.add id v with
    | (_, Except.error e) => (st, Except.error e)
    | (store1, Except.ok _) =>
      let st1 : HNSWPQState :=
        { st with store := store1, codes := st.codes ++ [encode st v] }
      let level := min rawLevel cfg.maxLevel
      if newIndex = 0 then
        ({ st1 with nodes := st1.nodes ++ [⟨level, List.replicate (level + 1) []⟩]
                    entryPoint := 0
                    size := 1 }, Except.ok ())
      else
        let distTo := fun nb => computeExactDistance st1 (newIndex : ℤ) nb
        let currObj0 := st1.entryPoint
        let entryLevel := (nodeAt st1 currObj0).level
        let c1 := descendLevels st1 distTo level (entryLevel + 1) entryLevel
          (distTo currObj0, currObj0)
        let maxLevelToProcess := min level (nodeAt st1 c1.2).level
        let r := addSearchLoop cfg st1 distTo (maxLevelToProcess + 1)
          maxLevelToProcess c1.2 []
        let perLevel := r.2
        let nodesA := (List.range (level + 1)).foldl (fun ns lvl =>
          (perLevel.getD lvl []).foldl
            (fun ns2 nb => addNeighborToLevel ns2 (newIndex : ℤ) lvl nb) ns)
          st1.nodes
        let nodesB := (List.range (level + 1)).foldl (fun ns lvl =>
          connectNeighbors cfg st1 ns (newIndex : ℤ) (perLevel.getD lvl []) lvl)
          nodesA
        let entry1 := if (nodeAt st1 st1.entryPoint).level < level then
            (newIndex : ℤ)
          else st1.entryPoint
        ({ st1 with nodes := nodesB ++ [⟨level, List.replicate (level + 1) []⟩]
                    entryPoint := entry1
                    size := st.size + 1 }, Except.ok ())

/-- The level-0 loop of `HNSWPQIndex::search`
(`HNSWPQIndex.cpp:535-594`): while candidates remain and fewer than
`efSearch` nodes are visited, pop the nearest candidate, collect its
unvisited level-0 neighbors (marking them visited as collected), score
them with exact distances (`FLT_MAX` for a null row), and push each
into both heaps, trimming the result heap to `candidatePoolSize`.  (The
`lowerBound` variable is updated but never read afterwards.) -/
def searchZeroLoop (st : HNSWPQState) (q : Vec) (efSearch cps : ℕ) :
    ℕ → List (ℚ × ℤ) → List (ℚ × ℤ) → List ℤ → List (ℚ × ℤ)
  | 0, _, best, _ => best
  | fuel + 1, cands, best, visited =>
    match cands with
    | [] => best
    | curr :: rest =>
      if efSearch ≤ visited.length then best
      else
        let uv := (neighborsAt st curr.2 0).foldl
          (fun (acc : List ℤ × List ℤ) nb =>
            if nb ∈ acc.2 then acc else (acc.1 ++ [nb], nb :: acc.2))
          ([], visited)
        if uv.1 = [] then searchZeroLoop st q efSearch cps fuel rest best uv.2
        else
          let pushed := uv.1.foldl
            (fun (hb : List (ℚ × ℤ) × List (ℚ × ℤ)) nb =>
              let d := computeExactDistanceToQuery st q nb
              let b1 := HNSWIndex.insByDist (d, nb) hb.2
              (HNSWIndex.insByDist (d, nb) hb.1,
               if cps < b1.length then b1.dropLast else b1))
            (rest, best)
          searchZeroLoop st q efSearch cps fuel pushed.1 pushed.2 uv.2

/-- `HNSWPQIndex::search` (`HNSWPQIndex.cpp:461-657`): empty when
untrained or empty; greedy-descend the upper levels with **ADC**
distances; run the level-0 loop with exact distances, an enlarged
`efSearch = max(50·k, min(size/10, 2000))` and a result pool of
`200·k`; flush the pool in ascending order, re-rank the top
`min(#results, 20·k)` with exact distances, truncate to `k`, and emit
`(distance, label)` pairs. -/
def search (st : HNSWPQState) (q : Vec) (k : ℕ) :
    List (ℚ × ℤ) :=
  if st.trained = false ∨ st.size = 0 then []
  else
    let distPQ := fun nb => computeDistancePQ st q nb
    let currObj0 := st.entryPoint
    let entryLevel := (nodeAt st currObj0).level
    let c := descendLevels st distPQ 0 (entryLevel + 1) entryLevel
      (distPQ currObj0, currObj0)
    let efSearch := max (k * 50) (min (st.size / 10) 2000)
    let cps := k * 200
    let entryDist := computeExactDistanceToQuery st q c.2
    let best := searchZeroLoop st q efSearch cps
      (totalNeighborEntries st + 2)
      [(entryDist, c.2)] [(entryDist, c.2)] [c.2]
    let nRefine := min best.length (k * 20)
    let final := if 0 < nRefine then
        let refined := sortPairs ((best.take nRefine).map (fun p =>
          (computeExactDistanceToQuery st q p.2, p.2)))
        if k < refined.length then refined.take k else refined
      else best
    (final.take (min k final.length)).map (fun p => (p.1, st.store.getId p.2))

/-- The loop of `HNSWPQIndex::addBatch` (`HNSWPQIndex.cpp:810-818`):
`try { add } catch (...) { /* skip */ }` — failures are swallowed with
nothing recorded, and the loop continues. -/
def addBatch (cfg : HNSWPQConfig) :
    HNSWPQState → List (ℕ × ℤ × Vec) → HNSWPQState
  | st, [] => st
  | st, (lvl, id, v) :: rest => addBatch cfg (add cfg st lvl id v).1 rest

end HNSWPQIndex

/-- Well-formedness of an `HNSWPQState`. -/
def HNSWPQState.wf (st : HNSWPQState) : Prop :=
  st.size = st.nodes.length
  ∧ st.store.size = st.nodes.length
  ∧ (0 < st.size → 0 ≤ st.entryPoint ∧ st.entryPoint < (st.size : ℤ))
  ∧ (∀ n ∈ st.nodes, ∀ l ∈ n.neighbors, ∀ nb ∈ l, 0 ≤ nb ∧ nb < (st.size : ℤ))
  ∧ st.codes.length = st.size

instance (st : HNSWPQState) : Decidable st.wf := by
  unfold HNSWPQState.wf; infer_instance

/-- A concrete HNSW configuration for the witnesses: `M = 1`, overflow
factor 2, heuristic selection and early termination off, inert cosine
hook, `getEfSearch` rendered as `k + 32`. -/
def hnswCfgExample : HNSWConfig :=
  { M := 1
    efConstruction := 2
    maxLevel := 2
    distanceThreshold := 0
    useEarlyTermination := false
    maxExpansionsMultiplier := 2
    useHeuristicSelection := false
    pruneOverflowFactor := 2
    cosineSim := fun _ _ => 0
    efSearchFn := fun k _ => k + 32 }

/-- A two-node well-formed HNSW state: vectors `[0]` (label 7) and
`[1]` (label 8), mutually linked at level 0. -/
def hnswExample : HNSWState :=
  { store := ⟨1, 4, [[0], [1]], [7, 8], [0, 1]⟩
    nodes := [⟨0, [[1]]⟩, ⟨0, [[0]]⟩]
    entryPoint := 0
    size := 2 }

/-- A concrete HNSWPQ configuration for the witnesses. -/
def hpqCfgExample : HNSWPQConfig :=
  { M := 1
    efConstruction := 2
    maxLevel := 2
    useHeuristicSelection := false
    pqIterations := 2 }

/-- A two-node well-formed, trained HNSW+PQ state over the same graph:
one subspace of width 1 with centroids `[0]` and `[4]`. -/
def hpqExample : HNSWPQState :=
  { store := ⟨1, 4, [[0], [1]], [7, 8], [0, 1]⟩
    nodes := [⟨0, [[1]]⟩, ⟨0, [[0]]⟩]
    entryPoint := 0
    size := 2
    trained := true
    pqM := 1
    subDim := 1
    nCentroids := 2
    codebooks := [[[0], [4]]]
    codes := [[0], [1]] }

/-! ## Theorems -/

theorem sortPairs_perm (l : List (ℚ × ℤ)) : List.Perm (sortPairs l) l :=
  List.perm_insertionSort pairLe l

theorem sortPairs_sorted (l : List (ℚ × ℤ)) : (sortPairs l).Sorted pairLe :=
  List.sorted_insertionSort pairLe l

theorem sortPairs_length (l : List (ℚ × ℤ)) : (sortPairs l).length = l.length :=
  List.length_insertionSort pairLe l

/-- A list of pairs sorted under `pairLe` has non-decreasing first
components (non-decreasing distances). -/
theorem Sorted.fst_of_pairLe {l : List (ℚ × ℤ)} (h : l.Sorted pairLe) :
    l.Sorted (fun a b => a.1 ≤ b.1) := by
  refine h.imp ?_
  intro a b hab
  rcases hab with h1 | ⟨h1, _⟩
  · exact le_of_lt h1
  · exact le_of_eq h1

/-! Basic facts about `VectorStore.add` feeding claims C2. -/

theorem VectorStore.add_of_full (s : VectorStore) (id : ℤ) (v : Vec)
    (h : s.size = s.maxElements) :
    s.add id v = (s, Except.error "VectorStore is full") := by
  unfold add
  simp [h]

theorem VectorStore.add_of_lt (s : VectorStore) (id : ℤ) (v : Vec)
    (h : s.size < s.maxElements) :
    (s.add id v).1.size = s.size + 1 ∧ (s.add id v).2 = Except.ok s.size := by
  unfold add
  simp only [not_le.mpr h, if_neg (not_le.mpr h)]
  constructor
  · simp [size]
  · rfl

theorem VectorStore.addMany_maxElements (s : VectorStore) (items : List (ℤ × Vec)) :
    (s.addMany items).maxElements = s.maxElements := by
  induction items generalizing s with
  | nil => rfl
  | cons it rest ih =>
    show ((s.add it.1 it.2).1.addMany rest).maxElements = _
    rw [ih]
    unfold add
    by_cases h : s.maxElements ≤ s.size <;> simp [h]

theorem VectorStore.addMany_size (s : VectorStore) (items : List (ℤ × Vec)) :
    (s.addMany items).size = min (s.size + items.length) (max s.size s.maxElements) := by
  induction items generalizing s with
  | nil => simp [addMany]
  | cons it rest ih =>
    show ((s.add it.1 it.2).1.addMany rest).size = _
    by_cases h : s.maxElements ≤ s.size
    · have h1 : (s.add it.1 it.2).1 = s := by unfold add; simp [h]
      rw [h1, ih]
      have h2 : max s.size s.maxElements = s.size := max_eq_left h
      have h3 : max s.size s.maxElements = s.size := h2
      omega
    · have h1 : (s.add it.1 it.2).1.size = s.size + 1 := by
        unfold add; simp only [if_neg h]; simp [size]
      have h2 : (s.add it.1 it.2).1.maxElements = s.maxElements := by
        unfold add; simp only [if_neg h]
      rw [ih, h1, h2]
      simp only [List.length_cons]
      omega

/-- **C2.** For the vector store's `add(label, vector)`: when
`size == capacity` the call fails with the capacity-exceeded error and
the atomic size reservation is rolled back, so the state (in particular
`size`) is unchanged and a subsequent `add` behaves exactly as on the
original state; a successful `add` never leaves `size > capacity`; and
starting from an empty store of capacity `c`, after `c` adds the
`(c+1)`-th add fails. -/
theorem add_capacity_exceeded_rollback (d c : ℕ) (s : VectorStore)
    (id id2 : ℤ) (v v2 : Vec) (items : List (ℤ × Vec))
    (hfull : s.size = s.maxElements) (hlen : items.length = c) :
    s.add id v = (s, Except.error "VectorStore is full")
    ∧ ((s.add id v).1.add id2 v2 = s.add id2 v2)
    ∧ (∀ (t : VectorStore) (i : ℕ), (t.add id v).2 = Except.ok i →
         (t.add id v).1.size ≤ t.maxElements)
    ∧ ((VectorStore.empty d c).addMany items).size = c
    ∧ (((VectorStore.empty d c).addMany items).add id v).2 =
        Except.error "VectorStore is full" := by
  refine ⟨VectorStore.add_of_full s id v hfull, ?_, ?_, ?_, ?_⟩
  · rw [VectorStore.add_of_full s id v hfull]
  · intro t i hok
    by_cases h : t.maxElements ≤ t.size
    · exfalso
      unfold VectorStore.add at hok
      simp [h] at hok
    · have := VectorStore.add_of_lt t id v (lt_of_not_le h)
      omega
  · rw [VectorStore.addMany_size]
    simp [VectorStore.empty, VectorStore.size, hlen]
  · have hsz : ((VectorStore.empty d c).addMany items).size = c := by
      rw [VectorStore.addMany_size]
      simp [VectorStore.empty, VectorStore.size, hlen]
    have hmax : ((VectorStore.empty d c).addMany items).maxElements = c := by
      rw [VectorStore.addMany_maxElements]; rfl
    rw [VectorStore.add_of_full _ id v (by rw [hsz, hmax])]

/-- Witness for C2 at a concrete store of capacity 1 holding 1 vector. -/
theorem add_capacity_exceeded_rollback_witness :
    (⟨1, 1, [[0]], [7], [0]⟩ : VectorStore).size =
      (⟨1, 1, [[0]], [7], [0]⟩ : VectorStore).maxElements
    ∧ ([((5 : ℤ), [(0 : ℚ)])].length = 1)
    ∧ (⟨1, 1, [[0]], [7], [0]⟩ : VectorStore).add 9 [1] =
        (⟨1, 1, [[0]], [7], [0]⟩, Except.error "VectorStore is full") := by
  have h := add_capacity_exceeded_rollback 1 1 ⟨1, 1, [[0]], [7], [0]⟩
    9 8 [1] [2] [((5 : ℤ), [(0 : ℚ)])] (by rfl) (by rfl)
  exact ⟨by rfl, by rfl, h.1⟩

/-- **C10.** The vector store's accessors are total over arbitrary
integer indexes: outside `[0, size)`, `getVector` returns the null
sentinel, `getId` returns `-1`, `getNorm` returns `0`; and the HNSW
distance helper maps any such index to `FLT_MAX` instead of
dereferencing a row. -/
theorem accessors_total_out_of_range (s : VectorStore) (q : Vec) (i : ℤ)
    (h : i < 0 ∨ (s.size : ℤ) ≤ i) :
    s.getVector i = none ∧ s.getId i = -1 ∧ s.getNorm i = 0
    ∧ hnswComputeDistance s q i = floatMax := by
  refine ⟨?_, ?_, ?_, ?_⟩
  · unfold VectorStore.getVector; simp [h]
  · unfold VectorStore.getId; simp [h]
  · unfold VectorStore.getNorm; simp [h]
  · unfold hnswComputeDistance; simp [h]

/-- Witness for C10 at index 2 of a store of size 1. -/
theorem accessors_total_out_of_range_witness :
    (⟨1, 4, [[3]], [7], [9]⟩ : VectorStore).getVector 2 = none
    ∧ (⟨1, 4, [[3]], [7], [9]⟩ : VectorStore).getId 2 = -1
    ∧ (⟨1, 4, [[3]], [7], [9]⟩ : VectorStore).getNorm 2 = 0
    ∧ hnswComputeDistance ⟨1, 4, [[3]], [7], [9]⟩ [0] 2 = floatMax := by
  exact accessors_total_out_of_range ⟨1, 4, [[3]], [7], [9]⟩ [0] 2 (by decide)


/-! ## Helper lemmas -/

theorem getD_map_range {α : Type} (n i : ℕ) (g : ℕ → α) (d : α) (h : i < n) :
    ((List.range n).map g).getD i d = g i := by
  rw [List.getD_eq_getElem?_getD, List.getElem?_map, List.getElem?_range h]
  rfl

theorem foldl_add_eq_sum {α : Type} (g : α → ℚ) :
    ∀ (l : List α) (acc : ℚ), l.foldl (fun a x => a + g x) acc = acc + (l.map g).sum
  | [], acc => by simp
  | x :: xs, acc => by
    rw [List.foldl_cons, foldl_add_eq_sum g xs (acc + g x)]
    simp [add_assoc]

theorem sqDist_nonneg (a b : Vec) : 0 ≤ sqDist a b := by
  unfold sqDist
  apply List.sum_nonneg
  intro x hx
  rcases List.mem_map.mp hx with ⟨p, _, rfl⟩
  exact mul_self_nonneg _

theorem norm_expansion : ∀ (a b : Vec), a.length = b.length →
    normSq a + normSq b - 2 * dotProd a b = sqDist a b
  | [], [], _ => by simp [normSq, dotProd, sqDist]
  | x :: a, y :: b, h => by
    have ih := norm_expansion a b (by simpa using h)
    simp only [normSq, dotProd, sqDist, List.zip_cons_cons, List.map_cons,
      List.sum_cons] at ih ⊢
    linear_combination ih

theorem subVec_length (subDim M m : ℕ) (q : Vec) (hq : q.length = M * subDim)
    (hm : m < M) : (subVec subDim m q).length = subDim := by
  unfold subVec
  rw [List.length_take, List.length_drop, hq]
  have h1 : (m + 1) * subDim ≤ M * subDim := Nat.mul_le_mul_right subDim hm
  have h2 : (m + 1) * subDim = m * subDim + subDim := by ring
  omega

theorem batchEuclideanDistance_getD (q : Vec) (vecs : List Vec) (c : ℕ)
    (hc : c < vecs.length) (hlen : (vecs.getD c []).length = q.length) :
    (batchEuclideanDistance q vecs).getD c 0 = sqDist q (vecs.getD c []) := by
  unfold batchEuclideanDistance
  rw [List.getD_eq_getElem?_getD, List.getElem?_map]
  rw [List.getD_eq_getElem?_getD] at hlen ⊢
  rcases h : vecs[c]? with _ | v
  · exact absurd (List.getElem?_eq_some_iff.mpr ⟨hc, rfl⟩) (by simp [h])
  · simp only [h, Option.map_some', Option.getD_some] at hlen ⊢
    have hexp : normSq q + normSq v - 2 * dotProd q v = sqDist q v :=
      norm_expansion q v (by simpa using hlen.symm)
    rw [hexp]
    simp only [ite_eq_right_iff, and_imp]
    intro hlt
    exact absurd (sqDist_nonneg q v) (not_le.mpr hlt)

theorem findNearestIn_foldl_lt (n : ℕ) (f : ℕ → Vec) (v : Vec) :
    ∀ (l : List ℕ) (acc : ℚ × ℕ), acc.2 < n → (∀ i ∈ l, i < n) →
      ((l.foldl (fun acc i =>
        let dist := sqDist v (f i)
        if dist < acc.1 then (dist, i) else acc) acc)).2 < n
  | [], acc, hacc, _ => hacc
  | i :: l, acc, hacc, hmem => by
    rw [List.foldl_cons]
    by_cases h : sqDist v (f i) < acc.1
    · simp only [h, if_pos]
      exact findNearestIn_foldl_lt n f v l _ (hmem i (by simp)) (fun j hj => hmem j (by simp [hj]))
    · simp only [h, if_neg, ite_false]
      exact findNearestIn_foldl_lt n f v l acc hacc (fun j hj => hmem j (by simp [hj]))

theorem findNearestIn_lt (n : ℕ) (f : ℕ → Vec) (v : Vec) (hn : 0 < n) :
    findNearestIn n f v < n := by
  unfold findNearestIn
  exact findNearestIn_foldl_lt n f v (List.range n) (floatMax, 0) hn
    (fun i hi => List.mem_range.mp hi)

theorem flatten_getD_eq : ∀ (T : List (List ℚ)) (nC : ℕ),
    (∀ row ∈ T, row.length = nC) → ∀ (m c : ℕ), m < T.length → c < nC →
    T.flatten.getD (m * nC + c) 0 = (T.getD m []).getD c 0
  | [], _, _, m, _, hm, _ => absurd hm (by simp)
  | row :: rest, nC, hT, 0, c, _, hc => by
    have hrow : row.length = nC := hT row (by simp)
    simp only [List.flatten_cons, Nat.zero_mul, Nat.zero_add]
    rw [List.getD_eq_getElem?_getD, List.getElem?_append_left (by omega),
      ← List.getD_eq_getElem?_getD]
    simp [List.getD]
  | row :: rest, nC, hT, m + 1, c, hm, hc => by
    have hrow : row.length = nC := hT row (by simp)
    have ih := flatten_getD_eq rest nC (fun r hr => hT r (by simp [hr])) m c
      (by simpa using hm) hc
    simp only [List.flatten_cons]
    have hidx : (m + 1) * nC + c = row.length + (m * nC + c) := by
      rw [hrow]; ring
    rw [List.getD_eq_getElem?_getD, hidx, List.getElem?_append_right (by omega)]
    simp only [Nat.add_sub_cancel_left]
    rw [← List.getD_eq_getElem?_getD, ih]
    simp [List.getD]

theorem getD_mem {α : Type} (l : List α) (i : ℕ) (d : α) (h : i < l.length) :
    l.getD i d ∈ l := by
  rw [List.getD_eq_getElem?_getD, List.getElem?_eq_getElem h]
  exact List.getElem_mem h

theorem getD_modify_ne {α : Type} (f : α → α) (j i : ℕ) (l : List α) (d : α)
    (h : j ≠ i) : (List.modify f j l).getD i d = l.getD i d := by
  rw [List.getD_eq_getElem?_getD, List.getElem?_modify, List.getD_eq_getElem?_getD]
  rcases l[i]? with _ | x
  · rfl
  · simp [h]

theorem getD_replicate_lt {α : Type} (n i : ℕ) (x d : α) (h : i < n) :
    (List.replicate n x).getD i d = x := by
  rw [List.getD_eq_getElem?_getD, List.getElem?_replicate]
  simp [h]

/-! ### Claim C6: the ADC distance table and the PQ round-trip -/

theorem distanceTable_getD (st : PQState) (q : Vec) (hwf : st.wf)
    (hq : q.length = st.store.dim) (m c : ℕ) (hm : m < st.M)
    (hc : c < st.nCentroids) :
    ((PQIndex.distanceTable st q).getD m []).getD c 0
      = sqDist (subVec st.subDim m q) (PQIndex.getCodebookCentroid st m c) := by
  obtain ⟨hdim, hcbl, hcb, _⟩ := hwf
  unfold PQIndex.distanceTable
  rw [getD_map_range st.M m _ [] hm]
  have hmem : st.codebooks.getD m [] ∈ st.codebooks := getD_mem _ m [] (by omega)
  obtain ⟨hlen, hcent⟩ := hcb _ hmem
  have hcmem : (st.codebooks.getD m []).getD c [] ∈ st.codebooks.getD m [] :=
    getD_mem _ c [] (by omega)
  have hq' : q.length = st.M * st.subDim := by rw [hq, hdim]
  exact batchEuclideanDistance_getD (subVec st.subDim m q)
    (st.codebooks.getD m []) c (by omega)
    (by rw [hcent _ hcmem, subVec_length st.subDim st.M m q hq' hm])

/-- Each row of the distance table has exactly `nCentroids` entries. -/
theorem distanceTable_row_length (st : PQState) (q : Vec) (hwf : st.wf) :
    ∀ row ∈ PQIndex.distanceTable st q, row.length = st.nCentroids := by
  obtain ⟨_, hcbl, hcb, _⟩ := hwf
  intro row hrow
  unfold PQIndex.distanceTable at hrow
  rcases List.mem_map.mp hrow with ⟨m, hm, rfl⟩
  unfold batchEuclideanDistance
  rw [List.length_map]
  exact (hcb _ (getD_mem _ m [] (by rw [hcbl]; exact List.mem_range.mp hm))).1

/-- **C6.** For the PQ codec: the distance table satisfies
`T[m][c] = ‖q_m − centroid(m,c)‖²` (the batch kernel's norm-expansion
identity with its negative-clamp computes the exact squared distance in
exact arithmetic); the ADC distance of codes `(k_0, …, k_{M-1})` equals
`Σ_m T[m][k_m]`, which is `Σ_m ‖q_m − centroid(m,k_m)‖²`; the
table-based accumulation of `PQIndex::search` agrees with the flat
scalar ADC computation of `ADCUtils::adcDistanceScalar`; and for a
query equal to a stored vector `v`, the ADC distance of `v`'s own codes
is the sum of the per-subspace quantization errors
`Σ_m ‖v_m − centroid(m, code_m)‖²`. -/
theorem adc_table_exact (st : PQState) (q : Vec) (codes : List ℕ)
    (hwf : st.wf) (hq : q.length = st.store.dim) (hnc : 0 < st.nCentroids) :
    (∀ m, m < st.M → ∀ c, c < st.nCentroids →
       ((PQIndex.distanceTable st q).getD m []).getD c 0
         = sqDist (subVec st.subDim m q) (PQIndex.getCodebookCentroid st m c))
    ∧ ((∀ m, m < st.M → codes.getD m 0 < st.nCentroids) →
        PQIndex.adcSumTable (PQIndex.distanceTable st q) codes st.M
          = ((List.range st.M).map (fun m =>
              sqDist (subVec st.subDim m q)
                (PQIndex.getCodebookCentroid st m (codes.getD m 0)))).sum)
    ∧ ((∀ m, m < st.M → codes.getD m 0 < st.nCentroids) →
        adcDistanceScalar (PQIndex.distanceTable st q).flatten codes
            st.M st.nCentroids
          = PQIndex.adcSumTable (PQIndex.distanceTable st q) codes st.M)
    ∧ (∀ v : Vec, v.length = st.store.dim →
        PQIndex.adcSumTable (PQIndex.distanceTable st v) (PQIndex.encode st v) st.M
          = ((List.range st.M).map (fun m =>
              sqDist (subVec st.subDim m v)
                (PQIndex.getCodebookCentroid st m
                  (PQIndex.findNearestCentroid st m (subVec st.subDim m v))))).sum) := by
  have key : ∀ (q' : Vec), q'.length = st.store.dim →
      ∀ (cs : List ℕ), (∀ m, m < st.M → cs.getD m 0 < st.nCentroids) →
      PQIndex.adcSumTable (PQIndex.distanceTable st q') cs st.M
        = ((List.range st.M).map (fun m =>
            sqDist (subVec st.subDim m q')
              (PQIndex.getCodebookCentroid st m (cs.getD m 0)))).sum := by
    intro q' hq' cs hcs
    unfold PQIndex.adcSumTable
    rw [foldl_add_eq_sum, zero_add]
    apply congrArg List.sum
    apply List.map_congr_left
    intro m hm
    exact distanceTable_getD st q' hwf hq' m _ (List.mem_range.mp hm)
      (hcs m (List.mem_range.mp hm))
  refine ⟨fun m hm c hc => distanceTable_getD st q hwf hq m c hm hc,
          key q hq codes, ?_, ?_⟩
  · intro hcs
    unfold adcDistanceScalar PQIndex.adcSumTable
    rw [foldl_add_eq_sum, foldl_add_eq_sum, zero_add, zero_add]
    apply congrArg List.sum
    apply List.map_congr_left
    intro m hm
    have hmM : m < st.M := List.mem_range.mp hm
    have hTlen : (PQIndex.distanceTable st q).length = st.M := by
      unfold PQIndex.distanceTable
      rw [List.length_map, List.length_range]
    exact flatten_getD_eq (PQIndex.distanceTable st q) st.nCentroids
      (distanceTable_row_length st q hwf) m (codes.getD m 0)
      (by omega) (hcs m hmM)
  · intro v hv
    have hcs : ∀ m, m < st.M → (PQIndex.encode st v).getD m 0 < st.nCentroids := by
      intro m hm
      unfold PQIndex.encode
      rw [getD_map_range _ m _ 0 hm]
      exact findNearestIn_lt _ _ _ hnc
    rw [key v hv _ hcs]
    apply congrArg List.sum
    apply List.map_congr_left
    intro m hm
    unfold PQIndex.encode
    rw [getD_map_range _ m _ 0 (List.mem_range.mp hm)]

/-- Witness for C6: on `pqExample` the self-ADC distance of the stored
vector `[1, 3]` evaluates to `2`, the sum of its per-subspace
quantization errors `(1-0)² + (3-4)²`. -/
theorem adc_table_exact_witness :
    PQIndex.adcSumTable (PQIndex.distanceTable pqExample [1, 3])
        (PQIndex.encode pqExample [1, 3]) 2 = 2
    ∧ PQIndex.adcSumTable (PQIndex.distanceTable pqExample [1, 3])
        (PQIndex.encode pqExample [1, 3]) pqExample.M
      = ((List.range pqExample.M).map (fun m =>
          sqDist (subVec pqExample.subDim m [1, 3])
            (PQIndex.getCodebookCentroid pqExample m
              (PQIndex.findNearestCentroid pqExample m
                (subVec pqExample.subDim m [1, 3]))))).sum :=
  by
  refine ⟨?_, (adc_table_exact pqExample [1, 3] [0, 1] (by decide) (by decide)
    (by decide)).2.2.2 [1, 3] (by decide)⟩
  norm_num [PQIndex.adcSumTable, PQIndex.distanceTable, PQIndex.encode,
    PQIndex.findNearestCentroid, findNearestIn, PQIndex.getCodebookCentroid,
    batchEuclideanDistance, pqExample, subVec, sqDist, normSq, dotProd,
    floatMax, List.range_succ]
  exact (by norm_num : 1 + ([9, 1] : List ℚ)[1] = 2)

/-! ### Claim C7: codebook seeding -/

theorem kmppSelectGo_pos (target : ℚ) :
    ∀ (ws : List ℚ) (cumsum : ℚ) (i : ℕ),
      (∀ w ∈ ws, 0 ≤ w) → cumsum < target → target ≤ cumsum + ws.sum →
      ∃ j, kmppSelectGo target ws cumsum i = i + j ∧ 0 < ws.getD j 0
  | [], cumsum, i, _, hlt, hle => by
    exfalso
    simp only [List.sum_nil, add_zero] at hle
    exact absurd hle (not_le.mpr hlt)
  | w :: ws, cumsum, i, hw, hlt, hle => by
    unfold kmppSelectGo
    by_cases h : target ≤ cumsum + w
    · refine ⟨0, by simp [h], ?_⟩
      have : cumsum < cumsum + w := lt_of_lt_of_le hlt h
      simpa using this
    · rw [if_neg h]
      have hrec := kmppSelectGo_pos target ws (cumsum + w) (i + 1)
        (fun x hx => hw x (by simp [hx]))
        (lt_of_not_le h)
        (by rw [List.sum_cons] at hle; linarith)
      obtain ⟨j, hj, hpos⟩ := hrec
      exact ⟨j + 1, by rw [hj]; omega, by simpa using hpos⟩

/-- C7 **counterexample**.  The claim says each subsequent PQ centroid
is sampled with probability proportional to the squared distance to the
nearest already-chosen centroid.  In `PQIndex::trainSubspace` every
centroid is an independent uniform draw: with samples `{[0], [1]}` and
the (attainable) uniform draw sequence `0, 0, …`, centroid 1 is again
sample `[0]` — whose k-means++ weight (minimum squared distance to the
chosen centroid `[0]`) is `0` while the total weight is `1 > 0`.  Under
the claimed rule this outcome has probability `0 / 1 = 0`; under the
code it occurs, so `PQIndex` seeding is not k-means++. -/
theorem pq_seeding_not_kmeanspp_counterexample :
    pqSeedCentroids (fun _ => 0) [[0], [1]] 2 = [[0], [0]]
    ∧ kmppUpdateMinDists [[0], [1]] [0] (List.replicate 2 floatMax) = [0, 1]
    ∧ (0 : ℚ) < [(0 : ℚ), 1].sum
    ∧ [(0 : ℚ), 1].getD 0 0 = 0 := by
  refine ⟨by decide, ?_, by norm_num, by decide⟩
  norm_num [kmppUpdateMinDists, sqDist, floatMax, min_def, List.replicate_succ]

/-- **C7 (amended).**  `PQIndex::trainSubspace` seeds every centroid of
a subspace by an independent uniform draw over the samples, with no
dependence on distances; `HNSWPQIndex::trainSubspace` is the one that
uses k-means++ seeding, whose cumulative-sum selection at any drawn
target in `(0, totalDist]` only ever picks a sample of positive weight
(in particular never a duplicate of an already-chosen centroid while
positive-weight samples remain).  In both files the per-subspace
generator is seeded `42 + subspaceIdx`, as the claim says. -/
theorem pq_seeds_uniform_hnswpq_seeds_kmeanspp :
    (∀ (draws : ℕ → ℕ) (subData : List Vec) (n i : ℕ), i < n →
       (pqSeedCentroids draws subData n).getD i [] = subData.getD (draws i) [])
    ∧ (∀ (weights : List ℚ) (target : ℚ),
        (∀ w ∈ weights, 0 ≤ w) → 0 < target → target ≤ weights.sum →
        0 < weights.getD (kmppSelectIndex weights target) 0) := by
  constructor
  · intro draws subData n i hi
    unfold pqSeedCentroids
    rw [getD_map_range n i _ [] hi]
  · intro weights target hw hpos hle
    obtain ⟨j, hj, hposj⟩ := kmppSelectGo_pos target weights 0 0 hw hpos
      (by simpa using hle)
    unfold kmppSelectIndex
    rw [hj]
    simpa using hposj

/-- Witness for C7's amended statement. -/
theorem pq_seeds_uniform_hnswpq_seeds_kmeanspp_witness :
    (pqSeedCentroids (fun _ => 0) [[5]] 1).getD 0 [] = [5]
    ∧ 0 < [(0 : ℚ), 1].getD (kmppSelectIndex [0, 1] (1 / 2)) 0 :=
  ⟨pq_seeds_uniform_hnswpq_seeds_kmeanspp.1 (fun _ => 0) [[5]] 1 0 (by decide),
   pq_seeds_uniform_hnswpq_seeds_kmeanspp.2 [0, 1] (1 / 2) (by decide)
     (by norm_num) (by norm_num)⟩

/-! ### Claim C8: empty clusters in the Lloyd update -/

theorem kmeansAccum_not_mem (i : ℕ) :
    ∀ (ps : List (Vec × ℕ)) (st : List Vec × List ℕ),
      (∀ p ∈ ps, p.2 ≠ i) →
      (ps.foldl (fun st p => (List.modify (fun c => vecAdd c p.1) p.2 st.1,
                              List.modify (· + 1) p.2 st.2)) st).1.getD i []
        = st.1.getD i []
      ∧ (ps.foldl (fun st p => (List.modify (fun c => vecAdd c p.1) p.2 st.1,
                                List.modify (· + 1) p.2 st.2)) st).2.getD i 0
        = st.2.getD i 0
  | [], _, _ => ⟨rfl, rfl⟩
  | p :: ps, st, h => by
    rw [List.foldl_cons]
    have ih := kmeansAccum_not_mem i ps
      (List.modify (fun c => vecAdd c p.1) p.2 st.1,
       List.modify (· + 1) p.2 st.2)
      (fun q hq => h q (List.mem_cons_of_mem _ hq))
    refine ⟨?_, ?_⟩
    · rw [ih.1]
      exact getD_modify_ne _ p.2 i st.1 [] (h p (List.mem_cons_self _ _))
    · rw [ih.2]
      exact getD_modify_ne _ p.2 i st.2 0 (h p (List.mem_cons_self _ _))

/-- **C8 (amended).**  In the shared Lloyd M-step of
`PQIndex::trainSubspace`, `IVFIndex::train` and
`HNSWPQIndex::trainSubspace`, a cluster to which no sample is assigned
does **not** retain its previous centroid: the update step first zeroes
every centroid, accumulates only assigned samples, and renormalizes
only non-empty clusters — so an empty cluster's centroid becomes the
zero vector (and its recorded size is 0).  There is indeed no
reseeding. -/
theorem kmeans_empty_cluster_zeroed (width nC : ℕ) (samples : List Vec)
    (assignments : List ℕ) (i : ℕ) (hi : i < nC) (hmem : i ∉ assignments) :
    (kmeansUpdate width nC samples assignments).1.getD i []
      = List.replicate width 0
    ∧ (kmeansUpdate width nC samples assignments).2.getD i 0 = 0 := by
  have hz : ∀ p ∈ samples.zip assignments, p.2 ≠ i := by
    intro p hp he
    exact hmem (he ▸ (List.of_mem_zip hp).2)
  unfold kmeansUpdate
  have hacc := kmeansAccum_not_mem i (samples.zip assignments)
    (List.replicate nC (List.replicate width (0 : ℚ)),
     List.replicate nC (0 : ℕ)) hz
  have hsz :
      ((samples.zip assignments).foldl
        (fun st p => (List.modify (fun c => vecAdd c p.1) p.2 st.1,
                      List.modify (· + 1) p.2 st.2))
        (List.replicate nC (List.replicate width (0 : ℚ)),
         List.replicate nC (0 : ℕ))).2.getD i 0 = 0 := by
    rw [hacc.2]
    exact getD_replicate_lt nC i 0 0 hi
  have hcen :
      ((samples.zip assignments).foldl
        (fun st p => (List.modify (fun c => vecAdd c p.1) p.2 st.1,
                      List.modify (· + 1) p.2 st.2))
        (List.replicate nC (List.replicate width (0 : ℚ)),
         List.replicate nC (0 : ℕ))).1.getD i [] = List.replicate width 0 := by
    rw [hacc.1]
    exact getD_replicate_lt nC i _ [] hi
  constructor
  · rw [getD_map_range nC i _ [] hi]
    simp only [hsz, lt_irrefl, if_neg, ite_false, hcen]
  · exact hsz

/-- Witness for C8's amended statement: two clusters, one sample
assigned to cluster 1, so cluster 0's centroid is zeroed. -/
theorem kmeans_empty_cluster_zeroed_witness :
    (kmeansUpdate 1 2 [[3]] [1]).1.getD 0 [] = List.replicate 1 0
    ∧ (kmeansUpdate 1 2 [[3]] [1]).2.getD 0 0 = 0 :=
  kmeans_empty_cluster_zeroed 1 2 [[3]] [1] 0 (by decide) (by decide)

/-- C8 **counterexample**.  One Lloyd iteration of the IVF/PQ k-means
loop with samples `{[0]}` and centroids `[10], [5], [0]`: the sample
moves to cluster 2 (`changed = true`), the update step then zeroes
cluster 0 and cluster 1 — their centroids become `[0]`, not the claimed
retained `[10]` and `[5]`. -/
theorem kmeans_empty_cluster_retention_counterexample :
    (kmeansIterate 1 3 [[0]] 1 [0] [[10], [5], [0]]).2 = [[0], [0], [0]]
    ∧ (kmeansIterate 1 3 [[0]] 1 [0] [[10], [5], [0]]).1 = [2]
    ∧ ([[(10 : ℚ)], [5], [0]] : List Vec).getD 0 [] = [10]
    ∧ [(10 : ℚ)] ≠ [(0 : ℚ)] := by
  refine ⟨?_, ?_, by decide, by norm_num⟩
  · norm_num [kmeansIterate, kmeansUpdate, findNearestIn, sqDist, vecAdd,
      floatMax, List.range_succ, List.modify]
  · norm_num [kmeansIterate, kmeansUpdate, findNearestIn, sqDist, vecAdd,
      floatMax, List.range_succ, List.modify]

/-! ### Beam-search invariants (feeding claim C1) -/

theorem getD_mem_or_eq {α : Type} (l : List α) (i : ℕ) (d : α) :
    l.getD i d ∈ l ∨ l.getD i d = d := by
  by_cases h : i < l.length
  · exact Or.inl (getD_mem l i d h)
  · right
    rw [List.getD_eq_getElem?_getD, List.getElem?_eq_none (le_of_not_lt h)]
    rfl

theorem length_le_of_nodup_range (l : List ℤ) (n : ℕ) (hnd : l.Nodup)
    (hr : ∀ x ∈ l, 0 ≤ x ∧ x < (n : ℤ)) : l.length ≤ n := by
  have hsub : l.toFinset ⊆ Finset.Ico (0 : ℤ) n := by
    intro x hx
    rw [List.mem_toFinset] at hx
    rw [Finset.mem_Ico]
    exact ⟨(hr x hx).1, (hr x hx).2⟩
  have h1 : l.toFinset.card = l.length := List.toFinset_card_of_nodup hnd
  have h2 : (Finset.Ico (0 : ℤ) (n : ℤ)).card = n := by
    rw [Int.card_Ico]
    simp
  calc l.length = l.toFinset.card := h1.symm
    _ ≤ (Finset.Ico (0 : ℤ) (n : ℤ)).card := Finset.card_le_card hsub
    _ = n := h2

theorem insByDist_perm (p : ℚ × ℤ) :
    ∀ l, List.Perm (HNSWIndex.insByDist p l) (p :: l)
  | [] => List.Perm.refl _
  | q :: qs => by
    unfold HNSWIndex.insByDist
    by_cases h : p.1 < q.1
    · simp [h]
    · simp only [h, if_neg, ite_false]
      exact ((insByDist_perm p qs).cons q).trans (List.Perm.swap p q qs)

theorem insByDist_sorted (p : ℚ × ℤ) :
    ∀ {l : List (ℚ × ℤ)}, l.Sorted (fun a b => a.1 ≤ b.1) →
      (HNSWIndex.insByDist p l).Sorted (fun a b => a.1 ≤ b.1)
  | [], _ => List.sorted_singleton p
  | q :: qs, h => by
    unfold HNSWIndex.insByDist
    by_cases hpq : p.1 < q.1
    · simp only [hpq, if_pos, ite_true]
      rw [List.sorted_cons]
      refine ⟨?_, h⟩
      intro b hb
      rcases List.mem_cons.mp hb with rfl | hb
      · exact le_of_lt hpq
      · exact (le_of_lt hpq).trans (List.rel_of_sorted_cons h b hb)
    · simp only [hpq, if_neg, ite_false]
      rw [List.sorted_cons] at h ⊢
      refine ⟨?_, insByDist_sorted p h.2⟩
      intro b hb
      rcases List.mem_cons.mp ((insByDist_perm p qs).mem_iff.mp hb) with rfl | hbq
      · exact le_of_not_lt hpq
      · exact h.1 b hbq

theorem insByDist_snd_perm (p : ℚ × ℤ) (l : List (ℚ × ℤ)) :
    List.Perm ((HNSWIndex.insByDist p l).map (fun x => x.2))
      (p.2 :: l.map (fun x => x.2)) :=
  (insByDist_perm p l).map (fun x => x.2)

theorem processNeighbor_inv (cfg : HNSWConfig) (st : HNSWState) (q : Vec)
    (ef : ℕ) (sl : HNSWIndex.SLState) (nb : ℤ)
    (hs : sl.best.Sorted (fun a b => a.1 ≤ b.1))
    (hbv : ∀ p ∈ sl.best, p.2 ∈ sl.visited)
    (hnd : (sl.best.map (fun p : ℚ × ℤ => p.2)).Nodup)
    (hvr : ∀ x ∈ sl.visited, 0 ≤ x ∧ x < (st.store.size : ℤ))
    (hnb : 0 ≤ nb ∧ nb < (st.store.size : ℤ)) :
    (HNSWIndex.processNeighbor cfg st q ef sl nb).best.Sorted
        (fun a b => a.1 ≤ b.1)
    ∧ (∀ p ∈ (HNSWIndex.processNeighbor cfg st q ef sl nb).best,
        p.2 ∈ (HNSWIndex.processNeighbor cfg st q ef sl nb).visited)
    ∧ ((HNSWIndex.processNeighbor cfg st q ef sl nb).best.map
        (fun p : ℚ × ℤ => p.2)).Nodup
    ∧ (∀ x ∈ (HNSWIndex.processNeighbor cfg st q ef sl nb).visited,
        0 ≤ x ∧ x < (st.store.size : ℤ)) := by
  unfold HNSWIndex.processNeighbor
  by_cases hv : nb ∈ sl.visited
  · simp only [hv, if_pos, ite_true]
    exact ⟨hs, hbv, hnd, hvr⟩
  · simp only [hv, if_neg, ite_false]
    set d := hnswComputeDistance st.store q nb with hd
    have hvr1 : ∀ x ∈ nb :: sl.visited, 0 ≤ x ∧ x < (st.store.size : ℤ) := by
      intro x hx
      rcases List.mem_cons.mp hx with rfl | hx
      · exact hnb
      · exact hvr x hx
    by_cases ht : 0 < cfg.distanceThreshold ∧ cfg.distanceThreshold < d
    · simp only [ht, if_pos, ite_true]
      exact ⟨hs, fun p hp => List.mem_cons_of_mem _ (hbv p hp), hnd, hvr1⟩
    · simp only [ht, if_neg, ite_false]
      by_cases hins : sl.best.length < ef ∨ d < sl.lowerBound
      · simp only [hins, if_pos, ite_true]
        set best1 := HNSWIndex.insByDist (d, nb) sl.best with hbest1
        have hb1s : best1.Sorted (fun a b => a.1 ≤ b.1) := insByDist_sorted _ hs
        have hb1m : ∀ p ∈ best1, p.2 ∈ nb :: sl.visited := by
          intro p hp
          rcases List.mem_cons.mp
              ((insByDist_perm (d, nb) sl.best).mem_iff.mp hp) with rfl | hp2
          · exact List.mem_cons_self _ _
          · exact List.mem_cons_of_mem _ (hbv p hp2)
        have hb1n : (best1.map (fun p : ℚ × ℤ => p.2)).Nodup := by
          refine (insByDist_snd_perm (d, nb) sl.best).nodup_iff.mpr ?_
          rw [List.nodup_cons]
          refine ⟨?_, hnd⟩
          intro hmem
          rcases List.mem_map.mp hmem with ⟨p, hp, hp2⟩
          apply hv
          rw [show nb = p.2 from hp2.symm]
          exact hbv p hp
        by_cases hlen : ef < best1.length
        · simp only [hlen, if_pos, ite_true]
          refine ⟨hb1s.sublist (List.dropLast_sublist best1), ?_, ?_, hvr1⟩
          · intro p hp
            exact hb1m p ((List.dropLast_sublist best1).mem hp)
          · exact hb1n.sublist
              ((List.dropLast_sublist best1).map (fun p : ℚ × ℤ => p.2))
        · simp only [hlen, if_neg, ite_false]
          exact ⟨hb1s, hb1m, hb1n, hvr1⟩
      · simp only [hins, if_neg, ite_false]
        exact ⟨hs, fun p hp => List.mem_cons_of_mem _ (hbv p hp), hnd, hvr1⟩

theorem foldProcess_inv (cfg : HNSWConfig) (st : HNSWState) (q : Vec)
    (ef : ℕ) :
    ∀ (nbs : List ℤ) (sl : HNSWIndex.SLState),
      (∀ x ∈ nbs, 0 ≤ x ∧ x < (st.store.size : ℤ)) →
      sl.best.Sorted (fun a b => a.1 ≤ b.1) →
      (∀ p ∈ sl.best, p.2 ∈ sl.visited) →
      (sl.best.map (fun p : ℚ × ℤ => p.2)).Nodup →
      (∀ x ∈ sl.visited, 0 ≤ x ∧ x < (st.store.size : ℤ)) →
      (nbs.foldl (HNSWIndex.processNeighbor cfg st q ef) sl).best.Sorted
          (fun a b => a.1 ≤ b.1)
      ∧ (∀ p ∈ (nbs.foldl (HNSWIndex.processNeighbor cfg st q ef) sl).best,
          p.2 ∈ (nbs.foldl (HNSWIndex.processNeighbor cfg st q ef) sl).visited)
      ∧ ((nbs.foldl (HNSWIndex.processNeighbor cfg st q ef) sl).best.map
          (fun p : ℚ × ℤ => p.2)).Nodup
      ∧ (∀ x ∈ (nbs.foldl (HNSWIndex.processNeighbor cfg st q ef) sl).visited,
          0 ≤ x ∧ x < (st.store.size : ℤ))
  | [], sl, _, hs, hbv, hnd, hvr => ⟨hs, hbv, hnd, hvr⟩
  | nb :: nbs, sl, hr, hs, hbv, hnd, hvr => by
    rw [List.foldl_cons]
    have h1 := processNeighbor_inv cfg st q ef sl nb hs hbv hnd hvr
      (hr nb (List.mem_cons_self _ _))
    exact foldProcess_inv cfg st q ef nbs _
      (fun x hx => hr x (List.mem_cons_of_mem _ hx)) h1.1 h1.2.1 h1.2.2.1 h1.2.2.2

theorem searchLevelLoop_inv (cfg : HNSWConfig) (st : HNSWState) (q : Vec)
    (ef level : ℕ)
    (hwfnb : ∀ i : ℤ, 0 ≤ i → i < (st.store.size : ℤ) →
      ∀ x ∈ HNSWIndex.neighborsAt st i level,
        0 ≤ x ∧ x < (st.store.size : ℤ)) :
    ∀ (fuel : ℕ) (sl : HNSWIndex.SLState),
      sl.best.Sorted (fun a b => a.1 ≤ b.1) →
      (∀ p ∈ sl.best, p.2 ∈ sl.visited) →
      (sl.best.map (fun p : ℚ × ℤ => p.2)).Nodup →
      (∀ x ∈ sl.visited, 0 ≤ x ∧ x < (st.store.size : ℤ)) →
      (HNSWIndex.searchLevelLoop cfg st q ef level fuel sl).best.Sorted
          (fun a b => a.1 ≤ b.1)
      ∧ (∀ p ∈ (HNSWIndex.searchLevelLoop cfg st q ef level fuel sl).best,
          p.2 ∈ (HNSWIndex.searchLevelLoop cfg st q ef level fuel sl).visited)
      ∧ ((HNSWIndex.searchLevelLoop cfg st q ef level fuel sl).best.map
          (fun p : ℚ × ℤ => p.2)).Nodup
      ∧ (∀ x ∈ (HNSWIndex.searchLevelLoop cfg st q ef level fuel sl).visited,
          0 ≤ x ∧ x < (st.store.size : ℤ))
  | 0, sl, hs, hbv, hnd, hvr => ⟨hs, hbv, hnd, hvr⟩
  | fuel + 1, sl, hs, hbv, hnd, hvr => by
    unfold HNSWIndex.searchLevelLoop
    match hc : sl.candidates with
    | [] => exact ⟨hs, hbv, hnd, hvr⟩
    | curr :: rest =>
      by_cases h1 : curr.2 < 0 ∨ (st.store.size : ℤ) ≤ curr.2
      · simp only [h1, if_pos, ite_true]
        exact searchLevelLoop_inv cfg st q ef level hwfnb fuel _ hs hbv hnd hvr
      · simp only [h1, if_neg, ite_false]
        by_cases h2 : sl.lowerBound < curr.1 ∧ ef ≤ sl.best.length
        · simp only [h2, if_pos, ite_true]
          exact ⟨hs, hbv, hnd, hvr⟩
        · simp only [h2, if_neg, ite_false]
          by_cases h3 : cfg.useEarlyTermination = true
              ∧ ef * cfg.maxExpansionsMultiplier < sl.expansionCount + 1
          · simp only [h3, if_pos, ite_true]
            exact ⟨hs, hbv, hnd, hvr⟩
          · simp only [h3, if_neg, ite_false]
            by_cases h4 : 0 < cfg.distanceThreshold
                ∧ cfg.distanceThreshold < curr.1
            · simp only [h4, if_pos, ite_true]
              exact ⟨hs, hbv, hnd, hvr⟩
            · simp only [h4, if_neg, ite_false]
              by_cases h5 : (HNSWIndex.nodeAt st curr.2).neighbors.length ≤ level
              · simp only [h5, if_pos, ite_true]
                exact searchLevelLoop_inv cfg st q ef level hwfnb fuel _
                  hs hbv hnd hvr
              · simp only [h5, if_neg, ite_false]
                push_neg at h1
                have hfold := foldProcess_inv cfg st q ef
                  (HNSWIndex.neighborsAt st curr.2 level)
                  { sl with candidates := rest
                            expansionCount := sl.expansionCount + 1 }
                  (hwfnb curr.2 h1.1 h1.2) hs hbv hnd hvr
                exact searchLevelLoop_inv cfg st q ef level hwfnb fuel _
                  hfold.1 hfold.2.1 hfold.2.2.1 hfold.2.2.2

theorem searchLevel_props (cfg : HNSWConfig) (st : HNSWState) (q : Vec)
    (entry : ℤ) (ef level : ℕ)
    (hwfnb : ∀ i : ℤ, 0 ≤ i → i < (st.store.size : ℤ) →
      ∀ x ∈ HNSWIndex.neighborsAt st i level,
        0 ≤ x ∧ x < (st.store.size : ℤ)) :
    (HNSWIndex.searchLevel cfg st q entry ef level).Sorted
        (fun a b => a.1 ≤ b.1)
    ∧ ((HNSWIndex.searchLevel cfg st q entry ef level).map
        (fun p : ℚ × ℤ => p.2)).Nodup
    ∧ (∀ p ∈ HNSWIndex.searchLevel cfg st q entry ef level,
        0 ≤ p.2 ∧ p.2 < (st.store.size : ℤ))
    ∧ (HNSWIndex.searchLevel cfg st q entry ef level).length
        ≤ st.store.size := by
  unfold HNSWIndex.searchLevel
  by_cases hd : hnswComputeDistance st.store q entry = floatMax
  · simp [hd]
  · simp only [hd, if_neg, ite_false]
    have hentry : 0 ≤ entry ∧ entry < (st.store.size : ℤ) := by
      by_contra hco
      apply hd
      unfold hnswComputeDistance
      have : entry < 0 ∨ (st.store.size : ℤ) ≤ entry := by omega
      simp [this]
    set init : HNSWIndex.SLState :=
      { candidates := [(hnswComputeDistance st.store q entry, entry)]
        best := [(hnswComputeDistance st.store q entry, entry)]
        visited := [entry]
        lowerBound := hnswComputeDistance st.store q entry
        expansionCount := 0 } with hinit
    have hloop := searchLevelLoop_inv cfg st q ef level hwfnb
      (HNSWIndex.totalNeighborEntries st + 2) init
      (by rw [hinit]; exact List.sorted_singleton _)
      (by
        rw [hinit]
        intro p hp
        rcases List.mem_cons.mp hp with rfl | h
        · exact List.mem_cons_self _ _
        · exact absurd h (List.not_mem_nil p))
      (by rw [hinit]; simp)
      (by
        rw [hinit]
        intro x hx
        rcases List.mem_cons.mp hx with rfl | h
        · exact hentry
        · exact absurd h (List.not_mem_nil x))
    refine ⟨hloop.1, hloop.2.2.1, ?_, ?_⟩
    · intro p hp
      exact hloop.2.2.2 p.2 (hloop.2.1 p hp)
    · have hlen := length_le_of_nodup_range
        ((HNSWIndex.searchLevelLoop cfg st q ef level
          (HNSWIndex.totalNeighborEntries st + 2) init).best.map
          (fun p : ℚ × ℤ => p.2)) st.store.size hloop.2.2.1
        (by
          intro x hx
          rcases List.mem_map.mp hx with ⟨p, hp, rfl⟩
          exact hloop.2.2.2 p.2 (hloop.2.1 p hp))
      rw [List.length_map] at hlen
      exact hlen

/-- Well-formedness gives in-range neighbor lists at every level. -/
theorem hnsw_wf_neighbors (st : HNSWState) (hwf : st.wf) (level : ℕ) :
    ∀ i : ℤ, 0 ≤ i → i < (st.store.size : ℤ) →
      ∀ x ∈ HNSWIndex.neighborsAt st i level,
        0 ≤ x ∧ x < (st.store.size : ℤ) := by
  obtain ⟨h1, h2, _, h4⟩ := hwf
  intro i hi0 hisz x hx
  unfold HNSWIndex.neighborsAt HNSWIndex.nodeAt at hx
  have hlt : i.toNat < st.nodes.length := by omega
  have hnode : st.nodes.getD i.toNat ⟨0, []⟩ ∈ st.nodes := getD_mem _ _ _ hlt
  rcases getD_mem_or_eq (st.nodes.getD i.toNat ⟨0, []⟩).neighbors level [] with hl | hl
  · have := h4 _ hnode _ hl x hx
    omega
  · rw [hl] at hx
    exact absurd hx (List.not_mem_nil x)

/-- Fst-sortedness survives mapping a pair function that preserves the
first component's order. -/
theorem sorted_map_fst {l : List (ℚ × ℤ)} (f : ℚ × ℤ → ℚ × ℤ)
    (hf : ∀ p : ℚ × ℤ, (f p).1 = p.1)
    (h : l.Sorted (fun a b => a.1 ≤ b.1)) :
    (l.map f).Sorted (fun a b => a.1 ≤ b.1) := by
  refine List.Pairwise.map f ?_ h
  intro a b hab
  rw [hf a, hf b]
  exact hab

/-- The HNSW part of claim C1. -/
theorem hnsw_search_c1 (cfg : HNSWConfig) (st : HNSWState) (q : Vec) (k : ℕ)
    (hwf : st.wf) :
    (HNSWIndex.search cfg st q k).length ≤ min k st.size
    ∧ (HNSWIndex.search cfg st q k).Sorted (fun a b => a.1 ≤ b.1) := by
  unfold HNSWIndex.search
  by_cases h0 : st.size = 0
  · simp [h0]
  · simp only [h0, if_neg, ite_false]
    have hprops := searchLevel_props cfg st q
      (HNSWIndex.greedyDescend st q 0
        ((HNSWIndex.nodeAt st st.entryPoint).level + 1)
        (HNSWIndex.nodeAt st st.entryPoint).level
        (hnswComputeDistance st.store q st.entryPoint, st.entryPoint)).2
      (cfg.efSearchFn k st.size) 0 (hnsw_wf_neighbors st hwf 0)
    set results := HNSWIndex.searchLevel cfg st q
      (HNSWIndex.greedyDescend st q 0
        ((HNSWIndex.nodeAt st st.entryPoint).level + 1)
        (HNSWIndex.nodeAt st st.entryPoint).level
        (hnswComputeDistance st.store q st.entryPoint, st.entryPoint)).2
      (cfg.efSearchFn k st.size) 0 with hres
    have hsz : st.store.size = st.size := by
      obtain ⟨h1, h2, _, _⟩ := hwf
      omega
    constructor
    · rw [List.length_map, List.length_take]
      have := hprops.2.2.2
      omega
    · exact sorted_map_fst _ (fun p => rfl)
        (hprops.1.sublist (List.take_sublist _ _))

/-- The PQ part of claim C1. -/
theorem pq_search_c1 (st : PQState) (q : Vec) (k : ℕ) :
    (PQIndex.search st q k).length ≤ min k st.size
    ∧ (PQIndex.search st q k).Sorted (fun a b => a.1 ≤ b.1) := by
  unfold PQIndex.search
  rcases Bool.eq_false_or_eq_true st.trained with ht | ht
  · rw [ht, if_neg (by decide : ¬(true = false))]
    simp only []
    set dists := (List.range st.size).map (fun i =>
      (PQIndex.adcSumTable (PQIndex.distanceTable st q) (st.codes.getD i []) st.M,
       st.store.getId i)) with hd
    have hdl : dists.length = st.size := by
      rw [hd, List.length_map, List.length_range]
    by_cases hk : k < dists.length
    · rw [if_pos hk]
      have hl : ((sortPairs dists).take k).length = k := by
        rw [List.length_take, sortPairs_length]
        omega
      constructor
      · rw [List.length_take, hl]
        omega
      · refine Sorted.fst_of_pairLe ?_ |>.sublist (List.take_sublist _ _)
          |>.sublist (List.take_sublist _ _)
        exact sortPairs_sorted dists
    · rw [if_neg hk]
      constructor
      · rw [List.length_take, sortPairs_length]
        omega
      · exact (Sorted.fst_of_pairLe (sortPairs_sorted dists)).sublist
          (List.take_sublist _ _)
  · rw [ht, if_pos rfl]
    simp

/-! ### IVF posting-list counting (feeding claim C1) -/

theorem disjoint_getD_ne (lists : List (List ℤ)) (hfl : lists.flatten.Nodup)
    (i j : ℕ) (hij : i ≠ j) :
    ∀ x, x ∈ lists.getD i [] → x ∈ lists.getD j [] → False := by
  intro x hxi hxj
  by_cases hi : i < lists.length
  · by_cases hj : j < lists.length
    · have hpw := (List.nodup_flatten.mp hfl).2
      have hpw2 := List.pairwise_iff_getElem.mp hpw
      rw [List.getD_eq_getElem?_getD, List.getElem?_eq_getElem hi] at hxi
      rw [List.getD_eq_getElem?_getD, List.getElem?_eq_getElem hj] at hxj
      simp only [Option.getD_some] at hxi hxj
      rcases Nat.lt_or_ge i j with hij2 | hij2
      · exact hpw2 i j hi hj hij2 hxi hxj
      · have hji : j < i := by omega
        exact hpw2 j i hj hi hji hxj hxi
    · rw [List.getD_eq_getElem?_getD, List.getElem?_eq_none (by omega)] at hxj
      exact absurd hxj (List.not_mem_nil x)
  · rw [List.getD_eq_getElem?_getD, List.getElem?_eq_none (by omega)] at hxi
    exact absurd hxi (List.not_mem_nil x)

theorem nodup_flatMap_getD (lists : List (List ℤ)) (hfl : lists.flatten.Nodup) :
    ∀ (idxs : List ℕ), idxs.Nodup →
      (idxs.flatMap (fun i => lists.getD i [])).Nodup
  | [], _ => List.nodup_nil
  | i :: idxs, hnd => by
    rw [List.flatMap_cons, List.nodup_append]
    rw [List.nodup_cons] at hnd
    refine ⟨?_, nodup_flatMap_getD lists hfl idxs hnd.2, ?_⟩
    · rcases getD_mem_or_eq lists i [] with hm | hm
      · exact ((List.nodup_flatten.mp hfl).1 _ hm)
      · rw [hm]; exact List.nodup_nil
    · intro x hxi hxr
      rcases List.mem_flatMap.mp hxr with ⟨j, hj, hxj⟩
      exact disjoint_getD_ne lists hfl i j
        (fun he => hnd.1 (he ▸ hj)) x hxi hxj

theorem flatMap_getD_subset (lists : List (List ℤ)) (idxs : List ℕ) :
    ∀ x ∈ idxs.flatMap (fun i => lists.getD i []), x ∈ lists.flatten := by
  intro x hx
  rcases List.mem_flatMap.mp hx with ⟨i, _, hxi⟩
  rcases getD_mem_or_eq lists i [] with hm | hm
  · exact List.mem_flatten.mpr ⟨_, hm, hxi⟩
  · rw [hm] at hxi
    exact absurd hxi (List.not_mem_nil x)

theorem length_flatMap_getD_le (lists : List (List ℤ))
    (hfl : lists.flatten.Nodup) (idxs : List ℕ) (hnd : idxs.Nodup) :
    (idxs.flatMap (fun i => lists.getD i [])).length ≤ lists.flatten.length := by
  have h1 := nodup_flatMap_getD lists hfl idxs hnd
  have h2 := flatMap_getD_subset lists idxs
  calc (idxs.flatMap (fun i => lists.getD i [])).length
      = (idxs.flatMap (fun i => lists.getD i [])).toFinset.card :=
        (List.toFinset_card_of_nodup h1).symm
    _ ≤ lists.flatten.toFinset.card := by
        apply Finset.card_le_card
        intro x hx
        rw [List.mem_toFinset] at hx ⊢
        exact h2 x hx
    _ ≤ lists.flatten.length := List.toFinset_card_le _

/-- The per-candidate map inside a probed flatMap does not change the
total length. -/
theorem length_flatMap_map_eq (lists : List (List ℤ)) (g : ℤ → ℚ × ℤ) :
    ∀ probed : List (ℚ × ℤ),
      (probed.flatMap (fun pr => (lists.getD pr.2.toNat []).map g)).length
        = ((probed.map (fun pr => pr.2.toNat)).flatMap
            (fun i => lists.getD i [])).length
  | [] => rfl
  | p :: l => by
    simp only [List.flatMap_cons, List.map_cons, List.length_append,
      List.length_map, length_flatMap_map_eq lists g l]

/-- Counting the probed posting lists after a per-candidate map. -/
theorem length_flatMap_map_le (lists : List (List ℤ))
    (hfl : lists.flatten.Nodup) (g : ℤ → ℚ × ℤ) (probed : List (ℚ × ℤ))
    (hnd : (probed.map (fun pr => pr.2.toNat)).Nodup) :
    (probed.flatMap (fun pr => (lists.getD pr.2.toNat []).map g)).length
      ≤ lists.flatten.length := by
  rw [length_flatMap_map_eq lists g probed]
  exact length_flatMap_getD_le lists hfl _ hnd

/-- The IVF part of claim C1. -/
theorem ivf_search_c1 (st : IVFState) (q : Vec) (k : ℕ) (hwf : st.wf) :
    (IVFIndex.search st q k).length ≤ min k st.size
    ∧ (IVFIndex.search st q k).Sorted (fun a b => a.1 ≤ b.1) := by
  obtain ⟨hw1, hw2, hw3, hw4, hw5, hw6⟩ := hwf
  unfold IVFIndex.search
  rcases Bool.eq_false_or_eq_true st.trained with ht | ht
  · rw [ht, if_neg (by decide : ¬(true = false))]
    simp only []
    set cd := (List.range st.nLists).map (fun i =>
      (sqDist q (st.centroids.getD i []), (i : ℤ))) with hcd
    set probed := (sortPairs cd).take (min st.nProbes st.nLists) with hpr
    set g : ℤ → ℚ × ℤ := fun idx =>
      (sqDist q (st.store.rows.getD idx.toNat []), st.store.getId idx) with hg
    set candidates := probed.flatMap (fun pr =>
      (st.invertedLists.getD pr.2.toNat []).map g) with hcand
    have hcdsnd : (cd.map (fun p => p.2)).Nodup := by
      have he : cd.map (fun p => p.2)
          = List.map (fun i => ((i : ℕ) : ℤ)) (List.range st.nLists) := by
        rw [hcd, List.map_map]
        rfl
      rw [he]
      exact (List.nodup_range _).map (fun a b hab => by exact_mod_cast hab)
    have hprsnd : (probed.map (fun p => p.2)).Nodup := by
      have hperm : List.Perm ((sortPairs cd).map (fun p => p.2))
          (cd.map (fun p => p.2)) := (sortPairs_perm cd).map _
      have hnd2 : ((sortPairs cd).map (fun p => p.2)).Nodup :=
        hperm.nodup_iff.mpr hcdsnd
      exact hnd2.sublist ((List.take_sublist _ _).map _)
    have hprmem : ∀ pr ∈ probed, pr ∈ cd := by
      intro pr hp
      exact (sortPairs_perm cd).mem_iff.mp ((List.take_sublist _ _).subset hp)
    have hprnn : ∀ pr ∈ probed, 0 ≤ pr.2 := by
      intro pr hp
      rcases List.mem_map.mp (hprmem pr hp) with ⟨i, _, rfl⟩
      exact Int.ofNat_nonneg i
    have hidx : (probed.map (fun pr => pr.2.toNat)).Nodup := by
      have he : probed.map (fun pr => pr.2.toNat)
          = (probed.map (fun p => p.2)).map Int.toNat := by
        rw [List.map_map]
        rfl
      rw [he]
      refine List.Nodup.map_on ?_ hprsnd
      intro x hx y hy hxy
      rcases List.mem_map.mp hx with ⟨px, hpx, rfl⟩
      rcases List.mem_map.mp hy with ⟨py, hpy, rfl⟩
      have h1 := hprnn px hpx
      have h2 := hprnn py hpy
      omega
    have hflat_le : st.invertedLists.flatten.length ≤ st.store.size := by
      apply length_le_of_nodup_range _ _ hw5
      intro x hx
      rcases List.mem_flatten.mp hx with ⟨l, hl, hxl⟩
      exact hw6 l hl x hxl
    have hclen : candidates.length ≤ st.store.size :=
      le_trans (length_flatMap_map_le st.invertedLists hw5 g probed hidx)
        hflat_le
    by_cases hk : k < candidates.length
    · rw [if_pos hk]
      constructor
      · rw [List.length_take, List.length_take, sortPairs_length]
        omega
      · refine Sorted.fst_of_pairLe ?_ |>.sublist (List.take_sublist _ _)
          |>.sublist (List.take_sublist _ _)
        exact sortPairs_sorted candidates
    · rw [if_neg hk]
      constructor
      · rw [List.length_take, sortPairs_length]
        omega
      · exact (Sorted.fst_of_pairLe (sortPairs_sorted candidates)).sublist
          (List.take_sublist _ _)
  · rw [ht, if_pos rfl]
    simp

/-! ### HNSW+PQ search machinery (feeding claim C1) -/

/-- Under the hybrid's well-formedness, every neighbor list read —
whatever the queried id, thanks to the `getD` defaults — yields ids in
`[0, size)`. -/
theorem hnswpq_neighbors_range (st : HNSWPQState)
    (hwf4 : ∀ n ∈ st.nodes, ∀ l ∈ n.neighbors, ∀ nb ∈ l,
      0 ≤ nb ∧ nb < (st.size : ℤ)) :
    ∀ (i : ℤ) (level : ℕ), ∀ x ∈ HNSWPQIndex.neighborsAt st i level,
      0 ≤ x ∧ x < (st.size : ℤ) := by
  intro i level x hx
  unfold HNSWPQIndex.neighborsAt HNSWPQIndex.nodeAt at hx
  rcases getD_mem_or_eq st.nodes i.toNat ⟨0, []⟩ with hm | hm
  · rcases getD_mem_or_eq (st.nodes.getD i.toNat ⟨0, []⟩).neighbors level []
        with hl | hl
    · exact hwf4 _ hm _ hl x hx
    · rw [hl] at hx
      exact absurd hx (List.not_mem_nil x)
  · rw [hm] at hx
    simp at hx

/-- The inner fold of `descendPass` keeps the running best id inside
any range that contains the start and all neighbors. -/
theorem descendPassGo_range (distTo : ℤ → ℚ) (n : ℕ) :
    ∀ (nbs : List ℤ) (acc : (ℚ × ℤ) × Bool),
      (∀ x ∈ nbs, 0 ≤ x ∧ x < (n : ℤ)) →
      0 ≤ acc.1.2 ∧ acc.1.2 < (n : ℤ) →
      0 ≤ (nbs.foldl (fun acc nb =>
          let d := distTo nb
          if d < acc.1.1 then ((d, nb), true) else acc) acc).1.2
      ∧ (nbs.foldl (fun acc nb =>
          let d := distTo nb
          if d < acc.1.1 then ((d, nb), true) else acc) acc).1.2 < (n : ℤ)
  | [], _, _, hacc => hacc
  | nb :: nbs, acc, hr, hacc => by
    rw [List.foldl_cons]
    refine descendPassGo_range distTo n nbs _
      (fun x hx => hr x (List.mem_cons_of_mem _ hx)) ?_
    by_cases h : distTo nb < acc.1.1
    · simp only [h, if_pos, ite_true]
      exact hr nb (List.mem_cons_self _ _)
    · simp only [h, if_neg, ite_false]
      exact hacc

/-- `descendPass` keeps the running best id in range. -/
theorem descendPass_range (distTo : ℤ → ℚ) (n : ℕ) (nbs : List ℤ)
    (start : ℚ × ℤ)
    (hr : ∀ x ∈ nbs, 0 ≤ x ∧ x < (n : ℤ))
    (hs : 0 ≤ start.2 ∧ start.2 < (n : ℤ)) :
    0 ≤ (HNSWPQIndex.descendPass distTo nbs start).1.2
    ∧ (HNSWPQIndex.descendPass distTo nbs start).1.2 < (n : ℤ) := by
  unfold HNSWPQIndex.descendPass
  exact descendPassGo_range distTo n nbs (start, false) hr hs

/-- `descendInner` keeps the entry candidate in range. -/
theorem descendInner_range (st : HNSWPQState) (distTo : ℤ → ℚ)
    (level : ℕ)
    (hnbr : ∀ (i : ℤ) (lvl : ℕ), ∀ x ∈ HNSWPQIndex.neighborsAt st i lvl,
      0 ≤ x ∧ x < (st.size : ℤ)) :
    ∀ (fuel : ℕ) (c : ℚ × ℤ),
      0 ≤ c.2 ∧ c.2 < (st.size : ℤ) →
      0 ≤ (HNSWPQIndex.descendInner st distTo level fuel c).2
      ∧ (HNSWPQIndex.descendInner st distTo level fuel c).2 < (st.size : ℤ)
  | 0, _, hc => hc
  | fuel + 1, c, hc => by
    unfold HNSWPQIndex.descendInner
    by_cases h1 : c.2 < 0 ∨ (st.nodes.length : ℤ) ≤ c.2
    · simp only [h1, if_pos, ite_true]
      exact hc
    · simp only [h1, if_neg, ite_false]
      by_cases h2 : (HNSWPQIndex.nodeAt st c.2).level < level
      · simp only [h2, if_pos, ite_true]
        exact hc
      · simp only [h2, if_neg, ite_false]
        have hp := descendPass_range distTo st.size
          (HNSWPQIndex.neighborsAt st c.2 level) c (hnbr c.2 level) hc
        by_cases h3 : (HNSWPQIndex.descendPass distTo
            (HNSWPQIndex.neighborsAt st c.2 level) c).2 = true
        · simp only [h3, if_pos, ite_true]
          exact descendInner_range st distTo level hnbr fuel _ hp
        · simp only [h3, if_neg, ite_false]
          exact hp

/-- `descendLevels` keeps the entry candidate in range. -/
theorem descendLevels_range (st : HNSWPQState) (distTo : ℤ → ℚ)
    (stop : ℕ)
    (hnbr : ∀ (i : ℤ) (lvl : ℕ), ∀ x ∈ HNSWPQIndex.neighborsAt st i lvl,
      0 ≤ x ∧ x < (st.size : ℤ)) :
    ∀ (fuel currLevel : ℕ) (c : ℚ × ℤ),
      0 ≤ c.2 ∧ c.2 < (st.size : ℤ) →
      0 ≤ (HNSWPQIndex.descendLevels st distTo stop fuel currLevel c).2
      ∧ (HNSWPQIndex.descendLevels st distTo stop fuel currLevel c).2
          < (st.size : ℤ)
  | 0, _, _, hc => hc
  | fuel + 1, currLevel, c, hc => by
    unfold HNSWPQIndex.descendLevels
    by_cases h1 : currLevel ≤ stop
    · simp only [h1, if_pos, ite_true]
      exact hc
    · simp only [h1, if_neg, ite_false]
      exact descendLevels_range st distTo stop hnbr fuel _ _
        (descendInner_range st distTo currLevel hnbr (st.nodes.length + 1)
          c hc)

/-- The unvisited-neighbor collection fold of the hybrid's level-0
loop: its fresh list is duplicate-free, disjoint from the original
visited set, inside the new visited set, and the new visited set keeps
every old member and stays in range. -/
theorem collectFold_inv (n : ℕ) (vis0 : List ℤ) :
    ∀ (nbs : List ℤ) (acc : List ℤ × List ℤ),
      (∀ x ∈ nbs, 0 ≤ x ∧ x < (n : ℤ)) →
      acc.1.Nodup →
      (∀ u ∈ acc.1, u ∈ acc.2) →
      (∀ u ∈ acc.1, u ∉ vis0) →
      (∀ x ∈ vis0, x ∈ acc.2) →
      (∀ x ∈ acc.2, 0 ≤ x ∧ x < (n : ℤ)) →
      (nbs.foldl (fun (acc : List ℤ × List ℤ) nb =>
          if nb ∈ acc.2 then acc else (acc.1 ++ [nb], nb :: acc.2)) acc).1.Nodup
      ∧ (∀ u ∈ (nbs.foldl (fun (acc : List ℤ × List ℤ) nb =>
          if nb ∈ acc.2 then acc else (acc.1 ++ [nb], nb :: acc.2)) acc).1,
          u ∈ (nbs.foldl (fun (acc : List ℤ × List ℤ) nb =>
            if nb ∈ acc.2 then acc else (acc.1 ++ [nb], nb :: acc.2)) acc).2)
      ∧ (∀ u ∈ (nbs.foldl (fun (acc : List ℤ × List ℤ) nb =>
          if nb ∈ acc.2 then acc else (acc.1 ++ [nb], nb :: acc.2)) acc).1,
          u ∉ vis0)
      ∧ (∀ x ∈ vis0, x ∈ (nbs.foldl (fun (acc : List ℤ × List ℤ) nb =>
          if nb ∈ acc.2 then acc else (acc.1 ++ [nb], nb :: acc.2)) acc).2)
      ∧ (∀ x ∈ (nbs.foldl (fun (acc : List ℤ × List ℤ) nb =>
          if nb ∈ acc.2 then acc else (acc.1 ++ [nb], nb :: acc.2)) acc).2,
          0 ≤ x ∧ x < (n : ℤ))
  | [], _, _, h1, h2, h3, h4, h5 => ⟨h1, h2, h3, h4, h5⟩
  | nb :: nbs, acc, hr, h1, h2, h3, h4, h5 => by
    rw [List.foldl_cons]
    by_cases hv : nb ∈ acc.2
    · simp only [hv, if_pos, ite_true]
      exact collectFold_inv n vis0 nbs acc
        (fun x hx => hr x (List.mem_cons_of_mem _ hx)) h1 h2 h3 h4 h5
    · simp only [hv, if_neg, ite_false]
      refine collectFold_inv n vis0 nbs (acc.1 ++ [nb], nb :: acc.2)
        (fun x hx => hr x (List.mem_cons_of_mem _ hx)) ?_ ?_ ?_ ?_ ?_
      · rw [List.nodup_append]
        refine ⟨h1, List.nodup_singleton nb, ?_⟩
        intro u hu hnb
        rcases List.mem_singleton.mp hnb with rfl
        exact hv (h2 u hu)
      · intro u hu
        rcases List.mem_append.mp hu with hu | hu
        · exact List.mem_cons_of_mem _ (h2 u hu)
        · rcases List.mem_singleton.mp hu with rfl
          exact List.mem_cons_self _ _
      · intro u hu
        rcases List.mem_append.mp hu with hu | hu
        · exact h3 u hu
        · rcases List.mem_singleton.mp hu with rfl
          intro hmem
          exact hv (h4 u hmem)
      · intro x hx
        exact List.mem_cons_of_mem _ (h4 x hx)
      · intro x hx
        rcases List.mem_cons.mp hx with rfl | hx
        · exact hr x (List.mem_cons_self _ _)
        · exact h5 x hx

/-- The push fold of the hybrid's level-0 loop: fresh ids inserted into
the sorted result pool keep it sorted, duplicate-free and inside the
final visited set `V`; the `candidatePoolSize` trim only drops
entries. -/
theorem pushFold_inv (st : HNSWPQState) (q : Vec) (cps : ℕ) (V : List ℤ) :
    ∀ (us : List ℤ) (hb : List (ℚ × ℤ) × List (ℚ × ℤ)),
      us.Nodup →
      (∀ u ∈ us, u ∈ V) →
      (∀ u ∈ us, u ∉ hb.2.map (fun p : ℚ × ℤ => p.2)) →
      hb.2.Sorted (fun a b => a.1 ≤ b.1) →
      (hb.2.map (fun p : ℚ × ℤ => p.2)).Nodup →
      (∀ p ∈ hb.2, p.2 ∈ V) →
      (us.foldl (fun (hb : List (ℚ × ℤ) × List (ℚ × ℤ)) nb =>
          let d := HNSWPQIndex.computeExactDistanceToQuery st q nb
          let b1 := HNSWIndex.insByDist (d, nb) hb.2
          (HNSWIndex.insByDist (d, nb) hb.1,
           if cps < b1.length then b1.dropLast else b1)) hb).2.Sorted
          (fun a b => a.1 ≤ b.1)
      ∧ ((us.foldl (fun (hb : List (ℚ × ℤ) × List (ℚ × ℤ)) nb =>
          let d := HNSWPQIndex.computeExactDistanceToQuery st q nb
          let b1 := HNSWIndex.insByDist (d, nb) hb.2
          (HNSWIndex.insByDist (d, nb) hb.1,
           if cps < b1.length then b1.dropLast else b1)) hb).2.map
          (fun p : ℚ × ℤ => p.2)).Nodup
      ∧ (∀ p ∈ (us.foldl (fun (hb : List (ℚ × ℤ) × List (ℚ × ℤ)) nb =>
          let d := HNSWPQIndex.computeExactDistanceToQuery st q nb
          let b1 := HNSWIndex.insByDist (d, nb) hb.2
          (HNSWIndex.insByDist (d, nb) hb.1,
           if cps < b1.length then b1.dropLast else b1)) hb).2,
          p.2 ∈ V)
  | [], _, _, _, _, hs, hnd, hbv => ⟨hs, hnd, hbv⟩
  | u :: us, hb, hund, huV, husep, hs, hnd, hbv => by
    rw [List.foldl_cons]
    rw [List.nodup_cons] at hund
    set d := HNSWPQIndex.computeExactDistanceToQuery st q u with hd
    set b1 := HNSWIndex.insByDist (d, u) hb.2 with hb1
    have hb1s : b1.Sorted (fun a b => a.1 ≤ b.1) := insByDist_sorted _ hs
    have hb1n : (b1.map (fun p : ℚ × ℤ => p.2)).Nodup := by
      refine (insByDist_snd_perm (d, u) hb.2).nodup_iff.mpr ?_
      rw [List.nodup_cons]
      exact ⟨husep u (List.mem_cons_self _ _), hnd⟩
    have hb1v : ∀ p ∈ b1, p.2 ∈ V := by
      intro p hp
      rcases List.mem_cons.mp
          ((insByDist_perm (d, u) hb.2).mem_iff.mp hp) with rfl | hp2
      · exact huV u (List.mem_cons_self _ _)
      · exact hbv p hp2
    set b2 := if cps < b1.length then b1.dropLast else b1 with hb2
    have hb2sub : List.Sublist b2 b1 := by
      rw [hb2]
      by_cases hl : cps < b1.length
      · simp only [hl, if_pos, ite_true]
        exact List.dropLast_sublist b1
      · simp only [hl, if_neg, ite_false]
        exact List.Sublist.refl b1
    have hb2s : b2.Sorted (fun a b => a.1 ≤ b.1) := hb1s.sublist hb2sub
    have hb2n : (b2.map (fun p : ℚ × ℤ => p.2)).Nodup :=
      hb1n.sublist (hb2sub.map (fun p : ℚ × ℤ => p.2))
    have hb2v : ∀ p ∈ b2, p.2 ∈ V := fun p hp => hb1v p (hb2sub.subset hp)
    have hb2sep : ∀ u2 ∈ us, u2 ∉ b2.map (fun p : ℚ × ℤ => p.2) := by
      intro u2 hu2 hmem
      have hmem1 : u2 ∈ b1.map (fun p : ℚ × ℤ => p.2) :=
        (hb2sub.map (fun p : ℚ × ℤ => p.2)).subset hmem
      rcases List.mem_cons.mp
          ((insByDist_snd_perm (d, u) hb.2).mem_iff.mp hmem1) with rfl | hm2
      · exact hund.1 hu2
      · exact husep u2 (List.mem_cons_of_mem _ hu2) hm2
    exact pushFold_inv st q cps V us
      (HNSWIndex.insByDist (d, u) hb.1, b2) hund.2
      (fun x hx => huV x (List.mem_cons_of_mem _ hx)) hb2sep hb2s hb2n hb2v

/-- The invariant of the hybrid's level-0 search loop: the result pool
stays sorted by distance, free of duplicate ids, and inside `[0, size)`. -/
theorem searchZeroLoop_inv (st : HNSWPQState) (q : Vec)
    (efSearch cps : ℕ)
    (hnbr : ∀ (i : ℤ) (lvl : ℕ), ∀ x ∈ HNSWPQIndex.neighborsAt st i lvl,
      0 ≤ x ∧ x < (st.size : ℤ)) :
    ∀ (fuel : ℕ) (cands best : List (ℚ × ℤ)) (visited : List ℤ),
      best.Sorted (fun a b => a.1 ≤ b.1) →
      (best.map (fun p : ℚ × ℤ => p.2)).Nodup →
      (∀ p ∈ best, p.2 ∈ visited) →
      (∀ x ∈ visited, 0 ≤ x ∧ x < (st.size : ℤ)) →
      (HNSWPQIndex.searchZeroLoop st q efSearch cps fuel cands best
          visited).Sorted (fun a b => a.1 ≤ b.1)
      ∧ ((HNSWPQIndex.searchZeroLoop st q efSearch cps fuel cands best
          visited).map (fun p : ℚ × ℤ => p.2)).Nodup
      ∧ (∀ p ∈ HNSWPQIndex.searchZeroLoop st q efSearch cps fuel cands best
          visited, 0 ≤ p.2 ∧ p.2 < (st.size : ℤ))
  | 0, _, best, _, hs, hnd, hbv, hvr =>
    ⟨hs, hnd, fun p hp => hvr p.2 (hbv p hp)⟩
  | fuel + 1, cands, best, visited, hs, hnd, hbv, hvr => by
    unfold HNSWPQIndex.searchZeroLoop
    match cands with
    | [] => exact ⟨hs, hnd, fun p hp => hvr p.2 (hbv p hp)⟩
    | curr :: rest =>
      by_cases h1 : efSearch ≤ visited.length
      · simp only [h1, if_pos, ite_true]
        exact ⟨hs, hnd, fun p hp => hvr p.2 (hbv p hp)⟩
      · simp only [h1, if_neg, ite_false]
        have hcol := collectFold_inv st.size visited
          (HNSWPQIndex.neighborsAt st curr.2 0) ([], visited)
          (hnbr curr.2 0) List.nodup_nil
          (fun u hu => absurd hu (List.not_mem_nil u))
          (fun u hu => absurd hu (List.not_mem_nil u))
          (fun x hx => hx) hvr
        set uv := (HNSWPQIndex.neighborsAt st curr.2 0).foldl
          (fun (acc : List ℤ × List ℤ) nb =>
            if nb ∈ acc.2 then acc else (acc.1 ++ [nb], nb :: acc.2))
          ([], visited) with huv
        by_cases h2 : uv.1 = []
        · simp only [h2, if_pos, ite_true]
          exact searchZeroLoop_inv st q efSearch cps hnbr fuel rest best
            uv.2 hs hnd (fun p hp => hcol.2.2.2.1 p.2 (hbv p hp))
            hcol.2.2.2.2
        · simp only [h2, if_neg, ite_false]
          have hpush := pushFold_inv st q cps uv.2 uv.1 (rest, best)
            hcol.1 hcol.2.1
            (fun u hu hmem => by
              rcases List.mem_map.mp hmem with ⟨p, hp, hp2⟩
              apply hcol.2.2.1 u hu
              rw [show u = p.2 from hp2.symm]
              exact hbv p hp)
            hs hnd (fun p hp => hcol.2.2.2.1 p.2 (hbv p hp))
          exact searchZeroLoop_inv st q efSearch cps hnbr fuel _ _ uv.2
            hpush.1 hpush.2.1 hpush.2.2 hcol.2.2.2.2

/-- The HNSW+PQ part of claim C1. -/
theorem hnswpq_search_c1 (st : HNSWPQState) (q : Vec) (k : ℕ)
    (hwf : st.wf) :
    (HNSWPQIndex.search st q k).length ≤ min k st.size
    ∧ (HNSWPQIndex.search st q k).Sorted (fun a b => a.1 ≤ b.1) := by
  obtain ⟨hw1, hw2, hw3, hw4, hw5⟩ := hwf
  unfold HNSWPQIndex.search
  by_cases h0 : st.trained = false ∨ st.size = 0
  · simp [h0]
  · rw [if_neg h0]
    simp only []
    push_neg at h0
    have hnbr := hnswpq_neighbors_range st hw4
    have hep : 0 ≤ st.entryPoint ∧ st.entryPoint < (st.size : ℤ) :=
      hw3 (Nat.pos_of_ne_zero h0.2)
    set distPQ := fun nb => HNSWPQIndex.computeDistancePQ st q nb with hdp
    set c := HNSWPQIndex.descendLevels st distPQ 0
      ((HNSWPQIndex.nodeAt st st.entryPoint).level + 1)
      (HNSWPQIndex.nodeAt st st.entryPoint).level
      (distPQ st.entryPoint, st.entryPoint) with hc
    have hcr : 0 ≤ c.2 ∧ c.2 < (st.size : ℤ) :=
      descendLevels_range st distPQ 0 hnbr _ _ _ hep
    set entryDist := HNSWPQIndex.computeExactDistanceToQuery st q c.2
      with hed
    have hloop := searchZeroLoop_inv st q
      (max (k * 50) (min (st.size / 10) 2000)) (k * 200) hnbr
      (HNSWPQIndex.totalNeighborEntries st + 2)
      [(entryDist, c.2)] [(entryDist, c.2)] [c.2]
      (List.sorted_singleton _)
      (by simp)
      (by
        intro p hp
        rcases List.mem_cons.mp hp with rfl | h
        · exact List.mem_cons_self _ _
        · exact absurd h (List.not_mem_nil p))
      (by
        intro x hx
        rcases List.mem_cons.mp hx with rfl | h
        · exact hcr
        · exact absurd h (List.not_mem_nil x))
    set best := HNSWPQIndex.searchZeroLoop st q
      (max (k * 50) (min (st.size / 10) 2000)) (k * 200)
      (HNSWPQIndex.totalNeighborEntries st + 2)
      [(entryDist, c.2)] [(entryDist, c.2)] [c.2] with hbest
    have hblen : best.length ≤ st.size := by
      have hlen := length_le_of_nodup_range
        (best.map (fun p : ℚ × ℤ => p.2)) st.size hloop.2.1
        (by
          intro x hx
          rcases List.mem_map.mp hx with ⟨p, hp, rfl⟩
          exact hloop.2.2 p hp)
      rw [List.length_map] at hlen
      exact hlen
    by_cases hnr : 0 < min best.length (k * 20)
    · rw [if_pos hnr]
      set refined := sortPairs ((best.take (min best.length (k * 20))).map
        (fun p => (HNSWPQIndex.computeExactDistanceToQuery st q p.2, p.2)))
        with href
      have hreflen : refined.length = min best.length (k * 20) := by
        rw [href, sortPairs_length, List.length_map, List.length_take]
        omega
      have hrs : refined.Sorted (fun a b => a.1 ≤ b.1) := by
        rw [href]
        exact Sorted.fst_of_pairLe (sortPairs_sorted _)
      by_cases hk : k < refined.length
      · rw [if_pos hk]
        constructor
        · rw [List.length_map, List.length_take, List.length_take]
          omega
        · refine sorted_map_fst _ (fun p => rfl) ?_
          exact hrs.sublist ((List.take_sublist _ _).trans
            (List.take_sublist _ _))
      · rw [if_neg hk]
        constructor
        · rw [List.length_map, List.length_take]
          omega
        · refine sorted_map_fst _ (fun p => rfl) ?_
          exact hrs.sublist (List.take_sublist _ _)
    · rw [if_neg hnr]
      constructor
      · rw [List.length_map, List.length_take]
        omega
      · exact sorted_map_fst _ (fun p => rfl)
          (hloop.1.sublist (List.take_sublist _ _))

/-- C1: for every index kind (HNSW, PQ, IVF, HNSW+PQ) and every
`search(q, k)` on a well-formed index holding `size` vectors, the
returned count is at most `min k size` (hence between 0 and
`min k size`), and the returned distances are non-decreasing. -/
theorem search_count_and_sortedness_all_indexes
    (cfg : HNSWConfig) (hst : HNSWState) (pst : PQState) (ist : IVFState)
    (hpst : HNSWPQState) (q : Vec) (k : ℕ)
    (h1 : hst.wf) (h2 : ist.wf) (h3 : hpst.wf) :
    ((HNSWIndex.search cfg hst q k).length ≤ min k hst.size
      ∧ (HNSWIndex.search cfg hst q k).Sorted (fun a b => a.1 ≤ b.1))
    ∧ ((PQIndex.search pst q k).length ≤ min k pst.size
      ∧ (PQIndex.search pst q k).Sorted (fun a b => a.1 ≤ b.1))
    ∧ ((IVFIndex.search ist q k).length ≤ min k ist.size
      ∧ (IVFIndex.search ist q k).Sorted (fun a b => a.1 ≤ b.1))
    ∧ ((HNSWPQIndex.search hpst q k).length ≤ min k hpst.size
      ∧ (HNSWPQIndex.search hpst q k).Sorted (fun a b => a.1 ≤ b.1)) :=
  ⟨hnsw_search_c1 cfg hst q k h1, pq_search_c1 pst q k,
   ivf_search_c1 ist q k h2, hnswpq_search_c1 hpst q k h3⟩

/-- Witness for C1: the hypotheses are satisfiable — the concrete
two-vector example states are well-formed and the claim theorem applies
to them at `q = [0]`, `k = 1`. -/
theorem search_count_and_sortedness_all_indexes_witness :
    hnswExample.wf ∧ ivfExample.wf ∧ hpqExample.wf
    ∧ (((HNSWIndex.search hnswCfgExample hnswExample [0] 1).length
          ≤ min 1 hnswExample.size
        ∧ (HNSWIndex.search hnswCfgExample hnswExample [0] 1).Sorted
            (fun a b => a.1 ≤ b.1))
      ∧ ((PQIndex.search pqExample [0] 1).length ≤ min 1 pqExample.size
        ∧ (PQIndex.search pqExample [0] 1).Sorted (fun a b => a.1 ≤ b.1))
      ∧ ((IVFIndex.search ivfExample [0] 1).length ≤ min 1 ivfExample.size
        ∧ (IVFIndex.search ivfExample [0] 1).Sorted (fun a b => a.1 ≤ b.1))
      ∧ ((HNSWPQIndex.search hpqExample [0] 1).length ≤ min 1 hpqExample.size
        ∧ (HNSWPQIndex.search hpqExample [0] 1).Sorted
            (fun a b => a.1 ≤ b.1))) :=
  ⟨by decide, by decide, by decide,
   search_count_and_sortedness_all_indexes hnswCfgExample hnswExample
     pqExample ivfExample hpqExample [0] 1 (by decide) (by decide)
     (by decide)⟩

/-! ### List.modify machinery (feeding claim C3) -/

theorem getD_modify_eq {α : Type} (f : α → α) (i : ℕ) (l : List α) (d : α)
    (h : i < l.length) : (List.modify f i l).getD i d = f (l.getD i d) := by
  rw [List.getD_eq_getElem?_getD, List.getElem?_modify,
    List.getElem?_eq_getElem h]
  rw [List.getD_eq_getElem?_getD, List.getElem?_eq_getElem h]
  simp

theorem mem_modify_getD {α : Type} (f : α → α) (i : ℕ) (l : List α) (d : α) :
    ∀ x ∈ List.modify f i l, x ∈ l ∨ (i < l.length ∧ x = f (l.getD i d)) := by
  intro x hx
  rcases List.mem_iff_getElem.mp hx with ⟨j, hj, hxe⟩
  rw [List.length_modify] at hj
  have he : (List.modify f i l)[j]? = some x := by
    rw [List.getElem?_eq_getElem (by rw [List.length_modify]; exact hj)]
    exact congrArg some hxe
  rw [List.getElem?_modify, List.getElem?_eq_getElem hj] at he
  simp only [Option.map_eq_map, Option.map_some'] at he
  by_cases hij : i = j
  · right
    subst hij
    refine ⟨hj, ?_⟩
    rw [List.getD_eq_getElem?_getD, List.getElem?_eq_getElem hj]
    simp only [Option.getD_some]
    simp only [if_pos rfl] at he
    exact (Option.some.injEq _ _).mp he |>.symm
  · left
    simp only [hij, if_false] at he
    rw [show x = l[j] from ((Option.some.injEq _ _).mp he).symm]
    exact List.getElem_mem hj

theorem modify_out {α : Type} (f : α → α) (i : ℕ) (l : List α)
    (h : l.length ≤ i) : List.modify f i l = l := by
  refine List.ext_getElem? ?_
  intro m
  rw [List.getElem?_modify]
  by_cases hm : m < l.length
  · rw [List.getElem?_eq_getElem hm]
    have : i ≠ m := by omega
    simp [this]
  · rw [List.getElem?_eq_none (by omega)]
    rfl

theorem modify_modify_same {α : Type} (f g : α → α) (i : ℕ) (l : List α) :
    List.modify f i (List.modify g i l) = List.modify (fun a => f (g a)) i l := by
  refine List.ext_getElem? ?_
  intro m
  rw [List.getElem?_modify, List.getElem?_modify, List.getElem?_modify]
  rcases l[m]? with _ | x
  · rfl
  · by_cases him : i = m
    · simp [him]
    · simp [him]

/-! ### Neighbor-selection size lemmas (feeding claim C3) -/

theorem selectNeighbors_length (candidates : List (ℚ × ℤ)) (M : ℕ) :
    (HNSWIndex.selectNeighbors candidates M).length ≤ M := by
  unfold HNSWIndex.selectNeighbors
  rw [List.length_map, List.length_take]
  omega

theorem heuristicCollect_length_go (cands : List (ℚ × ℤ))
    (selected : List Bool) (M : ℕ) :
    ∀ (idxs : List ℕ) (acc : List ℤ), acc.length ≤ M →
      (idxs.foldl (fun acc j =>
        if selected.getD j false ∧ acc.length < M then
          acc ++ [(cands.getD j (0, 0)).2]
        else acc) acc).length ≤ M
  | [], _, hacc => hacc
  | j :: idxs, acc, hacc => by
    rw [List.foldl_cons]
    by_cases h : selected.getD j false = true ∧ acc.length < M
    · rw [if_pos h]
      refine heuristicCollect_length_go cands selected M idxs _ ?_
      rw [List.length_append, List.length_singleton]
      omega
    · rw [if_neg h]
      exact heuristicCollect_length_go cands selected M idxs acc hacc

theorem heuristicCollect_length (cands : List (ℚ × ℤ))
    (selected : List Bool) (M maxC : ℕ) :
    (HNSWIndex.heuristicCollect cands selected M maxC).length ≤ M := by
  unfold HNSWIndex.heuristicCollect
  exact heuristicCollect_length_go cands selected M (List.range maxC) []
    (by simp)

theorem heuristicLoopFull_length (cfg : HNSWConfig) (store : VectorStore)
    (cands : List (ℚ × ℤ)) (maxC : ℕ) :
    ∀ (steps : ℕ) (selected : List Bool) (result : List ℤ),
      (HNSWIndex.heuristicLoopFull cfg store cands maxC steps selected
        result).length ≤ result.length + steps
  | 0, _, result => by
    unfold HNSWIndex.heuristicLoopFull
    omega
  | steps + 1, selected, result => by
    unfold HNSWIndex.heuristicLoopFull
    by_cases h : HNSWIndex.heuristicBestIdx maxC (fun j =>
        1 / (1 + (cands.getD j (0, 0)).1)
        + (1 - result.foldl (fun m r =>
            max m |cfg.cosineSim (rowOf store (cands.getD j (0, 0)).2)
              (rowOf store r)|) 0) * (1 / 2)) selected < 0
    · simp only [h, if_pos, ite_true]
      have := heuristicLoopFull_length cfg store cands maxC steps selected
        result
      omega
    · simp only [h, if_neg, ite_false]
      have := heuristicLoopFull_length cfg store cands maxC steps
        (selected.set (HNSWIndex.heuristicBestIdx maxC (fun j =>
          1 / (1 + (cands.getD j (0, 0)).1)
          + (1 - result.foldl (fun m r =>
              max m |cfg.cosineSim (rowOf store (cands.getD j (0, 0)).2)
                (rowOf store r)|) 0) * (1 / 2)) selected).toNat true)
        (result ++ [(cands.getD (HNSWIndex.heuristicBestIdx maxC (fun j =>
          1 / (1 + (cands.getD j (0, 0)).1)
          + (1 - result.foldl (fun m r =>
              max m |cfg.cosineSim (rowOf store (cands.getD j (0, 0)).2)
                (rowOf store r)|) 0) * (1 / 2)) selected).toNat (0, 0)).2])
      rw [List.length_append, List.length_singleton] at this
      omega

theorem selectNeighborsHeuristic_length (cfg : HNSWConfig)
    (store : VectorStore) (candidates : List (ℚ × ℤ)) (M : ℕ) :
    (HNSWIndex.selectNeighborsHeuristic cfg store candidates M).length ≤ M := by
  unfold HNSWIndex.selectNeighborsHeuristic
  by_cases h : candidates.length ≤ M
  · simp only [h, if_pos, ite_true]
    rw [List.length_map]
    exact h
  · simp only [h, if_neg, ite_false]
    by_cases h2 : store.dim ≤ 128 ∨ M ≤ 16
    · simp only [h2, if_pos, ite_true]
      exact heuristicCollect_length _ _ _ _
    · simp only [h2, if_neg, ite_false]
      have := heuristicLoopFull_length cfg store
        (candidates.take (min (M * 6) candidates.length))
        (min (M * 6) candidates.length) (min M (min (M * 6) candidates.length))
        (List.replicate (min (M * 6) candidates.length) false) []
      simp only [List.length_nil] at this
      omega

/-- Out-of-range `getD` yields the default. -/
theorem getD_out {α : Type} (l : List α) (i : ℕ) (d : α)
    (h : l.length ≤ i) : l.getD i d = d := by
  rw [List.getD_eq_getElem?_getD, List.getElem?_eq_none h]
  rfl

/-- One step of `HNSWIndex::connectNeighbors` keeps every neighbor list
within `M * pruneOverflowFactor`: the append may push the touched list
one past the bound only transiently, in which case `pruneNeighbors`
either keeps it (still within the bound) or truncates it to `M`. -/
theorem hnsw_connect_step_bound (cfg : HNSWConfig) (store : VectorStore)
    (newId : ℤ) (level : ℕ) (hF : 1 ≤ cfg.pruneOverflowFactor)
    (ns : List HNSWNode) (nb : ℤ)
    (hB : ∀ n ∈ ns, ∀ l ∈ n.neighbors,
      l.length ≤ cfg.M * cfg.pruneOverflowFactor) :
    ∀ n ∈ (if cfg.M < (((List.modify (fun n =>
          { n with neighbors := (List.modify (fun l => l ++ [newId]) level
              n.neighbors) }) nb.toNat ns).getD nb.toNat
            ⟨0, []⟩).neighbors.getD level []).length then
        HNSWIndex.pruneNeighbors cfg store (List.modify (fun n =>
          { n with neighbors := (List.modify (fun l => l ++ [newId]) level
              n.neighbors) }) nb.toNat ns) nb level
      else List.modify (fun n =>
          { n with neighbors := (List.modify (fun l => l ++ [newId]) level
              n.neighbors) }) nb.toNat ns),
      ∀ l ∈ n.neighbors, l.length ≤ cfg.M * cfg.pruneOverflowFactor := by
  set app := fun l : List ℤ => l ++ [newId] with happ
  set fmod := fun n : HNSWNode =>
    { n with neighbors := (List.modify app level n.neighbors) } with hfmod
  set i := nb.toNat with hi0
  set ns1 := List.modify fmod i ns with hns1
  by_cases hi : i < ns.length
  · set X := ns.getD i ⟨0, []⟩ with hX
    have hXmem : X ∈ ns := getD_mem _ _ _ hi
    have hgetD1 : ns1.getD i ⟨0, []⟩ = fmod X := by
      rw [hns1, getD_modify_eq _ _ _ _ hi]
    by_cases hlvl : level < X.neighbors.length
    · set L0 := X.neighbors.getD level [] with hL0
      have hL0le : L0.length ≤ cfg.M * cfg.pruneOverflowFactor := by
        rcases getD_mem_or_eq X.neighbors level [] with hm | hm
        · exact hB X hXmem _ hm
        · rw [hL0, hm]
          simp
      have hL : (ns1.getD i ⟨0, []⟩).neighbors.getD level [] = L0 ++ [newId] := by
        rw [hgetD1, hfmod]
        exact getD_modify_eq app level X.neighbors [] hlvl
      have hB1other : ∀ n ∈ ns1, ∀ l ∈ n.neighbors,
          l.length ≤ cfg.M * cfg.pruneOverflowFactor
          ∨ l = L0 ++ [newId] := by
        intro n hn l hl
        rcases mem_modify_getD fmod i ns ⟨0, []⟩ n hn with hn2 | ⟨_, rfl⟩
        · exact Or.inl (hB n hn2 l hl)
        · rcases mem_modify_getD app level X.neighbors [] l hl
            with hl2 | ⟨_, rfl⟩
          · exact Or.inl (hB X hXmem l hl2)
          · exact Or.inr rfl
      by_cases hc : cfg.M < ((ns1.getD i ⟨0, []⟩).neighbors.getD level []).length
      · rw [if_pos hc]
        unfold HNSWIndex.pruneNeighbors
        simp only []
        rw [hL]
        by_cases hp : (L0 ++ [newId]).length ≤ cfg.M * cfg.pruneOverflowFactor
        · rw [if_pos hp]
          intro n hn l hl
          rcases hB1other n hn l hl with h | rfl
          · exact h
          · exact hp
        · rw [if_neg hp]
          set newList := ((sortPairs ((L0 ++ [newId]).map (fun nb2 =>
            (sqDist (rowOf store nb) (rowOf store nb2), nb2)))).take
              cfg.M).map (fun p : ℚ × ℤ => p.2) with hnew
          have hMle : cfg.M ≤ cfg.M * cfg.pruneOverflowFactor :=
            Nat.le_mul_of_pos_right _ (by omega)
          have hnewlen : newList.length ≤ cfg.M * cfg.pruneOverflowFactor := by
            rw [hnew, List.length_map, List.length_take]
            omega
          intro n hn l hl
          rw [hns1, modify_modify_same] at hn
          rcases mem_modify_getD _ i ns ⟨0, []⟩ n hn with hn2 | ⟨_, rfl⟩
          · exact hB n hn2 l hl
          · have hl2 : l ∈ List.modify (fun _ => newList) level
                (List.modify app level X.neighbors) := hl
            rw [modify_modify_same] at hl2
            rcases mem_modify_getD _ level X.neighbors [] l hl2
              with hl3 | ⟨_, rfl⟩
            · exact hB X hXmem l hl3
            · exact hnewlen
      · rw [if_neg hc]
        intro n hn l hl
        rcases hB1other n hn l hl with h | rfl
        · exact h
        · rw [hL] at hc
          push_neg at hc
          have : cfg.M ≤ cfg.M * cfg.pruneOverflowFactor :=
            Nat.le_mul_of_pos_right _ (by omega)
          omega
    · have hmo : List.modify app level X.neighbors = X.neighbors :=
        modify_out app level X.neighbors (by omega)
      have hfx : fmod X = X := by
        rw [hfmod]
        simp only []
        rw [hmo]
      have hcond : (ns1.getD i ⟨0, []⟩).neighbors.getD level [] = [] := by
        rw [hgetD1, hfx]
        exact getD_out X.neighbors level [] (by omega)
      rw [if_neg (by rw [hcond]; simp)]
      intro n hn l hl
      rcases mem_modify_getD fmod i ns ⟨0, []⟩ n hn with hn2 | ⟨_, rfl⟩
      · exact hB n hn2 l hl
      · rw [hfx] at hl
        exact hB X hXmem l hl
  · have hns1e : ns1 = ns := by
      rw [hns1]
      exact modify_out fmod i ns (by omega)
    have hcond : (ns1.getD i ⟨0, []⟩).neighbors.getD level [] = [] := by
      rw [hns1e, getD_out ns i ⟨0, []⟩ (by omega)]
      rfl
    rw [if_neg (by rw [hcond]; simp)]
    rw [hns1e]
    exact hB

/-- `HNSWIndex::connectNeighbors` keeps every neighbor list within
`M * pruneOverflowFactor`. -/
theorem hnsw_connect_bound (cfg : HNSWConfig) (store : VectorStore)
    (newId : ℤ) (level : ℕ) (hF : 1 ≤ cfg.pruneOverflowFactor) :
    ∀ (nbs : List ℤ) (ns : List HNSWNode),
      (∀ n ∈ ns, ∀ l ∈ n.neighbors,
        l.length ≤ cfg.M * cfg.pruneOverflowFactor) →
      ∀ n ∈ HNSWIndex.connectNeighbors cfg store ns newId nbs level,
        ∀ l ∈ n.neighbors, l.length ≤ cfg.M * cfg.pruneOverflowFactor
  | [], ns, hB => by
    unfold HNSWIndex.connectNeighbors
    simpa using hB
  | nb :: nbs, ns, hB => by
    unfold HNSWIndex.connectNeighbors
    rw [List.foldl_cons]
    have hstep := hnsw_connect_step_bound cfg store newId level hF ns nb hB
    exact hnsw_connect_bound cfg store newId level hF nbs _ hstep

/-- The per-level insert loop of `HNSWIndex::add` keeps every existing
list within `M * pruneOverflowFactor` and emits per-level lists of at
most `M` entries for the new node. -/
theorem addLevelLoop_bound (cfg : HNSWConfig) (store : VectorStore)
    (q : Vec) (newIndex : ℤ) (sizeCounter : ℕ)
    (hF : 1 ≤ cfg.pruneOverflowFactor) :
    ∀ (fuel level : ℕ) (nodes : List HNSWNode) (currObj : ℤ)
      (acc : List (List ℤ)),
      (∀ n ∈ nodes, ∀ l ∈ n.neighbors,
        l.length ≤ cfg.M * cfg.pruneOverflowFactor) →
      (∀ lst ∈ acc, lst.length ≤ cfg.M) →
      (∀ n ∈ (HNSWIndex.addLevelLoop cfg store q newIndex sizeCounter
          fuel level nodes currObj acc).1,
        ∀ l ∈ n.neighbors, l.length ≤ cfg.M * cfg.pruneOverflowFactor)
      ∧ (∀ lst ∈ (HNSWIndex.addLevelLoop cfg store q newIndex sizeCounter
          fuel level nodes currObj acc).2.2, lst.length ≤ cfg.M)
  | 0, _, _, _, _, hB, hacc => ⟨hB, hacc⟩
  | fuel + 1, level, nodes, currObj, acc, hB, hacc => by
    unfold HNSWIndex.addLevelLoop
    simp only []
    set results := HNSWIndex.searchLevel cfg ⟨store, nodes, 0, sizeCounter⟩
      q currObj
      (if 0 < level ∧ 1000 < sizeCounter then
        max (cfg.M * 2) (cfg.efConstruction * 4 / 5)
      else cfg.efConstruction) level with hres
    set selected := if cfg.useHeuristicSelection = true
        ∧ cfg.M < results.length
      then HNSWIndex.selectNeighborsHeuristic cfg store results cfg.M
      else HNSWIndex.selectNeighbors results cfg.M with hsel
    have hsellen : selected.length ≤ cfg.M := by
      rw [hsel]
      by_cases h : cfg.useHeuristicSelection = true ∧ cfg.M < results.length
      · rw [if_pos h]
        exact selectNeighborsHeuristic_length cfg store results cfg.M
      · rw [if_neg h]
        exact selectNeighbors_length results cfg.M
    have hB1 := hnsw_connect_bound cfg store newIndex level hF selected
      nodes hB
    have hacc1 : ∀ lst ∈ selected :: acc, lst.length ≤ cfg.M := by
      intro lst hlst
      rcases List.mem_cons.mp hlst with rfl | hlst
      · exact hsellen
      · exact hacc lst hlst
    by_cases hl0 : level = 0
    · rw [if_pos hl0]
      exact ⟨hB1, hacc1⟩
    · rw [if_neg hl0]
      exact addLevelLoop_bound cfg store q newIndex sizeCounter hF fuel
        (level - 1) _ _ _ hB1 hacc1

/-- `HNSWIndex::add` preserves the bound
`length ≤ M * pruneOverflowFactor` on every node's neighbor list at
every level. -/
theorem hnsw_add_neighbor_bound (cfg : HNSWConfig) (st : HNSWState)
    (rawLevel : ℕ) (id : ℤ) (v : Vec)
    (hF : 1 ≤ cfg.pruneOverflowFactor)
    (hB : ∀ n ∈ st.nodes, ∀ l ∈ n.neighbors,
      l.length ≤ cfg.M * cfg.pruneOverflowFactor) :
    ∀ n ∈ (HNSWIndex.add cfg st rawLevel id v).1.nodes,
      ∀ l ∈ n.neighbors, l.length ≤ cfg.M * cfg.pruneOverflowFactor := by
  have hMF : cfg.M ≤ cfg.M * cfg.pruneOverflowFactor :=
    Nat.le_mul_of_pos_right _ (by omega)
  unfold HNSWIndex.add
  simp only []
  rcases hadd : st.store.add id v with ⟨store1, res⟩
  rcases res with e | u
  · exact hB
  · simp only []
    by_cases hz : st.store.size = 0
    · rw [if_pos hz]
      intro n hn l hl
      rcases List.mem_append.mp hn with hn1 | hn1
      · exact hB n hn1 l hl
      · rcases List.mem_singleton.mp hn1 with rfl
        have := List.eq_of_mem_replicate hl
        subst this
        simp
    · rw [if_neg hz]
      intro n hn l hl
      rcases List.mem_append.mp hn with hn1 | hn1
      · exact (addLevelLoop_bound cfg store1 v _ _ hF _ _ _ _ _ hB
          (by simp)).1 n hn1 l hl
      · rcases List.mem_singleton.mp hn1 with rfl
        rcases List.mem_append.mp hl with hl1 | hl1
        · exact le_trans ((addLevelLoop_bound cfg store1 v _ _ hF _ _ _ _ _
            hB (by simp)).2 l hl1) hMF
        · have := List.eq_of_mem_replicate hl1
          subst this
          simp

/-- The hybrid's per-level greedy entry refinement stays in range. -/
theorem levelGreedy_range (st : HNSWPQState) (distTo : ℤ → ℚ) (level : ℕ)
    (hnbr : ∀ (i : ℤ) (lvl : ℕ), ∀ x ∈ HNSWPQIndex.neighborsAt st i lvl,
      0 ≤ x ∧ x < (st.size : ℤ)) :
    ∀ (fuel : ℕ) (c : ℚ × ℤ),
      0 ≤ c.2 ∧ c.2 < (st.size : ℤ) →
      0 ≤ (HNSWPQIndex.levelGreedy st distTo level fuel c).2
      ∧ (HNSWPQIndex.levelGreedy st distTo level fuel c).2 < (st.size : ℤ)
  | 0, _, hc => hc
  | fuel + 1, c, hc => by
    unfold HNSWPQIndex.levelGreedy
    have hp := descendPass_range distTo st.size
      (HNSWPQIndex.neighborsAt st c.2 level) c (hnbr c.2 level) hc
    by_cases h : (HNSWPQIndex.descendPass distTo
        (HNSWPQIndex.neighborsAt st c.2 level) c).2 = true
    · simp only [h, if_pos, ite_true]
      exact levelGreedy_range st distTo level hnbr fuel _ hp
    · simp only [h, if_neg, ite_false]
      exact hp

/-- The BFS queue fold of the hybrid's insert loop keeps the queue in
range. -/
theorem queueFold_range (n : ℕ) :
    ∀ (nbs : List ℤ) (acc : List ℤ × List ℤ),
      (∀ x ∈ nbs, 0 ≤ x ∧ x < (n : ℤ)) →
      (∀ x ∈ acc.1, 0 ≤ x ∧ x < (n : ℤ)) →
      ∀ x ∈ (nbs.foldl (fun (qv : List ℤ × List ℤ) nb =>
        if nb ∈ qv.2 then qv else (qv.1 ++ [nb], nb :: qv.2)) acc).1,
        0 ≤ x ∧ x < (n : ℤ)
  | [], _, _, hacc => hacc
  | nb :: nbs, acc, hr, hacc => by
    rw [List.foldl_cons]
    by_cases h : nb ∈ acc.2
    · simp only [h, if_pos, ite_true]
      exact queueFold_range n nbs acc
        (fun x hx => hr x (List.mem_cons_of_mem _ hx)) hacc
    · simp only [h, if_neg, ite_false]
      refine queueFold_range n nbs (acc.1 ++ [nb], nb :: acc.2)
        (fun x hx => hr x (List.mem_cons_of_mem _ hx)) ?_
      intro x hx
      rcases List.mem_append.mp hx with hx | hx
      · exact hacc x hx
      · rcases List.mem_singleton.mp hx with rfl
        exact hr x (List.mem_cons_self _ _)

/-- The BFS candidate collection of the hybrid's insert loop scores
only in-range nodes. -/
theorem bfsCollect_range (st : HNSWPQState) (distTo : ℤ → ℚ)
    (level cap : ℕ)
    (hnbr : ∀ (i : ℤ) (lvl : ℕ), ∀ x ∈ HNSWPQIndex.neighborsAt st i lvl,
      0 ≤ x ∧ x < (st.size : ℤ)) :
    ∀ (fuel : ℕ) (queue visited : List ℤ) (cands : List (ℚ × ℤ)),
      (∀ x ∈ queue, 0 ≤ x ∧ x < (st.size : ℤ)) →
      (∀ p ∈ cands, 0 ≤ p.2 ∧ p.2 < (st.size : ℤ)) →
      ∀ p ∈ HNSWPQIndex.bfsCollect st distTo level cap fuel queue visited
        cands, 0 ≤ p.2 ∧ p.2 < (st.size : ℤ)
  | 0, _, _, _, _, hc => hc
  | fuel + 1, queue, visited, cands, hq, hc => by
    unfold HNSWPQIndex.bfsCollect
    match queue, hq with
    | [], _ => exact hc
    | node :: rest, hq =>
      by_cases h1 : cap ≤ cands.length
      · simp only [h1, if_pos, ite_true]
        exact hc
      · simp only [h1, if_neg, ite_false]
        have hc1 : ∀ p ∈ cands ++ [(distTo node, node)],
            0 ≤ p.2 ∧ p.2 < (st.size : ℤ) := by
          intro p hp
          rcases List.mem_append.mp hp with hp | hp
          · exact hc p hp
          · rcases List.mem_singleton.mp hp with rfl
            exact hq node (List.mem_cons_self _ _)
        refine bfsCollect_range st distTo level cap hnbr fuel _ _ _ ?_ hc1
        exact queueFold_range st.size (HNSWPQIndex.neighborsAt st node level)
          (rest, visited) (hnbr node level)
          (fun x hx => hq x (List.mem_cons_of_mem _ hx))

/-- Elements produced by the hybrid's heuristic selection loop come
from the result so far, from the candidate pool, or are the literal 0
read from the out-of-range default. -/
theorem hnswpq_heuristicLoop_mem (st : HNSWPQState)
    (cands : List (ℚ × ℤ)) (maxC : ℕ) :
    ∀ (i steps : ℕ) (selected : List Bool) (result : List ℤ),
      ∀ x ∈ HNSWPQIndex.heuristicLoop st cands maxC i steps selected
        result, x ∈ result ∨ (∃ p ∈ cands, x = p.2) ∨ x = 0
  | _, 0, _, _ => fun x hx => Or.inl hx
  | i, steps + 1, selected, result => by
    intro x hx
    unfold HNSWPQIndex.heuristicLoop at hx
    by_cases h : HNSWIndex.heuristicBestIdx maxC (fun j =>
        1 / (1 + (cands.getD j (0, 0)).1)
        + (if 0 < i then 3 / 10 * min (result.foldl
            (fun m r => min m (HNSWPQIndex.computeExactDistance st
              (cands.getD j (0, 0)).2 r)) floatMax) 10 / 10 else 0))
        selected < 0
    · rw [if_pos h] at hx
      exact hnswpq_heuristicLoop_mem st cands maxC (i + 1) steps selected
        result x hx
    · rw [if_neg h] at hx
      rcases hnswpq_heuristicLoop_mem st cands maxC (i + 1) steps _ _ x hx
        with h2 | h2 | h2
      · rcases List.mem_append.mp h2 with h3 | h3
        · exact Or.inl h3
        · rcases List.mem_singleton.mp h3 with rfl
          rcases getD_mem_or_eq cands (HNSWIndex.heuristicBestIdx maxC _
              selected).toNat (0, 0) with hm | hm
          · exact Or.inr (Or.inl ⟨_, hm, rfl⟩)
          · rw [hm]
            exact Or.inr (Or.inr rfl)
      · exact Or.inr (Or.inl h2)
      · exact Or.inr (Or.inr h2)

/-- Elements selected by the hybrid's `selectNeighborsHeuristic` come
from the candidate pool or are the out-of-range default 0. -/
theorem hnswpq_selectHeuristic_mem (st : HNSWPQState)
    (candidates : List (ℚ × ℤ)) (M : ℕ) :
    ∀ x ∈ HNSWPQIndex.selectNeighborsHeuristic st candidates M,
      (∃ p ∈ candidates, x = p.2) ∨ x = 0 := by
  intro x hx
  unfold HNSWPQIndex.selectNeighborsHeuristic at hx
  by_cases h : candidates.length ≤ M
  · rw [if_pos h] at hx
    rcases List.mem_map.mp hx with ⟨p, hp, rfl⟩
    exact Or.inl ⟨p, hp, rfl⟩
  · rw [if_neg h] at hx
    rcases hnswpq_heuristicLoop_mem st
      (candidates.take (min (M * 6) candidates.length))
      (min (M * 6) candidates.length) 0
      (min M (min (M * 6) candidates.length))
      (List.replicate (min (M * 6) candidates.length) false) [] x hx
      with h2 | h2 | h2
    · exact absurd h2 (List.not_mem_nil x)
    · rcases h2 with ⟨p, hp, rfl⟩
      exact Or.inl ⟨p, (List.take_sublist _ _).subset hp, rfl⟩
    · exact Or.inr h2

/-- The search phase of the hybrid's insert emits only in-range
neighbor ids at every level. -/
theorem addSearchLoop_range (cfg : HNSWPQConfig) (st : HNSWPQState)
    (distTo : ℤ → ℚ)
    (hnbr : ∀ (i : ℤ) (lvl : ℕ), ∀ x ∈ HNSWPQIndex.neighborsAt st i lvl,
      0 ≤ x ∧ x < (st.size : ℤ))
    (hsz : 0 < st.size) :
    ∀ (fuel level : ℕ) (currObj : ℤ) (acc : List (List ℤ)),
      0 ≤ currObj ∧ currObj < (st.size : ℤ) →
      (∀ lst ∈ acc, ∀ x ∈ lst, 0 ≤ x ∧ x < (st.size : ℤ)) →
      ∀ lst ∈ (HNSWPQIndex.addSearchLoop cfg st distTo fuel level currObj
        acc).2, ∀ x ∈ lst, 0 ≤ x ∧ x < (st.size : ℤ)
  | 0, _, _, _, _, hacc => hacc
  | fuel + 1, level, currObj, acc, hco, hacc => by
    unfold HNSWPQIndex.addSearchLoop
    simp only []
    have he := levelGreedy_range st distTo level hnbr (st.nodes.length + 1)
      (distTo currObj, currObj) hco
    have hcands := bfsCollect_range st distTo level (cfg.efConstruction * 2)
      hnbr (HNSWPQIndex.totalNeighborEntries st + 2)
      [(HNSWPQIndex.levelGreedy st distTo level (st.nodes.length + 1)
        (distTo currObj, currObj)).2]
      [(HNSWPQIndex.levelGreedy st distTo level (st.nodes.length + 1)
        (distTo currObj, currObj)).2] []
      (by
        intro x hx
        rcases List.mem_cons.mp hx with rfl | hx
        · exact he
        · exact absurd hx (List.not_mem_nil x))
      (fun p hp => absurd hp (List.not_mem_nil p))
    set cands := HNSWPQIndex.bfsCollect st distTo level
      (cfg.efConstruction * 2) (HNSWPQIndex.totalNeighborEntries st + 2)
      [(HNSWPQIndex.levelGreedy st distTo level (st.nodes.length + 1)
        (distTo currObj, currObj)).2]
      [(HNSWPQIndex.levelGreedy st distTo level (st.nodes.length + 1)
        (distTo currObj, currObj)).2] [] with hcd
    have hsorted : ∀ p ∈ sortPairs cands, 0 ≤ p.2 ∧ p.2 < (st.size : ℤ) :=
      fun p hp => hcands p ((sortPairs_perm cands).mem_iff.mp hp)
    have hselrange : ∀ x ∈ (if cfg.useHeuristicSelection = true
          ∧ cfg.M < (sortPairs cands).length
        then HNSWPQIndex.selectNeighborsHeuristic st (sortPairs cands) cfg.M
        else HNSWPQIndex.selectNeighbors (sortPairs cands) cfg.M),
        0 ≤ x ∧ x < (st.size : ℤ) := by
      intro x hx
      by_cases h : cfg.useHeuristicSelection = true
          ∧ cfg.M < (sortPairs cands).length
      · rw [if_pos h] at hx
        rcases hnswpq_selectHeuristic_mem st (sortPairs cands) cfg.M x hx
          with ⟨p, hp, rfl⟩ | rfl
        · exact hsorted p hp
        · omega
      · rw [if_neg h] at hx
        unfold HNSWPQIndex.selectNeighbors at hx
        rcases List.mem_map.mp hx with ⟨p, hp, rfl⟩
        exact hsorted p ((List.take_sublist _ _).subset hp)
    have hco1 : 0 ≤ (match sortPairs cands with
        | [] => currObj
        | c :: _ => c.2)
        ∧ (match sortPairs cands with
        | [] => currObj
        | c :: _ => c.2) < (st.size : ℤ) := by
      match hs : sortPairs cands with
      | [] => exact hco
      | c :: tl => exact hsorted c (by rw [hs]; exact List.mem_cons_self _ _)
    by_cases hl0 : level = 0
    · rw [if_pos hl0]
      intro lst hlst
      rcases List.mem_cons.mp hlst with rfl | hlst
      · exact hselrange
      · exact hacc lst hlst
    · rw [if_neg hl0]
      refine addSearchLoop_range cfg st distTo hnbr hsz fuel (level - 1)
        _ _ hco1 ?_
      intro lst hlst
      rcases List.mem_cons.mp hlst with rfl | hlst
      · exact hselrange
      · exact hacc lst hlst

/-- Any `getD`-read neighbor list is within the bound whenever every
real list is. -/
theorem getD_list_le (ns : List HNSWNode) (M : ℕ)
    (hB : ∀ n ∈ ns, ∀ l ∈ n.neighbors, l.length ≤ M) (i level : ℕ) :
    ((ns.getD i ⟨0, []⟩).neighbors.getD level []).length ≤ M := by
  rcases getD_mem_or_eq ns i ⟨0, []⟩ with hm | hm
  · rcases getD_mem_or_eq (ns.getD i ⟨0, []⟩).neighbors level [] with hl | hl
    · exact hB _ hm _ hl
    · rw [hl]
      simp
  · rw [hm]
    have h0 : ((⟨0, []⟩ : HNSWNode).neighbors.getD level []) = [] :=
      getD_out _ _ _ (by simp)
    rw [h0]
    simp

/-- One step of `HNSWPQIndex::connectNeighbors` keeps every neighbor
list within `M`: the hybrid's `pruneNeighbors` fires as soon as a list
exceeds `M` and truncates it to the closest `M`. -/
theorem hnswpq_connect_step_bound (cfg : HNSWPQConfig)
    (stq : HNSWPQState) (newId : ℤ) (level : ℕ) (ns : List HNSWNode)
    (nb : ℤ) (hvec : ¬stq.store.getVector nb = none)
    (hB : ∀ n ∈ ns, ∀ l ∈ n.neighbors, l.length ≤ cfg.M) :
    ∀ n ∈ (if cfg.M < (((HNSWPQIndex.addNeighborToLevel ns nb level
          newId).getD nb.toNat ⟨0, []⟩).neighbors.getD level []).length then
        HNSWPQIndex.pruneNeighbors cfg stq
          (HNSWPQIndex.addNeighborToLevel ns nb level newId) nb level
      else HNSWPQIndex.addNeighborToLevel ns nb level newId),
      ∀ l ∈ n.neighbors, l.length ≤ cfg.M := by
  set app := fun l : List ℤ => l ++ [newId] with happ
  set fmod := fun n : HNSWNode =>
    { n with neighbors := (List.modify app level n.neighbors) } with hfmod
  set i := nb.toNat with hi0
  set ns1 := HNSWPQIndex.addNeighborToLevel ns nb level newId with hns1
  by_cases h1 : nb < 0 ∨ (ns.length : ℤ) ≤ nb
  · have hid : ns1 = ns := by
      rw [hns1]
      unfold HNSWPQIndex.addNeighborToLevel
      rw [if_pos h1]
    rw [hid]
    rw [if_neg (by
      have := getD_list_le ns cfg.M hB i level
      omega)]
    exact hB
  · by_cases h2 : (ns.getD i ⟨0, []⟩).level < level
    · have hid : ns1 = ns := by
        rw [hns1]
        unfold HNSWPQIndex.addNeighborToLevel
        rw [if_neg h1, if_pos h2]
      rw [hid]
      rw [if_neg (by
        have := getD_list_le ns cfg.M hB i level
        omega)]
      exact hB
    · have hi : i < ns.length := by
        push_neg at h1
        omega
      have hns1m : ns1 = List.modify fmod i ns := by
        rw [hns1]
        unfold HNSWPQIndex.addNeighborToLevel
        rw [if_neg h1, if_neg h2]
      set X := ns.getD i ⟨0, []⟩ with hX
      have hXmem : X ∈ ns := getD_mem _ _ _ hi
      have hgetD1 : ns1.getD i ⟨0, []⟩ = fmod X := by
        rw [hns1m, getD_modify_eq _ _ _ _ hi]
      by_cases hlvl : level < X.neighbors.length
      · set L0 := X.neighbors.getD level [] with hL0
        have hL0le : L0.length ≤ cfg.M := by
          rcases getD_mem_or_eq X.neighbors level [] with hm | hm
          · exact hB X hXmem _ hm
          · rw [hL0, hm]
            simp
        have hL : (ns1.getD i ⟨0, []⟩).neighbors.getD level []
            = L0 ++ [newId] := by
          rw [hgetD1, hfmod]
          exact getD_modify_eq app level X.neighbors [] hlvl
        have hB1other : ∀ n ∈ ns1, ∀ l ∈ n.neighbors,
            l.length ≤ cfg.M ∨ l = L0 ++ [newId] := by
          intro n hn l hl
          rw [hns1m] at hn
          rcases mem_modify_getD fmod i ns ⟨0, []⟩ n hn with hn2 | ⟨_, rfl⟩
          · exact Or.inl (hB n hn2 l hl)
          · rcases mem_modify_getD app level X.neighbors [] l hl
              with hl2 | ⟨_, rfl⟩
            · exact Or.inl (hB X hXmem l hl2)
            · exact Or.inr rfl
        by_cases hc : cfg.M
            < ((ns1.getD i ⟨0, []⟩).neighbors.getD level []).length
        · rw [if_pos hc]
          unfold HNSWPQIndex.pruneNeighbors
          rw [if_neg (by
            rw [hns1m, List.length_modify]
            exact h1)]
          rw [if_neg (by
            rw [hgetD1]
            exact h2)]
          rw [if_neg hvec]
          simp only []
          rw [hL]
          rw [if_neg (by
            rw [hL] at hc
            omega)]
          set newList := ((sortPairs ((L0 ++ [newId]).map (fun nb2 =>
            (HNSWPQIndex.computeExactDistance stq nb nb2,
              nb2)))).take cfg.M).map (fun p : ℚ × ℤ => p.2) with hnew
          have hnewlen : newList.length ≤ cfg.M := by
            rw [hnew, List.length_map, List.length_take]
            omega
          intro n hn l hl
          rw [hns1m, modify_modify_same] at hn
          rcases mem_modify_getD _ i ns ⟨0, []⟩ n hn with hn2 | ⟨_, rfl⟩
          · exact hB n hn2 l hl
          · have hl2 : l ∈ List.modify (fun _ => newList) level
                (List.modify app level X.neighbors) := hl
            rw [modify_modify_same] at hl2
            rcases mem_modify_getD _ level X.neighbors [] l hl2
              with hl3 | ⟨_, rfl⟩
            · exact hB X hXmem l hl3
            · exact hnewlen
        · rw [if_neg hc]
          intro n hn l hl
          rcases hB1other n hn l hl with h | rfl
          · exact h
          · rw [hL] at hc
            omega
      · have hmo : List.modify app level X.neighbors = X.neighbors :=
          modify_out app level X.neighbors (by omega)
        have hfx : fmod X = X := by
          rw [hfmod]
          simp only []
          rw [hmo]
        have hcond : (ns1.getD i ⟨0, []⟩).neighbors.getD level [] = [] := by
          rw [hgetD1, hfx]
          exact getD_out X.neighbors level [] (by omega)
        rw [if_neg (by rw [hcond]; simp)]
        intro n hn l hl
        rw [hns1m] at hn
        rcases mem_modify_getD fmod i ns ⟨0, []⟩ n hn with hn2 | ⟨_, rfl⟩
        · exact hB n hn2 l hl
        · rw [hfx] at hl
          exact hB X hXmem l hl

/-- `HNSWPQIndex::connectNeighbors` keeps every neighbor list within
`M` whenever the connected ids have live rows. -/
theorem hnswpq_connect_bound (cfg : HNSWPQConfig) (stq : HNSWPQState)
    (newId : ℤ) (level : ℕ) :
    ∀ (nbs : List ℤ) (ns : List HNSWNode),
      (∀ nb ∈ nbs, ¬stq.store.getVector nb = none) →
      (∀ n ∈ ns, ∀ l ∈ n.neighbors, l.length ≤ cfg.M) →
      ∀ n ∈ HNSWPQIndex.connectNeighbors cfg stq ns newId nbs level,
        ∀ l ∈ n.neighbors, l.length ≤ cfg.M
  | [], ns, _, hB => by
    unfold HNSWPQIndex.connectNeighbors
    simpa using hB
  | nb :: nbs, ns, hv, hB => by
    unfold HNSWPQIndex.connectNeighbors
    rw [List.foldl_cons]
    have hstep := hnswpq_connect_step_bound cfg stq newId level ns nb
      (hv nb (List.mem_cons_self _ _)) hB
    exact hnswpq_connect_bound cfg stq newId level nbs _
      (fun x hx => hv x (List.mem_cons_of_mem _ hx)) hstep

/-- The write phase's per-level connect fold keeps every neighbor list
within `M`. -/
theorem hnswpq_connect_levels_bound (cfg : HNSWPQConfig)
    (stq : HNSWPQState) (newId : ℤ) (perLevel : List (List ℤ))
    (hvec : ∀ lst ∈ perLevel, ∀ nb ∈ lst,
      ¬stq.store.getVector nb = none) :
    ∀ (lvls : List ℕ) (ns : List HNSWNode),
      (∀ n ∈ ns, ∀ l ∈ n.neighbors, l.length ≤ cfg.M) →
      ∀ n ∈ lvls.foldl (fun ns lvl =>
        HNSWPQIndex.connectNeighbors cfg stq ns newId
          (perLevel.getD lvl []) lvl) ns,
        ∀ l ∈ n.neighbors, l.length ≤ cfg.M
  | [], _, hB => hB
  | lvl :: lvls, ns, hB => by
    rw [List.foldl_cons]
    refine hnswpq_connect_levels_bound cfg stq newId perLevel hvec lvls _ ?_
    refine hnswpq_connect_bound cfg stq newId lvl (perLevel.getD lvl [])
      ns ?_ hB
    intro nb hnb
    rcases getD_mem_or_eq perLevel lvl [] with hm | hm
    · exact hvec _ hm nb hnb
    · rw [hm] at hnb
      exact absurd hnb (List.not_mem_nil nb)

/-- `addNeighborToLevel` applied to the not-yet-pushed index is a
no-op for a whole neighbor list. -/
theorem addNeighborToLevel_inner_id (newIndex : ℤ) (lvl : ℕ) :
    ∀ (nbs : List ℤ) (ns : List HNSWNode), (ns.length : ℤ) ≤ newIndex →
      nbs.foldl (fun ns2 nb =>
        HNSWPQIndex.addNeighborToLevel ns2 newIndex lvl nb) ns = ns
  | [], _, _ => rfl
  | nb :: nbs, ns, h => by
    rw [List.foldl_cons]
    have hone : HNSWPQIndex.addNeighborToLevel ns newIndex lvl nb = ns := by
      unfold HNSWPQIndex.addNeighborToLevel
      rw [if_pos (Or.inr h)]
    rw [hone]
    exact addNeighborToLevel_inner_id newIndex lvl nbs ns h

/-- Phase 4's first fold — writing the new node's own lists through the
bounds-checked `addNeighborToLevel` — silently does nothing. -/
theorem nodesA_id (newIndex : ℤ) (perLevel : List (List ℤ)) :
    ∀ (lvls : List ℕ) (ns : List HNSWNode), (ns.length : ℤ) ≤ newIndex →
      lvls.foldl (fun ns lvl => (perLevel.getD lvl []).foldl
        (fun ns2 nb => HNSWPQIndex.addNeighborToLevel ns2 newIndex lvl nb)
        ns) ns = ns
  | [], _, _ => rfl
  | lvl :: lvls, ns, h => by
    rw [List.foldl_cons, addNeighborToLevel_inner_id newIndex lvl _ ns h]
    exact nodesA_id newIndex perLevel lvls ns h

/-- A successful `VectorStore::add` grows the store by one row. -/
theorem store_add_ok_size (s : VectorStore) (id : ℤ) (v : Vec)
    (store1 : VectorStore) (u : ℕ)
    (h : s.add id v = (store1, Except.ok u)) :
    store1.size = s.size + 1 := by
  unfold VectorStore.add at h
  by_cases hfull : s.maxElements ≤ s.size
  · rw [if_pos hfull] at h
    exact absurd h (by simp)
  · rw [if_neg hfull] at h
    have h1 : ({ s with rows := s.rows ++ [v]
                        ids := s.ids ++ [id]
                        norms := s.norms ++ [normSq v] } : VectorStore)
        = store1 := congrArg Prod.fst h
    rw [← h1]
    unfold VectorStore.size
    simp [VectorStore.size]

/-- `HNSWPQIndex::add` preserves the bound `length ≤ M` on every
node's neighbor list at every level. -/
theorem hnswpq_add_neighbor_bound (cfg : HNSWPQConfig)
    (st : HNSWPQState) (rawLevel : ℕ) (id : ℤ) (v : Vec) (hwf : st.wf)
    (hB : ∀ n ∈ st.nodes, ∀ l ∈ n.neighbors, l.length ≤ cfg.M) :
    ∀ n ∈ (HNSWPQIndex.add cfg st rawLevel id v).1.nodes,
      ∀ l ∈ n.neighbors, l.length ≤ cfg.M := by
  obtain ⟨hw1, hw2, hw3, hw4, hw5⟩ := hwf
  unfold HNSWPQIndex.add
  by_cases ht : st.trained = false
  · rw [if_pos ht]
    exact hB
  · rw [if_neg ht]
    simp only []
    rcases hadd : st.store.add id v with ⟨store1, res⟩
    rcases res with e | u
    · exact hB
    · simp only []
      by_cases hz : st.size = 0
      · rw [if_pos hz]
        intro n hn l hl
        rcases List.mem_append.mp hn with hn1 | hn1
        · exact hB n hn1 l hl
        · rcases List.mem_singleton.mp hn1 with rfl
          have := List.eq_of_mem_replicate hl
          subst this
          simp
      · rw [if_neg hz]
        simp only []
        set st1 : HNSWPQState := { st with store := store1
                                           codes := (st.codes
                                             ++ [HNSWPQIndex.encode st v]) }
          with hst1
        set distTo := fun nb =>
          HNSWPQIndex.computeExactDistance st1 ((st.size : ℕ) : ℤ) nb
          with hdt
        have hnodes1 : st1.nodes = st.nodes := rfl
        have hsize1 : st1.size = st.size := rfl
        have hnbr1 : ∀ (i : ℤ) (lvl : ℕ),
            ∀ x ∈ HNSWPQIndex.neighborsAt st1 i lvl,
              0 ≤ x ∧ x < (st1.size : ℤ) :=
          hnswpq_neighbors_range st1 hw4
        have hsz : 0 < st1.size := Nat.pos_of_ne_zero hz
        have hep : 0 ≤ st1.entryPoint ∧ st1.entryPoint < (st1.size : ℤ) :=
          hw3 hsz
        set c1 := HNSWPQIndex.descendLevels st1 distTo
          (min rawLevel cfg.maxLevel)
          ((HNSWPQIndex.nodeAt st1 st1.entryPoint).level + 1)
          (HNSWPQIndex.nodeAt st1 st1.entryPoint).level
          (distTo st1.entryPoint, st1.entryPoint) with hc1
        have hc1r : 0 ≤ c1.2 ∧ c1.2 < (st1.size : ℤ) :=
          descendLevels_range st1 distTo (min rawLevel cfg.maxLevel)
            hnbr1 _ _ _ hep
        set r := HNSWPQIndex.addSearchLoop cfg st1 distTo
          (min (min rawLevel cfg.maxLevel)
            (HNSWPQIndex.nodeAt st1 c1.2).level + 1)
          (min (min rawLevel cfg.maxLevel)
            (HNSWPQIndex.nodeAt st1 c1.2).level) c1.2 [] with hrdef
        have hrange : ∀ lst ∈ r.2, ∀ x ∈ lst,
            0 ≤ x ∧ x < (st1.size : ℤ) :=
          addSearchLoop_range cfg st1 distTo hnbr1 hsz _ _ _ [] hc1r
            (fun lst h => absurd h (List.not_mem_nil lst))
        have hs1 : st1.store.size = st.size + 1 := by
          have h2 := store_add_ok_size st.store id v store1 u hadd
          show store1.size = st.size + 1
          omega
        have hvecs : ∀ lst ∈ r.2, ∀ nb ∈ lst,
            ¬st1.store.getVector nb = none := by
          intro lst hlst nb hnb
          have hr2 := hrange lst hlst nb hnb
          rw [hsize1] at hr2
          unfold VectorStore.getVector
          rw [if_neg (by omega)]
          simp
        have hlen : ((st1.nodes.length : ℕ) : ℤ) ≤ ((st.size : ℕ) : ℤ) := by
          rw [hnodes1]
          omega
        have hBA : ∀ n ∈ (List.range (min rawLevel cfg.maxLevel + 1)).foldl
            (fun ns lvl => (r.2.getD lvl []).foldl
              (fun ns2 nb => HNSWPQIndex.addNeighborToLevel ns2
                ((st.size : ℕ) : ℤ) lvl nb) ns) st1.nodes,
            ∀ l ∈ n.neighbors, l.length ≤ cfg.M := by
          rw [nodesA_id ((st.size : ℕ) : ℤ) r.2 _ st1.nodes hlen]
          rw [hnodes1]
          exact hB
        intro n hn l hl
        rcases List.mem_append.mp hn with hn1 | hn1
        · exact hnswpq_connect_levels_bound cfg st1 ((st.size : ℕ) : ℤ)
            r.2 hvecs (List.range (min rawLevel cfg.maxLevel + 1)) _ hBA
            n hn1 l hl
        · rcases List.mem_singleton.mp hn1 with rfl
          have := List.eq_of_mem_replicate hl
          subst this
          simp

/-- C3 (amended): `HNSWIndex::add` keeps every node's neighbor list at
every level within `M * pruneOverflowFactor` at all times — but only
that bound: its `pruneNeighbors` early-returns while a list holds at
most `M * pruneOverflowFactor` entries, so a completed add may leave
lists longer than `M`.  `HNSWPQIndex::add` prunes any list exceeding
`M` immediately, so after each hybrid add every list has at most `M`
entries. -/
theorem neighbor_list_bounds_after_add (cfg : HNSWConfig)
    (hcfg : HNSWPQConfig) (st : HNSWState) (pst : HNSWPQState)
    (rl prl : ℕ) (id pid : ℤ) (v w : Vec)
    (hF : 1 ≤ cfg.pruneOverflowFactor)
    (hB : ∀ n ∈ st.nodes, ∀ l ∈ n.neighbors,
      l.length ≤ cfg.M * cfg.pruneOverflowFactor)
    (hwf : pst.wf)
    (hQ : ∀ n ∈ pst.nodes, ∀ l ∈ n.neighbors, l.length ≤ hcfg.M) :
    (∀ n ∈ (HNSWIndex.add cfg st rl id v).1.nodes,
      ∀ l ∈ n.neighbors, l.length ≤ cfg.M * cfg.pruneOverflowFactor)
    ∧ (∀ n ∈ (HNSWPQIndex.add hcfg pst prl pid w).1.nodes,
      ∀ l ∈ n.neighbors, l.length ≤ hcfg.M) :=
  ⟨hnsw_add_neighbor_bound cfg st rl id v hF hB,
   hnswpq_add_neighbor_bound hcfg pst prl pid w hwf hQ⟩

/-- Witness for C3: the concrete two-node examples satisfy the
hypotheses and the claim theorem applies to one add on each. -/
theorem neighbor_list_bounds_after_add_witness :
    1 ≤ hnswCfgExample.pruneOverflowFactor ∧ hpqExample.wf
    ∧ ((∀ n ∈ (HNSWIndex.add hnswCfgExample hnswExample 0 9 [2]).1.nodes,
        ∀ l ∈ n.neighbors,
          l.length ≤ hnswCfgExample.M * hnswCfgExample.pruneOverflowFactor)
      ∧ (∀ n ∈ (HNSWPQIndex.add hpqCfgExample hpqExample 0 9 [2]).1.nodes,
        ∀ l ∈ n.neighbors, l.length ≤ hpqCfgExample.M)) :=
  ⟨by decide, by decide,
   neighbor_list_bounds_after_add hnswCfgExample hpqCfgExample hnswExample
     hpqExample 0 0 9 9 [2] [2] (by decide) (by decide) (by decide)
     (by decide)⟩

/-- Counterexample to C3 as stated: with `M = 1` and
`pruneOverflowFactor = 2`, adding `[2]` to the two-node HNSW example
completes with node 1's level-0 list holding 2 > M entries — the
append makes it `[0, 2]` and `pruneNeighbors` early-returns because
`2 ≤ M * pruneOverflowFactor`. -/
theorem hnsw_post_add_exceeds_M_counterexample :
    hnswCfgExample.M = 1
    ∧ (((HNSWIndex.add hnswCfgExample hnswExample 0 9 [2]).1.nodes.getD 1
        ⟨0, []⟩).neighbors.getD 0 []).length = 2 := by
  refine ⟨rfl, ?_⟩
  norm_num [HNSWIndex.add, HNSWIndex.addLevelLoop, HNSWIndex.searchLevel,
    HNSWIndex.searchLevelLoop, HNSWIndex.processNeighbor,
    HNSWIndex.insByDist, HNSWIndex.greedyDescend, HNSWIndex.greedyInner,
    HNSWIndex.greedyPass, HNSWIndex.nodeAt, HNSWIndex.neighborsAt,
    HNSWIndex.totalNeighborEntries, HNSWIndex.selectNeighbors,
    HNSWIndex.connectNeighbors, HNSWIndex.pruneNeighbors,
    hnswComputeDistance, VectorStore.add, VectorStore.size,
    VectorStore.getVector, normSq, sqDist, floatMax, hnswExample,
    hnswCfgExample, List.modify]

/-- C4: on the codec-based indexes (PQ, IVF, HNSW+PQ) an `add` before
training fails with the precondition error and returns the state
unchanged, while `search` on an untrained index — or on one holding
zero vectors — returns zero results instead of failing. -/
theorem untrained_add_fails_and_empty_search_returns_zero
    (cfg : HNSWPQConfig) (pst : PQState) (ist : IVFState)
    (hst : HNSWPQState) (pst0 : PQState) (ist0 : IVFState)
    (hst0 : HNSWPQState) (q v : Vec) (id : ℤ) (k rl : ℕ)
    (hpt : pst.trained = false) (hit : ist.trained = false)
    (hht : hst.trained = false) (hp0 : pst0.size = 0) (hi0 : ist0.wf)
    (hi0s : ist0.size = 0) (hh0 : hst0.size = 0) :
    PQIndex.add pst id v
      = (pst, Except.error "PQ index must be trained before adding vectors")
    ∧ IVFIndex.add ist id v
      = (ist, Except.error "IVF index must be trained before adding vectors")
    ∧ HNSWPQIndex.add cfg hst rl id v
      = (hst,
        Except.error "HNSWPQ index must be trained before adding vectors")
    ∧ PQIndex.search pst q k = []
    ∧ IVFIndex.search ist q k = []
    ∧ HNSWPQIndex.search hst q k = []
    ∧ PQIndex.search pst0 q k = []
    ∧ IVFIndex.search ist0 q k = []
    ∧ HNSWPQIndex.search hst0 q k = [] := by
  refine ⟨?_, ?_, ?_, ?_, ?_, ?_, ?_, ?_, ?_⟩
  · unfold PQIndex.add
    rw [if_pos hpt]
  · unfold IVFIndex.add
    rw [if_pos hit]
  · unfold HNSWPQIndex.add
    rw [if_pos hht]
  · unfold PQIndex.search
    rw [if_pos hpt]
  · unfold IVFIndex.search
    rw [if_pos hit]
  · unfold HNSWPQIndex.search
    rw [if_pos (Or.inl hht)]
  · by_cases ht : pst0.trained = false
    · unfold PQIndex.search
      rw [if_pos ht]
    · unfold PQIndex.search
      rw [if_neg ht]
      simp [hp0, sortPairs]
  · by_cases ht : ist0.trained = false
    · unfold IVFIndex.search
      rw [if_pos ht]
    · unfold IVFIndex.search
      rw [if_neg ht]
      simp only []
      have hss : ist0.store.size = 0 := by
        have h1 := hi0.1
        omega
      have hall : ∀ j : ℕ, ist0.invertedLists.getD j [] = [] := by
        intro j
        rcases getD_mem_or_eq ist0.invertedLists j [] with hm | hm
        · refine List.eq_nil_iff_forall_not_mem.mpr ?_
          intro x hx
          have h2 := hi0.2.2.2.2.2 _ hm x hx
          rw [hss] at h2
          omega
        · exact hm
      set cd := (List.range ist0.nLists).map (fun i =>
        (sqDist q (ist0.centroids.getD i []), (i : ℤ))) with hcd
      set probed := (sortPairs cd).take (min ist0.nProbes ist0.nLists)
        with hpr
      set g : ℤ → ℚ × ℤ := fun idx =>
        (sqDist q (ist0.store.rows.getD idx.toNat []),
          ist0.store.getId idx) with hg
      set candidates := probed.flatMap (fun pr =>
        (ist0.invertedLists.getD pr.2.toNat []).map g) with hcand
      have hcnil : candidates = [] := by
        rw [hcand]
        refine List.eq_nil_iff_forall_not_mem.mpr ?_
        intro x hx
        rcases List.mem_flatMap.mp hx with ⟨pr, _, hxx⟩
        rw [hall pr.2.toNat] at hxx
        exact absurd hxx (List.not_mem_nil x)
      rw [hcnil]
      simp [sortPairs]
  · unfold HNSWPQIndex.search
    rw [if_pos (Or.inr hh0)]

/-- Witness for C4: untrained and emptied variants of the concrete
example states satisfy the hypotheses and the claim theorem applies. -/
theorem untrained_add_fails_and_empty_search_returns_zero_witness :
    ({ ivfExample with size := 0
                       store := VectorStore.empty 1 4
                       invertedLists := [[]] } : IVFState).wf
    ∧ (PQIndex.add { pqExample with trained := false } 9 [1, 1]
        = ({ pqExample with trained := false },
          Except.error "PQ index must be trained before adding vectors")
      ∧ IVFIndex.add { ivfExample with trained := false } 9 [1, 1]
        = ({ ivfExample with trained := false },
          Except.error "IVF index must be trained before adding vectors")
      ∧ HNSWPQIndex.add hpqCfgExample { hpqExample with trained := false }
          0 9 [1, 1]
        = ({ hpqExample with trained := false },
          Except.error "HNSWPQ index must be trained before adding vectors")
      ∧ PQIndex.search { pqExample with trained := false } [0] 1 = []
      ∧ IVFIndex.search { ivfExample with trained := false } [0] 1 = []
      ∧ HNSWPQIndex.search { hpqExample with trained := false } [0] 1 = []
      ∧ PQIndex.search { pqExample with size := 0 } [0] 1 = []
      ∧ IVFIndex.search { ivfExample with size := 0
                                          store := VectorStore.empty 1 4
                                          invertedLists := [[]] } [0] 1 = []
      ∧ HNSWPQIndex.search { hpqExample with size := 0 } [0] 1 = []) :=
  ⟨by decide,
   untrained_add_fails_and_empty_search_returns_zero hpqCfgExample
     { pqExample with trained := false }
     { ivfExample with trained := false }
     { hpqExample with trained := false }
     { pqExample with size := 0 }
     { ivfExample with size := 0
                       store := VectorStore.empty 1 4
                       invertedLists := [[]] }
     { hpqExample with size := 0 } [0] [1, 1] 9 1 0 rfl rfl rfl rfl
     (by decide) rfl rfl⟩

/-! ### Batch-add failure handling (claim C9) -/

/-- A full store makes `HNSWIndex::add` throw with the capacity error,
leaving the index unchanged. -/
theorem hnsw_add_full (cfg : HNSWConfig) (st : HNSWState) (lvl : ℕ)
    (id : ℤ) (v : Vec) (hfull : st.store.maxElements ≤ st.store.size) :
    HNSWIndex.add cfg st lvl id v
      = (st, Except.error "VectorStore is full") := by
  unfold HNSWIndex.add VectorStore.add
  rw [if_pos hfull]

/-- Against a full store, `HNSWIndex::addBatch`'s loop records every
position and keeps going. -/
theorem hnsw_addBatchGo_full (cfg : HNSWConfig) (st : HNSWState)
    (hfull : st.store.maxElements ≤ st.store.size) :
    ∀ (items : List (ℕ × ℤ × Vec)) (pos : ℕ),
      HNSWIndex.addBatchGo cfg st pos items
        = (st, List.range' pos items.length)
  | [], pos => rfl
  | (lvl, id, v) :: rest, pos => by
    unfold HNSWIndex.addBatchGo
    rw [hnsw_add_full cfg st lvl id v hfull]
    simp only []
    rw [hnsw_addBatchGo_full cfg st hfull rest (pos + 1)]
    simp [List.range'_succ]

/-- A full store makes `HNSWPQIndex::add` leave the state unchanged
(trained or not). -/
theorem hnswpq_add_full (cfg : HNSWPQConfig) (st : HNSWPQState)
    (lvl : ℕ) (id : ℤ) (v : Vec)
    (hfull : st.store.maxElements ≤ st.store.size) :
    (HNSWPQIndex.add cfg st lvl id v).1 = st := by
  unfold HNSWPQIndex.add
  by_cases ht : st.trained = false
  · rw [if_pos ht]
  · rw [if_neg ht]
    simp only []
    unfold VectorStore.add
    rw [if_pos hfull]

/-- Against a full store, `HNSWPQIndex::addBatch` swallows every
failure and ends unchanged. -/
theorem hnswpq_addBatch_full (cfg : HNSWPQConfig) (st : HNSWPQState)
    (hfull : st.store.maxElements ≤ st.store.size) :
    ∀ items : List (ℕ × ℤ × Vec),
      HNSWPQIndex.addBatch cfg st items = st
  | [] => rfl
  | (lvl, id, v) :: rest => by
    unfold HNSWPQIndex.addBatch
    rw [hnswpq_add_full cfg st lvl id v hfull]
    exact hnswpq_addBatch_full cfg st hfull rest

/-- C9 (amended): only `HNSWIndex::addBatch` collects per-item failures
and continues — shown here against a full store, where it records every
zero-based position and returns the state unchanged.
`HNSWPQIndex::addBatch` also continues past failures but records
nothing.  `PQIndex::addBatch` and `IVFIndex::addBatch` have no
failed-indices buffer at all: the first exception propagates and aborts
the batch, the remaining items never attempted. -/
theorem addBatch_failure_handling (cfg : HNSWConfig)
    (pcfg : HNSWPQConfig) (hst : HNSWState) (qst : HNSWPQState)
    (pst : PQState) (ist : IVFState) (hitems qitems : List (ℕ × ℤ × Vec))
    (pid iid : ℤ) (pv iv : Vec) (prest irest : List (ℤ × Vec))
    (hfull1 : hst.store.maxElements ≤ hst.store.size)
    (hfull2 : qst.store.maxElements ≤ qst.store.size)
    (hfull3 : pst.store.maxElements ≤ pst.store.size)
    (hptr : pst.trained = true)
    (hfull4 : ist.store.maxElements ≤ ist.store.size)
    (hitr : ist.trained = true) :
    HNSWIndex.addBatch cfg hst hitems = (hst, List.range hitems.length)
    ∧ HNSWPQIndex.addBatch pcfg qst qitems = qst
    ∧ PQIndex.addBatch pst ((pid, pv) :: prest)
        = (pst, Except.error "VectorStore is full")
    ∧ IVFIndex.addBatch ist ((iid, iv) :: irest)
        = (ist, Except.error "VectorStore is full") := by
  refine ⟨?_, hnswpq_addBatch_full pcfg qst hfull2 qitems, ?_, ?_⟩
  · unfold HNSWIndex.addBatch
    rw [hnsw_addBatchGo_full cfg hst hfull1 hitems 0]
    rw [List.range_eq_range']
  · unfold PQIndex.addBatch
    rw [if_neg (by rw [hptr]; exact (by decide : ¬(true = false)))]
    unfold PQIndex.addBatchGo
    simp only []
    unfold VectorStore.add
    rw [if_pos hfull3]
  · unfold IVFIndex.addBatch
    rw [if_neg (by rw [hitr]; exact (by decide : ¬(true = false)))]
    unfold IVFIndex.addBatchGo IVFIndex.add
    rw [if_neg (by rw [hitr]; exact (by decide : ¬(true = false)))]
    simp only []
    unfold VectorStore.add
    rw [if_pos hfull4]

/-- Witness for C9: full-capacity variants of the concrete examples
satisfy the hypotheses and the claim theorem applies to two-item
batches. -/
theorem addBatch_failure_handling_witness :
    ({ hnswExample with
        store := ⟨1, 2, [[0], [1]], [7, 8], [0, 1]⟩ } : HNSWState).store.maxElements
        ≤ ({ hnswExample with
        store := ⟨1, 2, [[0], [1]], [7, 8], [0, 1]⟩ } : HNSWState).store.size
    ∧ (HNSWIndex.addBatch hnswCfgExample
        { hnswExample with store := ⟨1, 2, [[0], [1]], [7, 8], [0, 1]⟩ }
        [(0, 9, [2]), (0, 8, [3])]
        = ({ hnswExample with
            store := ⟨1, 2, [[0], [1]], [7, 8], [0, 1]⟩ },
          List.range 2)
      ∧ HNSWPQIndex.addBatch hpqCfgExample
          { hpqExample with store := ⟨1, 2, [[0], [1]], [7, 8], [0, 1]⟩ }
          [(0, 9, [2]), (0, 8, [3])]
        = { hpqExample with store := ⟨1, 2, [[0], [1]], [7, 8], [0, 1]⟩ }
      ∧ PQIndex.addBatch
          { pqExample with store := ⟨2, 1, [[1, 3]], [7], [10]⟩ }
          [(9, [2, 2]), (8, [3, 3])]
        = ({ pqExample with store := ⟨2, 1, [[1, 3]], [7], [10]⟩ },
          Except.error "VectorStore is full")
      ∧ IVFIndex.addBatch
          { ivfExample with store := ⟨1, 2, [[-1], [1]], [5, 3], [1, 1]⟩ }
          [(9, [0]), (8, [0])]
        = ({ ivfExample with store := ⟨1, 2, [[-1], [1]], [5, 3], [1, 1]⟩ },
          Except.error "VectorStore is full")) :=
  ⟨by decide,
   addBatch_failure_handling hnswCfgExample hpqCfgExample
     { hnswExample with store := ⟨1, 2, [[0], [1]], [7, 8], [0, 1]⟩ }
     { hpqExample with store := ⟨1, 2, [[0], [1]], [7, 8], [0, 1]⟩ }
     { pqExample with store := ⟨2, 1, [[1, 3]], [7], [10]⟩ }
     { ivfExample with store := ⟨1, 2, [[-1], [1]], [5, 3], [1, 1]⟩ }
     [(0, 9, [2]), (0, 8, [3])] [(0, 9, [2]), (0, 8, [3])]
     9 9 [2, 2] [0] [(8, [3, 3])] [(8, [0])]
     (by decide) (by decide) (by decide) rfl (by decide) rfl⟩

/-- Counterexample to C9 as stated: a trained IVF index at capacity,
given a two-item batch, propagates the first capacity exception as the
batch result — no failed position is recorded anywhere and the second
item is never attempted (the returned state and error are those of the
first failing insert). -/
theorem ivf_addBatch_aborts_counterexample :
    IVFIndex.addBatch
      { ivfExample with store := ⟨1, 2, [[-1], [1]], [5, 3], [1, 1]⟩ }
      [(9, [0]), (8, [0])]
      = ({ ivfExample with store := ⟨1, 2, [[-1], [1]], [5, 3], [1, 1]⟩ },
        Except.error "VectorStore is full") := by
  norm_num [IVFIndex.addBatch, IVFIndex.addBatchGo, IVFIndex.add,
    IVFIndex.findNearestCentroid, findNearestIn, sqDist, floatMax,
    VectorStore.add, VectorStore.size, ivfExample, List.range_succ]

/-! ### Claim C5: IVF search pipeline and its tie-break -/

/-- C5 **counterexample**.  On `ivfExample`, both stored vectors are at
distance 1 from the query `[0]`; internal index 0 carries label 5 and
internal index 1 carries label 3.  The code sorts `(distance, label)`
pairs, so label 3 (internal index 1) is returned first; the claimed
tie-break by internal index would return label 5 first. -/
theorem ivf_tie_break_counterexample :
    IVFIndex.search ivfExample [0] 2 = [(1, 3), (1, 5)]
    ∧ IVFIndex.searchSpecTieByIndex ivfExample [0] 2 = [(1, 5), (1, 3)]
    ∧ IVFIndex.search ivfExample [0] 2
        ≠ IVFIndex.searchSpecTieByIndex ivfExample [0] 2 := by
  have h1 : IVFIndex.search ivfExample [0] 2 = [(1, 3), (1, 5)] := by
    norm_num [IVFIndex.search, ivfExample, sortPairs, List.insertionSort,
      List.orderedInsert, pairLe, sqDist, VectorStore.getId, VectorStore.size,
      List.range_succ]
  have h2 : IVFIndex.searchSpecTieByIndex ivfExample [0] 2 = [(1, 5), (1, 3)] := by
    norm_num [IVFIndex.searchSpecTieByIndex, ivfExample, sortPairs,
      List.insertionSort, List.orderedInsert, pairLe, sqDist,
      VectorStore.getId, VectorStore.size, List.range_succ]
  refine ⟨h1, h2, ?_⟩
  rw [h1, h2]
  norm_num

/-- **C5 (amended).**  For IVF `search(query, k)` on a trained index:
all `nLists` centroids are ranked by distance to the query, the
`nProbes` closest cells are probed, exact distances are computed over
the union of their posting lists, and the top-`k` of those candidates
is returned — with ties among equal distances broken by **external
label** (the candidate pairs carry `getId`, not the internal index). -/
theorem ivf_search_matches_spec_tie_by_label (st : IVFState) (q : Vec) (k : ℕ) :
    IVFIndex.search st q k = IVFIndex.searchSpecTieByLabel st q k := by
  unfold IVFIndex.search IVFIndex.searchSpecTieByLabel
  by_cases ht : st.trained = false
  · simp [ht]
  · simp only [ht, if_false, Bool.false_eq_true]
    set cands := ((sortPairs ((List.range st.nLists).map (fun i =>
      (sqDist q (st.centroids.getD i []), (i : ℤ))))).take
        (min st.nProbes st.nLists)).flatMap (fun pr =>
      (st.invertedLists.getD pr.2.toNat []).map (fun idx =>
        (sqDist q (st.store.rows.getD idx.toNat []), st.store.getId idx)))
      with hcands
    by_cases hk : k < cands.length
    · simp only [hk, if_true]
      have hlen : ((sortPairs cands).take k).length = k := by
        rw [List.length_take, sortPairs_length]
        omega
      rw [hlen, min_self, List.take_take, min_self]
    · simp only [hk, if_false]
      have hlen : (sortPairs cands).length ≤ k := by
        rw [sortPairs_length]; omega
      rw [min_eq_right (le_of_eq (sortPairs_length cands) |>.trans (by omega)),
        List.take_of_length_le (by rw [sortPairs_length]),
        List.take_of_length_le hlen]

end VectorDB
